import Mathlib

/-!
# action-semantic-versioning: semantic versions, conventional commits, bump levels, changelog

A shallow embedding of `internal/semver/semver.go`, `internal/commit/types.go`,
`internal/commit/parse.go`, `internal/changelog/changelog.go` and the tag scan
`FindLatestSemverTag` of `internal/git/git.go`, followed by the properties proved about them.

Modelling conventions.

* A Go `string` is a `List Char` (`Str`): the text is taken to be valid UTF-8, so that
  the runes Go's `regexp`, `strings.TrimSpace` and `strings.Split` see are the list's
  characters. Where Go counts bytes (`len`, `s[:n]` in `shortHash`), the bytes are those of
  the UTF-8 encoding of the characters.
* A Go `int` is taken to be 64 bits wide. It is a Lean `Int` kept inside that range: `+` on
  `int` is followed by `wrapInt`, the two's-complement wrap-around of the Go language, and
  `strconv.Atoi` stops at the bounds of the range.
* The three regular expressions of the source are kept as abstract syntax (`Regex`) and
  run by a backtracking matcher that lists the matches in the order in which Go's
  leftmost-first (Perl-like) semantics prefers them.
-/

/-- A Go string, as the list of its runes. -/
abbrev Str := List Char

/-! ## The regular-expression matcher -/

/-- Abstract syntax of the regular expressions used by the program. All three patterns
start with `^`, which is why matching is anchored at the start of the text and has no
constructor of its own; every repetition in them is over a single character class. -/
inductive Regex where
  /-- The empty pattern. -/
  | eps
  /-- One character of a class: `\d`, `[^)]`, `.`, a literal character. -/
  | cls (p : Char → Bool)
  /-- Concatenation `ab`. -/
  | seq (a b : Regex)
  /-- Alternation `a|b`, preferring `a`. -/
  | alt (a b : Regex)
  /-- Greedy repetition `c*` of a character class. -/
  | star (p : Char → Bool)
  /-- Greedy option `a?`: prefers to match `a`. -/
  | opt (a : Regex)
  /-- Lazy option `a??`: prefers to skip `a`. -/
  | optLazy (a : Regex)
  /-- Capturing group number `i`. -/
  | group (i : Nat) (a : Regex)
  /-- End of text `$` (no `m` flag). -/
  | eot

/-- The capture groups set so far; the most recent binding of a group comes first. -/
abbrev Caps := List (Nat × Str)

/-- A matcher state: the text still to be read, and the captures. -/
abbrev MState := Str × Caps

/-- All ways for `c*` to read a prefix of the text, the longest first. -/
def starRun (p : Char → Bool) (caps : Caps) : Str → List MState
  | [] => [([], caps)]
  | c :: cs => if p c then starRun p caps cs ++ [(c :: cs, caps)] else [(c :: cs, caps)]

/-- All ways for a pattern to match a prefix of the state's text, in the order of
preference of a backtracking search. -/
def Regex.run : Regex → MState → List MState
  | .eps, st => [st]
  | .cls p, (c :: cs, caps) => if p c then [(cs, caps)] else []
  | .cls _, ([], _) => []
  | .seq a b, st => (a.run st).flatMap b.run
  | .alt a b, st => a.run st ++ b.run st
  | .star p, (s, caps) => starRun p caps s
  | .opt a, st => a.run st ++ [st]
  | .optLazy a, st => st :: a.run st
  | .group i a, (s, caps) =>
      (a.run (s, caps)).map fun st => (st.1, (i, s.take (s.length - st.1.length)) :: st.2)
  | .eot, (s, caps) => if s = [] then [(s, caps)] else []

/-- The text of capture group `i`, empty when the group took no part in the match
(as in the slice returned by `FindStringSubmatch`). -/
def Caps.get (m : Caps) (i : Nat) : Str := (m.lookup i).getD []

/-- Go's `(*Regexp).FindStringSubmatch` for a pattern that starts with `^`: the captures
of the preferred match, or `none` (Go's `nil`) when there is no match. -/
def Regex.findSubmatch (re : Regex) (s : Str) : Option Caps :=
  (re.run (s, [])).head?.map fun st => st.2

/-- Go's `(*Regexp).MatchString` for a pattern that starts with `^`. -/
def Regex.matchString (re : Regex) (s : Str) : Bool := (re.findSubmatch s).isSome

/-- A literal character. -/
def Regex.chr (c : Char) : Regex := .cls fun x => x == c

/-- One or more characters of a class, `c+`. -/
def Regex.plus (p : Char → Bool) : Regex := .seq (.cls p) (.star p)

/-- A literal text. -/
def Regex.lit : Str → Regex
  | [] => .eps
  | c :: cs => .seq (.chr c) (Regex.lit cs)

/-! ## Character classes and the `strings`, `strconv`, `fmt` functions used -/

/-- The class `\d` (ASCII digits). -/
def isDigit (c : Char) : Bool := '0' ≤ c && c ≤ '9'

/-- The class `[a-zA-Z0-9]`. -/
def isAlnum (c : Char) : Bool :=
  ('a' ≤ c && c ≤ 'z') || ('A' ≤ c && c ≤ 'Z') || ('0' ≤ c && c ≤ '9')

/-- The class `[a-zA-Z0-9.]`. -/
def isAlnumDot (c : Char) : Bool := isAlnum c || c == '.'

/-- The class `\w` (ASCII word characters). -/
def isWord (c : Char) : Bool := isAlnum c || c == '_'

/-- The class `[\w-]`. -/
def isWordHyphen (c : Char) : Bool := isWord c || c == '-'

/-- The class `\s`: tab, newline, form feed, carriage return, space. -/
def isReSpace (c : Char) : Bool :=
  c == '\t' || c == '\n' || c == '\x0c' || c == '\r' || c == ' '

/-- The class `.` (no `s` flag): anything but a newline. -/
def isNotNewline (c : Char) : Bool := c != '\n'

/-- The class `[^)]`. -/
def isNotRParen (c : Char) : Bool := c != ')'

/-- Go's `unicode.IsSpace`: the Unicode White_Space property. -/
def isSpace (c : Char) : Bool :=
  let n := c.toNat
  (0x09 ≤ n && n ≤ 0x0d) || n == 0x20 || n == 0x85 || n == 0xa0 || n == 0x1680 ||
    (0x2000 ≤ n && n ≤ 0x200a) || n == 0x2028 || n == 0x2029 || n == 0x202f ||
    n == 0x205f || n == 0x3000

/-- Go's `strings.TrimSpace`. -/
def TrimSpace (s : Str) : Str :=
  ((s.dropWhile isSpace).reverse.dropWhile isSpace).reverse

/-- Go's `strings.Split(s, "\n")`: never empty, one more piece than there are newlines. -/
def SplitLines : Str → List Str
  | [] => [[]]
  | c :: cs =>
    if c = '\n' then [] :: SplitLines cs
    else
      match SplitLines cs with
      | [] => [[c]]
      | l :: ls => (c :: l) :: ls

/-- Go's `strings.Join(lines, "\n")`. -/
def JoinLines : List Str → Str
  | [] => []
  | [l] => l
  | l :: ls => l ++ '\n' :: JoinLines ls

/-- Go's `strings.ToLower` on ASCII text (it is only applied to a capture of `\w+`);
characters outside `A`-`Z` are left as they are. -/
def ToLower (s : Str) : Str := s.map Char.toLower

/-- Go's `strings.ToUpper` on ASCII text (it is only applied to a capture of
`[\w-]+|BREAKING CHANGE`); characters outside `a`-`z` are left as they are. -/
def ToUpper (s : Str) : Str := s.map Char.toUpper

/-- The largest Go `int` (64-bit). -/
def maxInt : Int := 9223372036854775807

/-- The smallest Go `int` (64-bit). -/
def minInt : Int := -9223372036854775808

/-- Two's-complement wrap-around of an integer into the range of a Go `int`. -/
def wrapInt (x : Int) : Int :=
  (x + 9223372036854775808) % 18446744073709551616 - 9223372036854775808

/-- The number a run of decimal digits denotes. -/
def decVal (ds : Str) : Nat := ds.foldl (fun acc c => 10 * acc + (c.toNat - '0'.toNat)) 0

/-- The value `strconv.ParseInt` gives for the digits `ds` after an optional sign (`neg`
for `-`): `0` on a syntax error, the nearest bound of `int` when out of range. -/
def parseDigits (neg : Bool) (ds : Str) : Int :=
  if ds = [] ∨ ds.all isDigit = false then 0
  else if neg then max minInt (-(decVal ds : Int))
  else min (decVal ds : Int) maxInt

/-- Go's `strconv.Atoi` with its error dropped, as in `major, _ := strconv.Atoi(...)`:
`0` on a syntax error, and the nearest bound of `int` when the number is out of range. -/
def Atoi : Str → Int
  | '+' :: ds => parseDigits false ds
  | '-' :: ds => parseDigits true ds
  | ds => parseDigits false ds

/-- The verb `%d` of `fmt.Sprintf` on an `int`. -/
def fmtInt (n : Int) : Str :=
  if n < 0 then '-' :: Nat.toDigits 10 n.natAbs else Nat.toDigits 10 n.natAbs

/-! ## `internal/semver/semver.go` -/

namespace semver

/-- The pattern
`^(v)?(\d+)\.(\d+)\.(\d+)(?:-([a-zA-Z0-9][a-zA-Z0-9.]*))??(?:\+([a-zA-Z0-9][a-zA-Z0-9.]*))?$`. -/
def semverRegex : Regex :=
  .seq (.opt (.group 1 (.chr 'v'))) <|
  .seq (.group 2 (.plus isDigit)) <|
  .seq (.chr '.') <|
  .seq (.group 3 (.plus isDigit)) <|
  .seq (.chr '.') <|
  .seq (.group 4 (.plus isDigit)) <|
  .seq (.optLazy (.seq (.chr '-') (.group 5 (.seq (.cls isAlnum) (.star isAlnumDot))))) <|
  .seq (.opt (.seq (.chr '+') (.group 6 (.seq (.cls isAlnum) (.star isAlnumDot))))) <|
  .eot

/-- A parsed semantic version. -/
structure Version where
  Major : Int
  Minor : Int
  Patch : Int
  Prerelease : Str
  Metadata : Str
  Prefix : Str
  deriving DecidableEq, Repr

/-- Parses a version string; `none` stands for the error `invalid semver`. -/
def Parse (s : Str) : Option Version :=
  match semverRegex.findSubmatch s with
  | none => none
  | some m =>
    some
      { Prefix := m.get 1
        Major := Atoi (m.get 2)
        Minor := Atoi (m.get 3)
        Patch := Atoi (m.get 4)
        Prerelease := m.get 5
        Metadata := m.get 6 }

/-- A new version with major incremented and minor/patch reset. -/
def Version.BumpMajor (v : Version) : Version :=
  { Major := wrapInt (v.Major + 1), Minor := 0, Patch := 0, Prefix := v.Prefix,
    Prerelease := [], Metadata := [] }

/-- A new version with minor incremented and patch reset. -/
def Version.BumpMinor (v : Version) : Version :=
  { Major := v.Major, Minor := wrapInt (v.Minor + 1), Patch := 0, Prefix := v.Prefix,
    Prerelease := [], Metadata := [] }

/-- A new version with patch incremented. -/
def Version.BumpPatch (v : Version) : Version :=
  { Major := v.Major, Minor := v.Minor, Patch := wrapInt (v.Patch + 1), Prefix := v.Prefix,
    Prerelease := [], Metadata := [] }

/-- The version as a string with its original prefix. -/
def Version.String (v : Version) : Str :=
  let s := v.Prefix ++ fmtInt v.Major ++ '.' :: fmtInt v.Minor ++ '.' :: fmtInt v.Patch
  let s := if v.Prerelease ≠ [] then s ++ '-' :: v.Prerelease else s
  if v.Metadata ≠ [] then s ++ '+' :: v.Metadata else s

end semver

/-! ## `internal/commit/types.go` and `internal/commit/parse.go` -/

namespace commit

/-- The kind of version bump: the constants `BumpNone = 0`, ..., `BumpMajor = 3`. -/
inductive BumpType where
  | BumpNone
  | BumpPatch
  | BumpMinor
  | BumpMajor
  deriving DecidableEq, Repr

open BumpType

/-- The integer behind a `BumpType`. -/
def BumpType.toNat : BumpType → Nat
  | BumpNone => 0
  | BumpPatch => 1
  | BumpMinor => 2
  | BumpMajor => 3

instance : LT BumpType := ⟨fun a b => a.toNat < b.toNat⟩

instance : LE BumpType := ⟨fun a b => a.toNat ≤ b.toNat⟩

instance (a b : BumpType) : Decidable (a < b) := inferInstanceAs (Decidable (a.toNat < b.toNat))

instance (a b : BumpType) : Decidable (a ≤ b) := inferInstanceAs (Decidable (a.toNat ≤ b.toNat))

/-- A git trailer / conventional commit footer. -/
structure Footer where
  Token : Str
  Value : Str
  deriving DecidableEq, Repr

/-- A parsed conventional commit message. -/
structure ConventionalCommit where
  Type_ : Str
  Scope : Str
  Description : Str
  Body : Str
  Footers : List Footer
  Breaking : Bool
  Raw : Str
  Hash : Str
  deriving DecidableEq, Repr

/-- The pattern `^(\w+)(\(([^)]*)\))?(!)?:\s*(.+)$`. -/
def subjectRegex : Regex :=
  .seq (.group 1 (.plus isWord)) <|
  .seq (.opt (.group 2 (.seq (.chr '(') (.seq (.group 3 (.star isNotRParen)) (.chr ')'))))) <|
  .seq (.opt (.group 4 (.chr '!'))) <|
  .seq (.chr ':') <|
  .seq (.star isReSpace) <|
  .seq (.group 5 (.plus isNotNewline)) <|
  .eot

/-- The text `BREAKING CHANGE`. -/
def breakingChange : Str :=
  ['B', 'R', 'E', 'A', 'K', 'I', 'N', 'G', ' ', 'C', 'H', 'A', 'N', 'G', 'E']

/-- The text `BREAKING-CHANGE`. -/
def breakingHyphenChange : Str :=
  ['B', 'R', 'E', 'A', 'K', 'I', 'N', 'G', '-', 'C', 'H', 'A', 'N', 'G', 'E']

/-- The pattern `^([\w-]+|BREAKING CHANGE)\s*:\s*(.+)$`. -/
def footerRegex : Regex :=
  .seq (.group 1 (.alt (.plus isWordHyphen) (.lit breakingChange))) <|
  .seq (.star isReSpace) <|
  .seq (.chr ':') <|
  .seq (.star isReSpace) <|
  .seq (.group 2 (.plus isNotNewline)) <|
  .eot

/-- The backward loop of `parseBodyAndFooters`: `n` is `i + 1` for the loop index `i`,
`footerStart` the value of the variable on entry; the result is its value on exit. -/
def scanFooterStart (lines : List Str) : Nat → Nat → Nat
  | 0, footerStart => footerStart
  | i + 1, footerStart =>
    let trimmed := TrimSpace (lines.getD i [])
    if trimmed = [] then footerStart
    else if footerRegex.matchString trimmed then scanFooterStart lines i i
    else footerStart

/-- The footer a line holds, if its trimmed text matches the footer pattern. -/
def footerOfLine (line : Str) : Option Footer :=
  match footerRegex.findSubmatch (TrimSpace line) with
  | some m => some { Token := m.get 1, Value := m.get 2 }
  | none => none

/-- Splits the lines after the subject into the body and the footers. -/
def parseBodyAndFooters (lines : List Str) : Str × List Footer :=
  let footerStart := scanFooterStart lines lines.length lines.length
  let footers := (lines.drop footerStart).filterMap footerOfLine
  let bodyLines := lines.take footerStart
  let body := TrimSpace (JoinLines bodyLines)
  (body, footers)

/-- The test made on each footer by `Parse`: its token, upper-cased, is
`BREAKING CHANGE` or `BREAKING-CHANGE`. -/
def isBreakingFooter (f : Footer) : Bool :=
  let token := ToUpper f.Token
  token == breakingChange || token == breakingHyphenChange

/-- Parses a commit message into a `ConventionalCommit`; non-conventional messages give
one with an empty `Type`. -/
def Parse (hash message : Str) : ConventionalCommit :=
  let cc : ConventionalCommit :=
    { Hash := hash, Raw := message, Type_ := [], Scope := [], Description := [], Body := [],
      Footers := [], Breaking := false }
  match SplitLines message with
  | [] => cc
  | first :: rest =>
    match subjectRegex.findSubmatch (TrimSpace first) with
    | none => cc
    | some m =>
      let bf : Str × List Footer :=
        if rest.length + 1 > 1 then parseBodyAndFooters rest else ([], [])
      let breaking := if m.get 4 = ['!'] then true else false
      { cc with
        Type_ := ToLower (m.get 1)
        Scope := m.get 3
        Description := m.get 5
        Body := bf.1
        Footers := bf.2
        Breaking := bf.2.foldl (fun b f => if isBreakingFooter f then true else b) breaking }

/-- One turn of the loop of `DetermineBump` for a commit that is not breaking. -/
def bumpStep (bumpPatchOnUnknown : Bool) (bump : BumpType) (c : ConventionalCommit) :
    BumpType :=
  if c.Type_ = ['f', 'e', 'a', 't'] then
    if bump < BumpMinor then BumpMinor else bump
  else if c.Type_ = ['f', 'i', 'x'] ∨ c.Type_ = ['p', 'e', 'r', 'f'] then
    if bump < BumpPatch then BumpPatch else bump
  else
    let bump := if bumpPatchOnUnknown ∧ c.Type_ ≠ [] ∧ bump < BumpPatch then BumpPatch else bump
    if bumpPatchOnUnknown ∧ c.Type_ = [] ∧ bump < BumpPatch then BumpPatch else bump

/-- The loop of `DetermineBump`, from the running value `bump`. -/
def determineLoop (bumpPatchOnUnknown : Bool) : List ConventionalCommit → BumpType → BumpType
  | [], bump => bump
  | c :: cs, bump =>
    if c.Breaking then BumpMajor
    else determineLoop bumpPatchOnUnknown cs (bumpStep bumpPatchOnUnknown bump c)

/-- The highest bump type from a list of commits. -/
def DetermineBump (commits : List ConventionalCommit) (bumpPatchOnUnknown : Bool) : BumpType :=
  determineLoop bumpPatchOnUnknown commits BumpNone

/-! ### The level of one commit, as the specification words it -/

/-- The larger of two bump levels under `None < Patch < Minor < Major`. -/
def BumpType.max (a b : BumpType) : BumpType := if a < b then b else a

/-- The level a single non-breaking commit asks for: `feat` asks for `Minor`, `fix` and
`perf` for `Patch`, any other type for `Patch` when unknown types bump, else for nothing. -/
def levelOf (bumpPatchOnUnknown : Bool) (c : ConventionalCommit) : BumpType :=
  if c.Type_ = ['f', 'e', 'a', 't'] then BumpMinor
  else if c.Type_ = ['f', 'i', 'x'] ∨ c.Type_ = ['p', 'e', 'r', 'f'] then BumpPatch
  else if bumpPatchOnUnknown then BumpPatch
  else BumpNone

/-- The maximum of the levels of the commits of a list; `None` for the empty list. -/
def maxLevel (bumpPatchOnUnknown : Bool) (commits : List ConventionalCommit) : BumpType :=
  commits.foldr (fun c acc => BumpType.max (levelOf bumpPatchOnUnknown c) acc) BumpNone

/-- The commit `{Type: t}` of the tests, all other fields zero. -/
def ofType (t : Str) : ConventionalCommit :=
  { Type_ := t, Scope := [], Description := [], Body := [], Footers := [], Breaking := false,
    Raw := [], Hash := [] }

end commit

/-! ## The grammar of version texts, as the specification words it -/

namespace semver

/-- The sub-pattern `[a-zA-Z0-9][a-zA-Z0-9.]*` of `semverRegex`. -/
def identifier : Regex := .seq (.cls isAlnum) (.star isAlnumDot)

/-- The end `(?:\+(...))?$` of `semverRegex`. -/
def buildTail : Regex := .seq (.opt (.seq (.chr '+') (.group 6 identifier))) .eot

/-- The end `(?:-(...))??(?:\+(...))?$` of `semverRegex`. -/
def preTail : Regex := .seq (.optLazy (.seq (.chr '-') (.group 5 identifier))) buildTail

/-- The part `(\d+)\.(\d+)\.(\d+)...$` of `semverRegex` after the optional `v`. -/
def coreTail : Regex :=
  .seq (.group 2 (.plus isDigit)) <| .seq (.chr '.') <|
  .seq (.group 3 (.plus isDigit)) <| .seq (.chr '.') <|
  .seq (.group 4 (.plus isDigit)) preTail

/-- A non-empty run of ASCII digits. -/
def isDigits (x : Str) : Bool := x ≠ [] && x.all isDigit

/-- One ASCII alphanumeric followed by any number of ASCII alphanumerics or dots. -/
def isIdent : Str → Bool
  | [] => false
  | c :: cs => isAlnum c && cs.all isAlnumDot

/-- A digit run without a superfluous leading zero that denotes a number an `int` holds. -/
def isCanonical (a : Str) : Bool :=
  (a == ['0'] || a.head? != some '0') && decide ((decVal a : Int) ≤ maxInt)

/-- The parts of a version text, as the grammar of the specification names them. -/
structure Parts where
  /-- Whether the text starts with the single letter `v`. -/
  v : Bool
  major : Str
  minor : Str
  patch : Str
  /-- The pre-release after `-`, if there is one. -/
  pre : Option Str
  /-- The build metadata after `+`, if there is one. -/
  build : Option Str

/-- The parts obey the grammar: three non-empty digit runs, and identifiers of the
shape `[a-zA-Z0-9][a-zA-Z0-9.]*` where present. -/
def Parts.WF (p : Parts) : Prop :=
  isDigits p.major = true ∧ isDigits p.minor = true ∧ isDigits p.patch = true ∧
    (∀ x, p.pre = some x → isIdent x = true) ∧ (∀ x, p.build = some x → isIdent x = true)

/-- The text after the patch number: `-pre` and `+build`, each if present. -/
def suffixText (pre build : Option Str) : Str :=
  (match pre with
    | some x => '-' :: x
    | none => []) ++
  (match build with
    | some x => '+' :: x
    | none => [])

/-- The captures of the two optional groups 5 and 6, the later group first. -/
def suffixCaps (pre build : Option Str) : Caps :=
  (match build with
    | some x => [(6, x)]
    | none => []) ++
  (match pre with
    | some x => [(5, x)]
    | none => [])

/-- The text from the major number on. -/
def Parts.core (p : Parts) : Str :=
  p.major ++ '.' :: (p.minor ++ '.' :: (p.patch ++ suffixText p.pre p.build))

/-- The whole text the parts spell. -/
def Parts.text (p : Parts) : Str := if p.v then 'v' :: p.core else p.core

/-- The version the parts denote when each number is read by `Atoi`. -/
def Parts.version (p : Parts) : Version :=
  { Prefix := if p.v then ['v'] else []
    Major := Atoi p.major
    Minor := Atoi p.minor
    Patch := Atoi p.patch
    Prerelease := p.pre.getD []
    Metadata := p.build.getD [] }

end semver

/-! ## Parts of the commit patterns, and the words of the specification about messages -/

namespace commit

/-- The end `\s*(.+)$` of both commit patterns, with `i` the number of its group. -/
def valueTail (i : Nat) : Regex :=
  .seq (.star isReSpace) <| .seq (.group i (.plus isNotNewline)) .eot

/-- The end `(!)?:\s*(.+)$` of `subjectRegex`. -/
def bangTail : Regex := .seq (.opt (.group 4 (.chr '!'))) <| .seq (.chr ':') (valueTail 5)

/-- The group `(\(([^)]*)\))` of `subjectRegex`. -/
def scopeGroup : Regex :=
  .group 2 (.seq (.chr '(') (.seq (.group 3 (.star isNotRParen)) (.chr ')')))

/-- The end `\s*:\s*(.+)$` of `footerRegex`. -/
def footerTail : Regex := .seq (.star isReSpace) <| .seq (.chr ':') (valueTail 2)

/-- The first line of a message, `lines[0]` in `Parse`. -/
def firstLine (message : Str) : Str := (SplitLines message).headD []

/-- The header of a message carries the breaking marker: its trimmed first line matches
the subject pattern and the group `(!)` took part in the match. -/
def headerBang (message : Str) : Bool :=
  match subjectRegex.findSubmatch (TrimSpace (firstLine message)) with
  | some m => decide (m.get 4 = ['!'])
  | none => false

/-- The text `(scope)` of a header, nothing when there is no scope. -/
def scopeText : Option Str → Str
  | some s => '(' :: (s ++ [')'])
  | none => []

/-- The captures of groups 2 and 3 on `(scope)`. -/
def scopeCaps : Option Str → Caps
  | some s => [(2, '(' :: (s ++ [')'])), (3, s)]
  | none => []

/-- The text of the breaking marker, nothing when there is none. -/
def bangText (bang : Bool) : Str := if bang then ['!'] else []

/-- The header `type(scope)!: description` with its optional parts. -/
def headerText (t : Str) (scope : Option Str) (bang : Bool) (d : Str) : Str :=
  t ++ (scopeText scope ++ (bangText bang ++ ':' :: ' ' :: d))

/-- The body and footers `Parse` takes from the lines after the first, when the header
matches: `parseBodyAndFooters(lines[1:])` if `len(lines) > 1`, nothing otherwise. -/
def footersOf (message : Str) : Str × List Footer :=
  if (SplitLines message).tail.length + 1 > 1 then parseBodyAndFooters (SplitLines message).tail
  else ([], [])

/-- The commit with every field but `Raw` and `Hash` empty, the start value of `Parse`. -/
def emptyCommit (hash message : Str) : ConventionalCommit :=
  { Hash := hash, Raw := message, Type_ := [], Scope := [], Description := [], Body := [],
    Footers := [], Breaking := false }

end commit

/-! ## `Compare` of `internal/semver/semver.go`, and the words of the specification about it -/

/-- Go's `<` on strings. Go compares the bytes of the two strings; on valid UTF-8 that is
the lexicographic order of the runes by code point, which this is. -/
def strLt : Str → Str → Bool
  | [], [] => false
  | [], _ :: _ => true
  | _ :: _, [] => false
  | a :: as, b :: bs => if a < b then true else if b < a then false else strLt as bs

namespace semver

/-- The helper `cmpInt`: `-1` when `a < b`, else `1`. -/
def cmpInt (a b : Int) : Int := if a < b then -1 else 1

/-- Compares `v` to `other`: `-1`, `0` or `1`. `Metadata` is not read. -/
def Version.Compare (v other : Version) : Int :=
  if v.Major ≠ other.Major then cmpInt v.Major other.Major
  else if v.Minor ≠ other.Minor then cmpInt v.Minor other.Minor
  else if v.Patch ≠ other.Patch then cmpInt v.Patch other.Patch
  else if v.Prerelease = [] ∧ other.Prerelease ≠ [] then 1
  else if v.Prerelease ≠ [] ∧ other.Prerelease = [] then -1
  else if strLt v.Prerelease other.Prerelease then -1
  else if strLt other.Prerelease v.Prerelease then 1
  else 0

/-- The versions the program can build: those `Parse` returns, and their bumps. -/
inductive Obtainable : Version → Prop where
  | parse (s : Str) (v : Version) (h : Parse s = some v) : Obtainable v
  | bumpMajor (v : Version) (h : Obtainable v) : Obtainable v.BumpMajor
  | bumpMinor (v : Version) (h : Obtainable v) : Obtainable v.BumpMinor
  | bumpPatch (v : Version) (h : Obtainable v) : Obtainable v.BumpPatch

/-- The triple `(Major, Minor, Patch)` of `a` is lexicographically smaller, as integers,
than that of `b`. -/
def tripleLt (a b : Version) : Prop :=
  a.Major < b.Major ∨ (a.Major = b.Major ∧
    (a.Minor < b.Minor ∨ (a.Minor = b.Minor ∧ a.Patch < b.Patch)))

/-- The triples `(Major, Minor, Patch)` of `a` and `b` are the same. -/
def tripleEq (a b : Version) : Prop :=
  a.Major = b.Major ∧ a.Minor = b.Minor ∧ a.Patch = b.Patch

/-- The order `Compare` puts on pre-release strings of versions with the same triple:
a pre-release is below no pre-release, and two pre-releases are in the order of Go's `<`. -/
def preLt (x y : Str) : Prop := x ≠ [] ∧ (y = [] ∨ strLt x y = true)

/-- `a` is strictly below `b`: by the triple, or with the same triple by the pre-release. -/
def versionLt (a b : Version) : Prop :=
  tripleLt a b ∨ (tripleEq a b ∧ preLt a.Prerelease b.Prerelease)

/-! ### Precedence of semantic versioning 2.0.0, section 11, as the doc comment of
`Compare` names it -/

/-- The identifiers of a pre-release: the pieces between its dots. -/
def splitDots : Str → List Str
  | [] => [[]]
  | c :: cs =>
    if c = '.' then [] :: splitDots cs
    else
      match splitDots cs with
      | [] => [[c]]
      | l :: ls => (c :: l) :: ls

/-- Precedence of two pre-release identifiers: numeric identifiers are compared as
numbers, a numeric identifier is below an alphanumeric one, and two alphanumeric
identifiers are compared as ASCII texts. -/
def cmpIdentifier (x y : Str) : Int :=
  if isDigits x ∧ isDigits y then
    if decVal x < decVal y then -1 else if decVal y < decVal x then 1 else 0
  else if isDigits x then -1
  else if isDigits y then 1
  else if strLt x y then -1
  else if strLt y x then 1
  else 0

/-- Precedence of two lists of identifiers: the first pair that differs decides, and a
list that runs out first is below the longer one. -/
def cmpIdentifiers : List Str → List Str → Int
  | [], [] => 0
  | [], _ :: _ => -1
  | _ :: _, [] => 1
  | x :: xs, y :: ys => if cmpIdentifier x y ≠ 0 then cmpIdentifier x y else cmpIdentifiers xs ys

/-- Precedence of semantic versioning: the triple numerically, then a pre-release below
its release, then the pre-releases identifier by identifier; build metadata is ignored. -/
def precedence (a b : Version) : Int :=
  if a.Major ≠ b.Major then cmpInt a.Major b.Major
  else if a.Minor ≠ b.Minor then cmpInt a.Minor b.Minor
  else if a.Patch ≠ b.Patch then cmpInt a.Patch b.Patch
  else if a.Prerelease = [] ∧ b.Prerelease = [] then 0
  else if a.Prerelease = [] then 1
  else if b.Prerelease = [] then -1
  else cmpIdentifiers (splitDots a.Prerelease) (splitDots b.Prerelease)

end semver

/-! ## `internal/changelog/changelog.go` -/

namespace changelog

open commit

/-- Go's `len(s)`: the number of bytes of the UTF-8 text. -/
def byteLen (s : Str) : Nat := (s.map Char.utf8Size).sum

/-- Go's `s[:n]` for `n` at most `len(s)`: the runes that lie within the first `n` bytes.
When the cut falls inside a rune, the bytes kept of that rune are no rune any more; Go
decodes each of them as the replacement character `U+FFFD`, and so they are shown here. -/
def takeBytes : Nat → Str → Str
  | _, [] => []
  | n, c :: cs =>
    if c.utf8Size ≤ n then c :: takeBytes (n - c.utf8Size) cs
    else List.replicate n (Char.ofNat 0xfffd)

/-- The hash cut to its first 7 bytes. -/
def shortHash (hash : Str) : Str :=
  if byteLen hash > 7 then takeBytes 7 hash else hash

/-- The text before the first newline (`s[:i]` for `i = strings.IndexByte(s, '\n')`), or
all of `s` when it holds no newline. -/
def firstLine (s : Str) : Str := s.takeWhile fun c => c != '\n'

/-- The bullet of a commit: `- **scope**: description (hash)`, without the scope part
when the scope is empty. -/
def formatCommit (c : ConventionalCommit) : Str :=
  let hash := shortHash c.Hash
  if c.Scope ≠ [] then
    "- **".toList ++ c.Scope ++ "**: ".toList ++ c.Description ++ " (".toList ++ hash ++
      ")".toList
  else "- ".toList ++ c.Description ++ " (".toList ++ hash ++ ")".toList

/-- The five slices `breaking, features, fixes, perf, other` of `Generate`. -/
structure Groups where
  breaking : List Str
  features : List Str
  fixes : List Str
  perf : List Str
  other : List Str
  deriving DecidableEq, Repr

/-- One turn of the loop of `Generate` over the commits. -/
def addCommit (g : Groups) (c : ConventionalCommit) : Groups :=
  let line := formatCommit c
  if c.Breaking then { g with breaking := g.breaking ++ [line] }
  else if c.Type_ = "feat".toList then { g with features := g.features ++ [line] }
  else if c.Type_ = "fix".toList then { g with fixes := g.fixes ++ [line] }
  else if c.Type_ = "perf".toList then { g with perf := g.perf ++ [line] }
  else if c.Type_ = [] then
    { g with
      other := g.other ++
        ["- ".toList ++ firstLine c.Raw ++ " (".toList ++ shortHash c.Hash ++ ")".toList] }
  else { g with other := g.other ++ [line] }

/-- The loop of `Generate` over the commits, from five empty slices. -/
def collect (commits : List ConventionalCommit) : Groups :=
  commits.foldl addCommit ⟨[], [], [], [], []⟩

/-- Writes a section to the builder `sb`: nothing when there are no items, else the
subheading and one line per item. -/
def writeSection (sb : Str) (title : Str) (items : List Str) : Str :=
  if items.length = 0 then sb
  else items.foldl (fun sb item => sb ++ item ++ ['\n']) (sb ++ "\n### ".toList ++ title ++ ['\n'])

/-- Creates a markdown changelog from parsed commits. -/
def Generate (commits : List ConventionalCommit) (previousTag newTag : Str) : Str :=
  let g := collect commits
  let sb := "## What's Changed\n".toList
  let sb := writeSection sb "Breaking Changes".toList g.breaking
  let sb := writeSection sb "Features".toList g.features
  let sb := writeSection sb "Bug Fixes".toList g.fixes
  let sb := writeSection sb "Performance".toList g.perf
  let sb := writeSection sb "Other Changes".toList g.other
  if previousTag ≠ [] ∧ newTag ≠ [] then
    sb ++ "\n**Full Changelog**: ".toList ++ previousTag ++ "...".toList ++ newTag ++ ['\n']
  else sb

/-! ### The changelog, as the specification words it -/

/-- The five groups of the changelog, in the order of their sections. -/
inductive Group where
  | breaking
  | features
  | fixes
  | perf
  | other
  deriving DecidableEq, Repr

/-- The title of the section of a group. -/
def Group.title : Group → Str
  | .breaking => "Breaking Changes".toList
  | .features => "Features".toList
  | .fixes => "Bug Fixes".toList
  | .perf => "Performance".toList
  | .other => "Other Changes".toList

/-- The subheading of a group, as it stands in the text: `### title`. -/
def Group.subheading (g : Group) : Str := "### ".toList ++ g.title

/-- The group of a commit, first match wins: breaking, then `feat`, `fix`, `perf`, and
everything else (the empty type too) under Other Changes. -/
def groupOf (c : ConventionalCommit) : Group :=
  if c.Breaking then .breaking
  else if c.Type_ = "feat".toList then .features
  else if c.Type_ = "fix".toList then .fixes
  else if c.Type_ = "perf".toList then .perf
  else .other

/-- The first 7 characters of a hash, the whole hash when it has 7 or fewer. -/
def shortId (hash : Str) : Str := hash.take 7

/-- The bullet `- **SCOPE**: DESCRIPTION (ID)`, or `- DESCRIPTION (ID)` for an empty
scope. -/
def bulletText (scope description id : Str) : Str :=
  if scope ≠ [] then
    "- **".toList ++ scope ++ "**: ".toList ++ description ++ " (".toList ++ id ++ ")".toList
  else "- ".toList ++ description ++ " (".toList ++ id ++ ")".toList

/-- The bullet of a commit in the changelog: a commit that is neither breaking nor typed
is shown by the first line of its raw message, every other one by its scope and
description. -/
def bulletOf (c : ConventionalCommit) : Str :=
  if c.Breaking = false ∧ c.Type_ = [] then
    bulletText [] (firstLine c.Raw) (shortHash c.Hash)
  else bulletText c.Scope c.Description (shortHash c.Hash)

/-- The bullets of a group: those of the commits of the group, in the order of the list. -/
def groupBullets (g : Group) (commits : List ConventionalCommit) : List Str :=
  (commits.filter fun c => groupOf c = g).map bulletOf

/-- The text of a section: nothing for no bullets, else a blank line, the subheading and
the bullets, one per line. -/
def sectionText (g : Group) (bullets : List Str) : Str :=
  if bullets = [] then []
  else '\n' :: (g.subheading ++ '\n' :: bullets.flatMap fun b => b ++ ['\n'])

/-- The comparison line: a blank line and `**Full Changelog**: prev...new`, present when
both labels are non-empty. -/
def comparisonText (previousTag newTag : Str) : Str :=
  if previousTag ≠ [] ∧ newTag ≠ [] then
    '\n' :: ("**Full Changelog**: ".toList ++ previousTag ++ "...".toList ++ newTag ++ ['\n'])
  else []

end changelog

/-! ## `FindLatestSemverTag` of `internal/git/git.go` -/

namespace git

/-- One turn of the loop of `FindLatestSemverTag`: the state is the pair of `latest`
(`none` for `nil`) and `latestTag`. -/
def latestStep (st : Option semver.Version × Str) (line : Str) : Option semver.Version × Str :=
  let tag := TrimSpace line
  if tag = [] then st
  else
    match semver.Parse tag with
    | none => st
    | some v =>
      match st.1 with
      | none => (some v, tag)
      | some latest => if v.Compare latest > 0 then (some v, tag) else st

/-- The highest semver tag of `out`, the text `git tag --list` returned (the case where git
fails, in which the error is passed on, is not modelled). -/
def FindLatestSemverTag (out : Str) : Str :=
  ((SplitLines out).foldl latestStep (none, [])).2

/-- The tags of a listing that `Parse` accepts, trimmed, in the order listed. -/
def parseableTags (out : Str) : List Str :=
  ((SplitLines out).map TrimSpace).filter fun t => (semver.Parse t).isSome

end git

/-! ## Footer lines, blank lines and the lines of the changelog, as the specification words them -/

namespace commit

/-- A footer line: trimmed, it is not blank and matches the footer pattern. -/
def isFooterLine (line : Str) : Bool :=
  decide (TrimSpace line ≠ []) && footerRegex.matchString (TrimSpace line)

/-- A blank line: nothing but white space. -/
def isBlankLine (line : Str) : Bool := decide (TrimSpace line = [])

/-- The lines without the blank lines at the start and at the end. -/
def stripBlankLines (lines : List Str) : List Str :=
  ((lines.dropWhile isBlankLine).reverse.dropWhile isBlankLine).reverse

/-- A text with one optional space removed from its start. -/
def dropOneSpace : Str → Str
  | [] => []
  | c :: r => if c = ' ' then r else c :: r

end commit

namespace changelog

/-- The lines of a section: none for no bullets, else an empty line, the subheading and the
bullets. -/
def sectionLines (g : Group) (bullets : List Str) : List Str :=
  if bullets = [] then [] else [] :: g.subheading :: bullets

/-- The lines of the comparison: an empty line and `**Full Changelog**: prev...new`, when
both labels are non-empty. -/
def comparisonLines (previousTag newTag : Str) : List Str :=
  if previousTag ≠ [] ∧ newTag ≠ [] then
    [[], "**Full Changelog**".toList ++ ':' :: ' ' :: (previousTag ++ "...".toList ++ newTag)]
  else []

/-- The changelog as a list of pieces, each of which is followed by a newline in the text:
the heading, the sections of the five groups, the comparison. -/
def changelogLines (commits : List commit.ConventionalCommit) (previousTag newTag : Str) :
    List Str :=
  "## What's Changed".toList ::
    (sectionLines .breaking (groupBullets .breaking commits) ++
      (sectionLines .features (groupBullets .features commits) ++
        (sectionLines .fixes (groupBullets .fixes commits) ++
          (sectionLines .perf (groupBullets .perf commits) ++
            (sectionLines .other (groupBullets .other commits) ++
              comparisonLines previousTag newTag)))))

end changelog

/-! # Properties -/

/-! ## Bump determination -/

namespace commit

open BumpType

theorem BumpType.max_assoc (a b c : BumpType) :
    BumpType.max (BumpType.max a b) c = BumpType.max a (BumpType.max b c) := by
  cases a <;> cases b <;> cases c <;> rfl

theorem BumpType.max_none_right (a : BumpType) : BumpType.max a BumpNone = a := by
  cases a <;> rfl

theorem bumpStep_eq_max (flag : Bool) (bump : BumpType) (c : ConventionalCommit) :
    bumpStep flag bump c = BumpType.max bump (levelOf flag c) := by
  unfold bumpStep levelOf
  by_cases h1 : c.Type_ = ['f', 'e', 'a', 't']
  · simp only [h1, if_true]
    cases bump <;> rfl
  · by_cases h2 : c.Type_ = ['f', 'i', 'x'] ∨ c.Type_ = ['p', 'e', 'r', 'f']
    · simp only [h1, h2, if_true, if_false]
      cases bump <;> rfl
    · simp only [h1, h2, if_false]
      by_cases h3 : c.Type_ = [] <;> cases flag <;> cases bump <;> simp [h3] <;> decide

theorem determineLoop_eq_max (flag : Bool) (commits : List ConventionalCommit)
    (h : ∀ c ∈ commits, c.Breaking = false) (bump : BumpType) :
    determineLoop flag commits bump = BumpType.max bump (maxLevel flag commits) := by
  induction commits generalizing bump with
  | nil => simp [determineLoop, maxLevel, BumpType.max_none_right]
  | cons c cs ih =>
    have hc : c.Breaking = false := h c (List.mem_cons_self _ _)
    have hcs : ∀ x ∈ cs, x.Breaking = false := fun x hx => h x (List.mem_cons_of_mem _ hx)
    simp only [determineLoop, hc, Bool.false_eq_true, if_false]
    rw [ih hcs, bumpStep_eq_max, BumpType.max_assoc]
    rfl

theorem determineLoop_breaking (flag : Bool) (commits : List ConventionalCommit)
    (h : ∃ c ∈ commits, c.Breaking = true) (bump : BumpType) :
    determineLoop flag commits bump = BumpMajor := by
  induction commits generalizing bump with
  | nil => simp at h
  | cons c cs ih =>
    by_cases hc : c.Breaking = true
    · simp [determineLoop, hc]
    · have hcs : ∃ x ∈ cs, x.Breaking = true := by
        obtain ⟨x, hx, hb⟩ := h
        rcases List.mem_cons.mp hx with rfl | hx
        · exact absurd hb hc
        · exact ⟨x, hx, hb⟩
      simp only [determineLoop, hc, if_false]
      exact ih hcs _

/-- C1: on a commit list without breaking commits, and for either value of the flag,
`DetermineBump` returns the maximum (under `None < Patch < Minor < Major`) of the levels of
the commits, where `feat` gives `Minor`, `fix` and `perf` give `Patch`, and any other type
(the empty one too) gives `Patch` when the flag is set and `None` otherwise; the empty
list yields `None`. -/
theorem DetermineBump_eq_maxLevel (commits : List ConventionalCommit)
    (bumpPatchOnUnknown : Bool) (h : ∀ c ∈ commits, c.Breaking = false) :
    DetermineBump commits bumpPatchOnUnknown = maxLevel bumpPatchOnUnknown commits ∧
      DetermineBump [] bumpPatchOnUnknown = BumpNone := by
  refine ⟨?_, rfl⟩
  unfold DetermineBump
  rw [determineLoop_eq_max bumpPatchOnUnknown commits h]
  cases maxLevel bumpPatchOnUnknown commits <;> rfl

/-- The scenario `[fix, feat, docs]` with the flag off: the theorem applies and the level
is `Minor`. -/
theorem DetermineBump_eq_maxLevel_witness :
    (∀ c ∈ [ofType ['f', 'i', 'x'], ofType ['f', 'e', 'a', 't'], ofType ['d', 'o', 'c', 's']],
        c.Breaking = false) ∧
      DetermineBump [ofType ['f', 'i', 'x'], ofType ['f', 'e', 'a', 't'],
        ofType ['d', 'o', 'c', 's']] false = BumpMinor :=
  ⟨by decide,
    (DetermineBump_eq_maxLevel
      [ofType ['f', 'i', 'x'], ofType ['f', 'e', 'a', 't'], ofType ['d', 'o', 'c', 's']]
      false (by decide)).1.trans (by decide)⟩

/-- C2: a commit list that holds a breaking commit, at any position and whatever the
other commits and the flag are, gives `Major`. -/
theorem DetermineBump_breaking (commits : List ConventionalCommit) (bumpPatchOnUnknown : Bool)
    (h : ∃ c ∈ commits, c.Breaking = true) :
    DetermineBump commits bumpPatchOnUnknown = BumpMajor :=
  determineLoop_breaking bumpPatchOnUnknown commits h BumpNone

/-- The test `mixed with breaking`: a `fix` followed by a breaking `feat`. -/
theorem DetermineBump_breaking_witness :
    (∃ c ∈ [ofType ['f', 'i', 'x'], { ofType ['f', 'e', 'a', 't'] with Breaking := true }],
        c.Breaking = true) ∧
      DetermineBump [ofType ['f', 'i', 'x'], { ofType ['f', 'e', 'a', 't'] with Breaking := true }]
        false = BumpMajor :=
  ⟨by decide,
    DetermineBump_breaking
      [ofType ['f', 'i', 'x'], { ofType ['f', 'e', 'a', 't'] with Breaking := true }] false
      (by decide)⟩

end commit

/-! ## The matcher on patterns that need no backtracking -/

theorem take_sub_dropWhile (p : Char → Bool) (s : Str) :
    s.take (s.length - (s.dropWhile p).length) = s.takeWhile p := by
  have h := List.takeWhile_append_dropWhile p s
  have hl : s.length = (s.takeWhile p).length + (s.dropWhile p).length := by
    rw [← List.length_append, h]
  have h2 : s.length - (s.dropWhile p).length = (s.takeWhile p).length := by omega
  rw [h2]
  have h3 := @List.take_left' Char (s.takeWhile p) (s.dropWhile p) _ rfl
  rw [h] at h3
  exact h3

theorem take_cons_sub_dropWhile (p : Char → Bool) (c : Char) (cs : Str) :
    (c :: cs).take ((c :: cs).length - (cs.dropWhile p).length) = c :: cs.takeWhile p := by
  have hl : cs.length = (cs.takeWhile p).length + (cs.dropWhile p).length := by
    rw [← List.length_append, List.takeWhile_append_dropWhile]
  have h2 : (c :: cs).length - (cs.dropWhile p).length = (cs.takeWhile p).length + 1 := by
    simp only [List.length_cons]; omega
  rw [h2, List.take_succ_cons]
  congr 1
  have h := take_sub_dropWhile p cs
  have h3 : cs.length - (cs.dropWhile p).length = (cs.takeWhile p).length := by omega
  rw [h3] at h
  exact h

/-- A greedy repetition followed by something that cannot start with a character of the
class reads the longest run: the shorter runs all fail. -/
theorem starRun_flatMap {β : Type} (p : Char → Bool) (caps : Caps) (f : MState → List β)
    (hf : ∀ c cs, p c = true → f (c :: cs, caps) = []) (s : Str) :
    (starRun p caps s).flatMap f = f (s.dropWhile p, caps) := by
  induction s with
  | nil => simp [starRun]
  | cons c cs ih =>
    by_cases hc : p c = true
    · simp [starRun, hc, ih, hf c cs hc]
    · simp [starRun, hc]

/-- The preferred way for a greedy repetition to match is the longest run. -/
theorem starRun_eq_cons (p : Char → Bool) (caps : Caps) (s : Str) :
    ∃ tl, starRun p caps s = (s.dropWhile p, caps) :: tl := by
  induction s with
  | nil => exact ⟨[], rfl⟩
  | cons c cs ih =>
    by_cases hc : p c = true
    · obtain ⟨tl, h⟩ := ih
      exact ⟨tl ++ [(c :: cs, caps)], by simp [starRun, hc, h]⟩
    · exact ⟨[], by simp [starRun, hc]⟩

theorem run_seq_seq (a b c : Regex) (st : MState) :
    (Regex.seq (.seq a b) c).run st = (Regex.seq a (.seq b c)).run st := by
  simp only [Regex.run, List.flatMap_assoc]

theorem run_seq_opt (a rest : Regex) (st : MState) :
    (Regex.seq (.opt a) rest).run st = (Regex.seq a rest).run st ++ rest.run st := by
  simp [Regex.run]

theorem run_seq_optLazy (a rest : Regex) (st : MState) :
    (Regex.seq (.optLazy a) rest).run st = rest.run st ++ (Regex.seq a rest).run st := by
  simp [Regex.run]

theorem run_seq_chr (x : Char) (rest : Regex) (s : Str) (caps : Caps) :
    (Regex.seq (.chr x) rest).run (s, caps) =
      match s with
      | [] => []
      | c :: cs => if c = x then rest.run (cs, caps) else [] := by
  cases s with
  | nil => simp [Regex.run, Regex.chr]
  | cons c cs => by_cases h : c = x <;> simp [Regex.run, Regex.chr, h]

theorem run_seq_group (i : Nat) (a rest : Regex) (s : Str) (caps : Caps) :
    (Regex.seq (.group i a) rest).run (s, caps) =
      (a.run (s, caps)).flatMap fun st =>
        rest.run (st.1, (i, s.take (s.length - st.1.length)) :: st.2) := by
  simp [Regex.run, List.flatMap_map]

theorem run_seq_group_alt (i : Nat) (a b rest : Regex) (st : MState) :
    (Regex.seq (.group i (.alt a b)) rest).run st =
      (Regex.seq (.group i a) rest).run st ++ (Regex.seq (.group i b) rest).run st := by
  obtain ⟨s, caps⟩ := st
  simp [Regex.run]

/-- A group `(q p*)` followed by a pattern that cannot start with a character of `p`
captures the longest run. -/
theorem run_seq_group_cls_star (i : Nat) (q p : Char → Bool) (rest : Regex)
    (hrest : ∀ c cs k, p c = true → rest.run (c :: cs, k) = []) (s : Str) (caps : Caps) :
    (Regex.seq (.group i (.seq (.cls q) (.star p))) rest).run (s, caps) =
      match s with
      | [] => []
      | c :: cs =>
        if q c then rest.run (cs.dropWhile p, (i, c :: cs.takeWhile p) :: caps) else [] := by
  rw [run_seq_group]
  cases s with
  | nil => simp [Regex.run]
  | cons c cs =>
    by_cases hq : q c = true
    · simp only [Regex.run, hq, if_true, List.flatMap_cons, List.flatMap_nil, List.append_nil]
      refine (starRun_flatMap p caps
        (fun st => rest.run (st.1, (i, (c :: cs).take ((c :: cs).length - st.1.length)) :: st.2))
        (fun x xs hx => hrest x xs _ hx) cs).trans ?_
      simp only [take_cons_sub_dropWhile]
    · simp [Regex.run, hq]

theorem run_seq_group_plus (i : Nat) (p : Char → Bool) (rest : Regex)
    (hrest : ∀ c cs k, p c = true → rest.run (c :: cs, k) = []) (s : Str) (caps : Caps) :
    (Regex.seq (.group i (.plus p)) rest).run (s, caps) =
      match s with
      | [] => []
      | c :: cs =>
        if p c then rest.run (cs.dropWhile p, (i, c :: cs.takeWhile p) :: caps) else [] :=
  run_seq_group_cls_star i p p rest hrest s caps

theorem run_seq_group_star (i : Nat) (p : Char → Bool) (rest : Regex)
    (hrest : ∀ c cs k, p c = true → rest.run (c :: cs, k) = []) (s : Str) (caps : Caps) :
    (Regex.seq (.group i (.star p)) rest).run (s, caps) =
      rest.run (s.dropWhile p, (i, s.takeWhile p) :: caps) := by
  rw [run_seq_group]
  simp only [Regex.run]
  refine (starRun_flatMap p caps
    (fun st => rest.run (st.1, (i, s.take (s.length - st.1.length)) :: st.2))
    (fun x xs hx => hrest x xs _ hx) s).trans ?_
  simp only [take_sub_dropWhile]

theorem run_seq_star (p : Char → Bool) (rest : Regex)
    (hrest : ∀ c cs k, p c = true → rest.run (c :: cs, k) = []) (s : Str) (caps : Caps) :
    (Regex.seq (.star p) rest).run (s, caps) = rest.run (s.dropWhile p, caps) := by
  simp only [Regex.run]
  exact starRun_flatMap p caps _ (fun x xs hx => hrest x xs _ hx) s

theorem run_seq_star_head (p : Char → Bool) (rest : Regex) (s : Str) (caps : Caps) :
    ∃ tl, (Regex.seq (.star p) rest).run (s, caps) = rest.run (s.dropWhile p, caps) ++ tl := by
  obtain ⟨tl, h⟩ := starRun_eq_cons p caps s
  exact ⟨tl.flatMap rest.run, by simp [Regex.run, h]⟩

theorem run_eot (s : Str) (caps : Caps) :
    Regex.eot.run (s, caps) = if s = [] then [([], caps)] else [] := by
  by_cases h : s = [] <;> simp [Regex.run, h]

theorem ne_of_class {p : Char → Bool} {c x : Char} (h : p c = true) (hx : p x = false) :
    c ≠ x := by
  rintro rfl
  rw [h] at hx
  cases hx

theorem run_seq_chr_ne {c x : Char} (h : c ≠ x) (rest : Regex) (cs : Str) (caps : Caps) :
    (Regex.seq (.chr x) rest).run (c :: cs, caps) = [] := by
  simp [run_seq_chr, h]

theorem run_seq_chr_self (x : Char) (rest : Regex) (cs : Str) (caps : Caps) :
    (Regex.seq (.chr x) rest).run (x :: cs, caps) = rest.run (cs, caps) := by
  simp [run_seq_chr]

theorem takeWhile_append_of_all (p : Char → Bool) (xs r : Str) (hxs : xs.all p = true)
    (hr : ∀ c cs, r = c :: cs → p c = false) : (xs ++ r).takeWhile p = xs := by
  induction xs with
  | nil =>
    cases r with
    | nil => rfl
    | cons c cs => simp [List.takeWhile, hr c cs rfl]
  | cons x xs ih =>
    simp only [List.all_cons, Bool.and_eq_true] at hxs
    simp [List.takeWhile, hxs.1, ih hxs.2]

theorem dropWhile_append_of_all (p : Char → Bool) (xs r : Str) (hxs : xs.all p = true)
    (hr : ∀ c cs, r = c :: cs → p c = false) : (xs ++ r).dropWhile p = r := by
  induction xs with
  | nil =>
    cases r with
    | nil => rfl
    | cons c cs => simp [List.dropWhile, hr c cs rfl]
  | cons x xs ih =>
    simp only [List.all_cons, Bool.and_eq_true] at hxs
    simp [List.dropWhile, hxs.1, ih hxs.2]

theorem all_takeWhile (p : Char → Bool) (s : Str) : (s.takeWhile p).all p = true := by
  induction s with
  | nil => rfl
  | cons c cs ih =>
    by_cases h : p c = true
    · simp [List.takeWhile, h]
    · simp [List.takeWhile, h]

theorem dropWhile_eq_nil_iff_all (p : Char → Bool) (s : Str) :
    s.dropWhile p = [] ↔ s.all p = true := by
  induction s with
  | nil => simp
  | cons c cs ih =>
    by_cases h : p c = true
    · simp [List.dropWhile, h]
    · simp [List.dropWhile, h]

theorem takeWhile_eq_self_of_all (p : Char → Bool) (s : Str) (h : s.all p = true) :
    s.takeWhile p = s := by
  have := takeWhile_append_of_all p s [] h (by simp)
  simpa using this

/-- A group `(p+)` followed by a pattern that cannot start with a character of `p`: the
group is the longest run of `p`, which must not be empty. -/
theorem run_seq_group_plus_eq (i : Nat) (p : Char → Bool) (rest : Regex)
    (hrest : ∀ c cs k, p c = true → rest.run (c :: cs, k) = []) (s : Str) (caps : Caps) :
    (Regex.seq (.group i (.plus p)) rest).run (s, caps) =
      if s.takeWhile p = [] then []
      else rest.run (s.dropWhile p, (i, s.takeWhile p) :: caps) := by
  rw [run_seq_group_plus i p rest hrest]
  cases s with
  | nil => rfl
  | cons c cs => by_cases h : p c = true <;> simp [List.takeWhile, List.dropWhile, h]

/-! ## The version pattern -/

namespace semver

theorem semverRegex_eq : semverRegex = .seq (.opt (.group 1 (.chr 'v'))) coreTail := rfl

theorem eot_run_cons (c : Char) (cs : Str) (k : Caps) : Regex.eot.run (c :: cs, k) = [] := by
  simp [Regex.run]

theorem buildTail_run_nil (caps : Caps) : buildTail.run ([], caps) = [([], caps)] := by
  simp [buildTail, run_seq_opt, run_seq_seq, run_seq_chr, Regex.run]

theorem buildTail_run_ne (c : Char) (cs : Str) (caps : Caps) (h : c ≠ '+') :
    buildTail.run (c :: cs, caps) = [] := by
  simp [buildTail, run_seq_opt, run_seq_seq, run_seq_chr, h, Regex.run]

theorem buildTail_run_plus (x : Str) (caps : Caps) :
    buildTail.run ('+' :: x, caps) = if isIdent x then [([], (6, x) :: caps)] else [] := by
  unfold buildTail
  rw [run_seq_opt, run_seq_seq, run_seq_chr_self, eot_run_cons, List.append_nil]
  unfold identifier
  rw [run_seq_group_cls_star 6 isAlnum isAlnumDot .eot (fun c cs k _ => eot_run_cons c cs k)]
  cases x with
  | nil => rfl
  | cons d ds =>
    by_cases hd : isAlnum d = true
    · by_cases hall : ds.all isAlnumDot = true
      · simp [isIdent, hd, hall, run_eot, (dropWhile_eq_nil_iff_all _ _).mpr hall,
          takeWhile_eq_self_of_all _ _ hall]
      · have : ds.dropWhile isAlnumDot ≠ [] := fun h => hall ((dropWhile_eq_nil_iff_all _ _).mp h)
        simp [isIdent, hd, hall, run_eot, this]
    · simp [isIdent, hd]

theorem preTail_run_nil (caps : Caps) : preTail.run ([], caps) = [([], caps)] := by
  unfold preTail
  rw [run_seq_optLazy, buildTail_run_nil, run_seq_seq, run_seq_chr]
  rfl

theorem preTail_run_plus (x : Str) (caps : Caps) :
    preTail.run ('+' :: x, caps) = buildTail.run ('+' :: x, caps) := by
  unfold preTail
  rw [run_seq_optLazy, run_seq_seq, run_seq_chr_ne (by decide), List.append_nil]

theorem preTail_run_ne (c : Char) (cs : Str) (caps : Caps) (h1 : c ≠ '+') (h2 : c ≠ '-') :
    preTail.run (c :: cs, caps) = [] := by
  unfold preTail
  rw [run_seq_optLazy, run_seq_seq, run_seq_chr_ne h2, buildTail_run_ne c cs caps h1]
  rfl

theorem preTail_run_minus (x : Str) (caps : Caps) :
    preTail.run ('-' :: x, caps) =
      match x with
      | [] => []
      | d :: ds =>
        if isAlnum d then
          buildTail.run (ds.dropWhile isAlnumDot, (5, d :: ds.takeWhile isAlnumDot) :: caps)
        else [] := by
  unfold preTail
  rw [run_seq_optLazy, buildTail_run_ne _ _ _ (by decide), run_seq_seq, run_seq_chr_self,
    List.nil_append]
  unfold identifier
  rw [run_seq_group_cls_star 5 isAlnum isAlnumDot buildTail
    (fun c cs k hc => buildTail_run_ne c cs k (ne_of_class hc (by decide)))]

theorem isIdent_cons {d : Char} {ds : Str} (h : isIdent (d :: ds) = true) :
    isAlnum d = true ∧ ds.all isAlnumDot = true := by
  simpa [isIdent] using h

theorem preTail_run_suffix (pre build : Option Str) (hpre : ∀ x, pre = some x → isIdent x = true)
    (hbuild : ∀ x, build = some x → isIdent x = true) (caps : Caps) :
    preTail.run (suffixText pre build, caps) = [([], suffixCaps pre build ++ caps)] := by
  cases pre with
  | none =>
    cases build with
    | none => simp [suffixText, suffixCaps, preTail_run_nil]
    | some b =>
      simp [suffixText, suffixCaps, preTail_run_plus, buildTail_run_plus, hbuild b rfl]
  | some x =>
    cases x with
    | nil => exact absurd (hpre [] rfl) (by simp [isIdent])
    | cons d ds =>
      obtain ⟨hd, hds⟩ := isIdent_cons (hpre _ rfl)
      cases build with
      | none =>
        simp [suffixText, suffixCaps, preTail_run_minus, hd,
          (dropWhile_eq_nil_iff_all _ _).mpr hds, takeWhile_eq_self_of_all _ _ hds,
          buildTail_run_nil]
      | some b =>
        have h1 : (ds ++ '+' :: b).dropWhile isAlnumDot = '+' :: b :=
          dropWhile_append_of_all _ _ _ hds (by
            intro c cs h
            cases h
            decide)
        have h2 : (ds ++ '+' :: b).takeWhile isAlnumDot = ds :=
          takeWhile_append_of_all _ _ _ hds (by
            intro c cs h
            cases h
            decide)
        simp [suffixText, suffixCaps, preTail_run_minus, hd, h1, h2, buildTail_run_plus,
          hbuild b rfl]

theorem buildTail_run_ne_nil (r : Str) (caps : Caps) (h : buildTail.run (r, caps) ≠ []) :
    ∃ build : Option Str, (∀ x, build = some x → isIdent x = true) ∧
      r = suffixText none build := by
  cases r with
  | nil => exact ⟨none, by simp, rfl⟩
  | cons c cs =>
    by_cases hc : c = '+'
    · subst hc
      rw [buildTail_run_plus] at h
      by_cases hi : isIdent cs = true
      · exact ⟨some cs, by simp [hi], rfl⟩
      · simp [hi] at h
    · exact absurd (buildTail_run_ne c cs caps hc) h

theorem preTail_run_ne_nil (r : Str) (caps : Caps) (h : preTail.run (r, caps) ≠ []) :
    ∃ pre build : Option Str, (∀ x, pre = some x → isIdent x = true) ∧
      (∀ x, build = some x → isIdent x = true) ∧ r = suffixText pre build := by
  cases r with
  | nil => exact ⟨none, none, by simp, by simp, rfl⟩
  | cons c cs =>
    by_cases hp : c = '+'
    · subst hp
      rw [preTail_run_plus] at h
      obtain ⟨build, hb, hr⟩ := buildTail_run_ne_nil _ _ h
      exact ⟨none, build, by simp, hb, hr⟩
    · by_cases hm : c = '-'
      · subst hm
        rw [preTail_run_minus] at h
        cases cs with
        | nil => exact absurd rfl h
        | cons d ds =>
          by_cases hd : isAlnum d = true
          · simp only [hd, if_true] at h
            obtain ⟨build, hb, hr⟩ := buildTail_run_ne_nil _ _ h
            refine ⟨some (d :: ds.takeWhile isAlnumDot), build, ?_, hb, ?_⟩
            · intro x hx
              cases hx
              simp [isIdent, hd, all_takeWhile]
            · have hsplit := List.takeWhile_append_dropWhile isAlnumDot ds
              rw [hr] at hsplit
              simp only [suffixText, List.nil_append, List.cons_append, List.cons.injEq,
                true_and] at hsplit ⊢
              exact hsplit.symm
          · simp [hd] at h
      · exact absurd (preTail_run_ne c cs caps hp hm) h

theorem isDigits_iff {a : Str} : isDigits a = true ↔ a ≠ [] ∧ a.all isDigit = true := by
  simp [isDigits]

theorem run_digits_append (i : Nat) (rest : Regex)
    (hrest : ∀ c cs k, isDigit c = true → rest.run (c :: cs, k) = []) (a r : Str)
    (ha : isDigits a = true) (hr : ∀ c cs, r = c :: cs → isDigit c = false) (caps : Caps) :
    (Regex.seq (.group i (.plus isDigit)) rest).run (a ++ r, caps) =
      rest.run (r, (i, a) :: caps) := by
  obtain ⟨hne, hall⟩ := isDigits_iff.mp ha
  rw [run_seq_group_plus_eq i isDigit rest hrest, takeWhile_append_of_all _ _ _ hall hr,
    dropWhile_append_of_all _ _ _ hall hr, if_neg hne]

theorem run_digits_ne_nil (i : Nat) (rest : Regex)
    (hrest : ∀ c cs k, isDigit c = true → rest.run (c :: cs, k) = []) (s : Str) (caps : Caps)
    (h : (Regex.seq (.group i (.plus isDigit)) rest).run (s, caps) ≠ []) :
    ∃ a r, isDigits a = true ∧ s = a ++ r ∧ rest.run (r, (i, a) :: caps) ≠ [] := by
  rw [run_seq_group_plus_eq i isDigit rest hrest] at h
  by_cases hne : s.takeWhile isDigit = []
  · simp [hne] at h
  · rw [if_neg hne] at h
    exact ⟨s.takeWhile isDigit, s.dropWhile isDigit,
      isDigits_iff.mpr ⟨hne, all_takeWhile _ _⟩, (List.takeWhile_append_dropWhile _ _).symm, h⟩

theorem run_chr_ne_nil (x : Char) (rest : Regex) (s : Str) (caps : Caps)
    (h : (Regex.seq (.chr x) rest).run (s, caps) ≠ []) :
    ∃ r, s = x :: r ∧ rest.run (r, caps) ≠ [] := by
  cases s with
  | nil => simp [run_seq_chr] at h
  | cons c cs =>
    by_cases hc : c = x
    · subst hc
      rw [run_seq_chr_self] at h
      exact ⟨cs, rfl, h⟩
    · exact absurd (run_seq_chr_ne hc rest cs caps) h

theorem dot_fails (rest : Regex) (c : Char) (cs : Str) (k : Caps) (hc : isDigit c = true) :
    (Regex.seq (.chr '.') rest).run (c :: cs, k) = [] :=
  run_seq_chr_ne (ne_of_class hc (by decide)) rest cs k

theorem preTail_fails (c : Char) (cs : Str) (k : Caps) (hc : isDigit c = true) :
    preTail.run (c :: cs, k) = [] :=
  preTail_run_ne c cs k (ne_of_class hc (by decide)) (ne_of_class hc (by decide))

theorem suffixText_head (pre build : Option Str) (c : Char) (cs : Str)
    (h : suffixText pre build = c :: cs) : isDigit c = false := by
  cases pre <;> cases build <;> simp [suffixText] at h <;> (rw [← h.1]; decide)

theorem coreTail_run_core (p : Parts) (h : p.WF) (caps : Caps) :
    coreTail.run (p.core, caps) =
      [([], suffixCaps p.pre p.build ++ (4, p.patch) :: (3, p.minor) :: (2, p.major) :: caps)] := by
  obtain ⟨h1, h2, h3, h4, h5⟩ := h
  unfold coreTail Parts.core
  rw [run_digits_append 2 _ (dot_fails _) _ _ h1 (by intro c cs h; cases h; decide),
    run_seq_chr_self,
    run_digits_append 3 _ (dot_fails _) _ _ h2 (by intro c cs h; cases h; decide),
    run_seq_chr_self,
    run_digits_append 4 _ preTail_fails _ _ h3 (suffixText_head _ _),
    preTail_run_suffix _ _ h4 h5]

theorem coreTail_run_ne_nil (s : Str) (caps : Caps) (h : coreTail.run (s, caps) ≠ []) :
    ∃ p : Parts, p.v = false ∧ p.WF ∧ s = p.core := by
  unfold coreTail at h
  obtain ⟨a, r1, ha, rfl, h1⟩ := run_digits_ne_nil 2 _ (dot_fails _) _ _ h
  obtain ⟨r2, rfl, h2⟩ := run_chr_ne_nil _ _ _ _ h1
  obtain ⟨b, r3, hb, rfl, h3⟩ := run_digits_ne_nil 3 _ (dot_fails _) _ _ h2
  obtain ⟨r4, rfl, h4⟩ := run_chr_ne_nil _ _ _ _ h3
  obtain ⟨c, r5, hc, rfl, h5⟩ := run_digits_ne_nil 4 _ preTail_fails _ _ h4
  obtain ⟨pre, build, hpre, hbuild, rfl⟩ := preTail_run_ne_nil _ _ h5
  exact ⟨⟨false, a, b, c, pre, build⟩, rfl, ⟨ha, hb, hc, hpre, hbuild⟩, rfl⟩

theorem run_group_v (rest : Regex) (s : Str) (caps : Caps) :
    (Regex.seq (.group 1 (.chr 'v')) rest).run (s, caps) =
      match s with
      | [] => []
      | c :: cs => if c = 'v' then rest.run (cs, (1, ['v']) :: caps) else [] := by
  rw [run_seq_group]
  cases s with
  | nil => simp [Regex.run, Regex.chr]
  | cons c cs =>
    by_cases hc : c = 'v'
    · subst hc
      simp [Regex.run, Regex.chr]
    · simp [Regex.run, Regex.chr, hc]

theorem coreTail_run_not_digit (c : Char) (cs : Str) (caps : Caps) (hc : isDigit c = false) :
    coreTail.run (c :: cs, caps) = [] := by
  unfold coreTail
  rw [run_seq_group_plus_eq 2 isDigit _ (dot_fails _)]
  simp [List.takeWhile, hc]

theorem Parts.core_cons (p : Parts) (h : p.WF) :
    ∃ c cs, p.core = c :: cs ∧ isDigit c = true := by
  obtain ⟨hne, hall⟩ := isDigits_iff.mp h.1
  unfold Parts.core
  cases hm : p.major with
  | nil => exact absurd hm hne
  | cons c cs =>
    rw [hm] at hall
    simp only [List.all_cons, Bool.and_eq_true] at hall
    exact ⟨c, _, rfl, hall.1⟩

/-- On the text of well-formed parts the pattern has exactly one match, with the parts
as its captures. -/
theorem semverRegex_run_text (p : Parts) (h : p.WF) :
    semverRegex.run (p.text, []) =
      [([], suffixCaps p.pre p.build ++ (4, p.patch) :: (3, p.minor) :: (2, p.major) ::
        (if p.v then [(1, ['v'])] else []))] := by
  rw [semverRegex_eq, run_seq_opt, run_group_v]
  unfold Parts.text
  cases hv : p.v with
  | true =>
    simp only [if_true]
    rw [coreTail_run_core p h, coreTail_run_not_digit _ _ _ (by decide)]
    rfl
  | false =>
    obtain ⟨c, cs, hcore, hc⟩ := p.core_cons h
    have hcv : c ≠ 'v' := ne_of_class hc (by decide)
    have h2 := coreTail_run_core p h []
    rw [hcore] at h2
    simp only [Bool.false_eq_true, if_false, hcore, hcv, h2]
    rfl

/-- The pattern matches a text only if the text is spelled by well-formed parts. -/
theorem semverRegex_run_ne_nil (s : Str) (h : semverRegex.run (s, []) ≠ []) :
    ∃ p : Parts, p.WF ∧ p.text = s := by
  rw [semverRegex_eq, run_seq_opt, run_group_v] at h
  by_cases h2 : coreTail.run (s, []) = []
  · rw [h2, List.append_nil] at h
    cases s with
    | nil => exact absurd rfl h
    | cons c cs =>
      by_cases hc : c = 'v'
      · subst hc
        simp only [if_true] at h
        obtain ⟨p, _, hwf, hs⟩ := coreTail_run_ne_nil _ _ h
        refine ⟨{ p with v := true }, hwf, ?_⟩
        simp [Parts.text, Parts.core, hs]
      · simp [hc] at h
  · obtain ⟨p, hv, hwf, hs⟩ := coreTail_run_ne_nil _ _ h2
    exact ⟨p, hwf, by simp [Parts.text, hv, hs]⟩

theorem Parse_text (p : Parts) (h : p.WF) : Parse p.text = some p.version := by
  unfold Parse Regex.findSubmatch
  rw [semverRegex_run_text p h]
  cases hv : p.v <;> cases hp : p.pre <;> cases hb : p.build <;>
    simp [Parts.version, suffixCaps, Caps.get, List.lookup, hv, hp, hb]

theorem Parse_isSome_iff (s : Str) : (Parse s).isSome = true ↔ ∃ p : Parts, p.WF ∧ p.text = s := by
  constructor
  · intro h
    apply semverRegex_run_ne_nil
    intro hnil
    simp [Parse, Regex.findSubmatch, hnil] at h
  · rintro ⟨p, hwf, rfl⟩
    simp [Parse_text p hwf]

end semver

/-! ## Reading and printing decimal numbers -/

theorem toDigitsCore_append (f n : Nat) (ds : List Char) :
    Nat.toDigitsCore 10 f n ds = Nat.toDigitsCore 10 f n [] ++ ds := by
  induction f generalizing n ds with
  | zero => simp [Nat.toDigitsCore]
  | succ f ih =>
    simp only [Nat.toDigitsCore]
    by_cases h : n / 10 = 0
    · simp [h]
    · simp only [h, if_false]
      rw [ih (n / 10) (Nat.digitChar (n % 10) :: ds), ih (n / 10) [Nat.digitChar (n % 10)]]
      simp

theorem toDigitsCore_fuel (n : Nat) : ∀ f1 f2 : Nat, n < f1 → n < f2 →
    Nat.toDigitsCore 10 f1 n [] = Nat.toDigitsCore 10 f2 n [] := by
  induction n using Nat.strong_induction_on with
  | _ n ih =>
    intro f1 f2 h1 h2
    cases f1 with
    | zero => omega
    | succ f1 =>
      cases f2 with
      | zero => omega
      | succ f2 =>
        simp only [Nat.toDigitsCore]
        by_cases h : n / 10 = 0
        · simp [h]
        · simp only [h, if_false]
          have hlt : n / 10 < n := Nat.div_lt_self (by omega) (by decide)
          rw [toDigitsCore_append f1, toDigitsCore_append f2,
            ih (n / 10) hlt f1 f2 (by omega) (by omega)]

theorem toDigits_lt_ten (d : Nat) (h : d < 10) : Nat.toDigits 10 d = [Nat.digitChar d] := by
  have h1 : d / 10 = 0 := Nat.div_eq_of_lt h
  have h2 : d % 10 = d := Nat.mod_eq_of_lt h
  simp [Nat.toDigits, Nat.toDigitsCore, h1, h2]

theorem toDigits_step (m d : Nat) (hm : 0 < m) (hd : d < 10) :
    Nat.toDigits 10 (10 * m + d) = Nat.toDigits 10 m ++ [Nat.digitChar d] := by
  have h1 : (10 * m + d) / 10 = m := by omega
  have h2 : (10 * m + d) % 10 = d := by omega
  have h3 : m ≠ 0 := by omega
  have h4 : Nat.toDigits 10 (10 * m + d) =
      Nat.toDigitsCore 10 (10 * m + d) m [Nat.digitChar d] := by
    simp only [Nat.toDigits, Nat.toDigitsCore, h1, h2, h3, if_false]
  rw [h4, toDigitsCore_append, toDigitsCore_fuel m (10 * m + d) (m + 1) (by omega) (by omega)]
  rfl

theorem isDigit_toNat {c : Char} (h : isDigit c = true) : 48 ≤ c.toNat ∧ c.toNat ≤ 57 := by
  simp only [isDigit, Bool.and_eq_true, decide_eq_true_eq] at h
  exact ⟨h.1, h.2⟩

theorem digitChar_sub (c : Char) (h : isDigit c = true) :
    Nat.digitChar (c.toNat - '0'.toNat) = c := by
  obtain ⟨h1, h2⟩ := isDigit_toNat h
  have hc : Char.ofNat c.toNat = c := Char.ofNat_toNat c
  have h0 : '0'.toNat = 48 := rfl
  rw [h0]
  generalize c.toNat = n at h1 h2 hc
  subst hc
  interval_cases n <;> rfl

theorem decVal_append_singleton (xs : Str) (d : Char) :
    decVal (xs ++ [d]) = 10 * decVal xs + (d.toNat - '0'.toNat) := by
  simp [decVal, List.foldl_append]

theorem isDigit_val_lt {c : Char} (h : isDigit c = true) : c.toNat - '0'.toNat < 10 := by
  obtain ⟨h1, h2⟩ := isDigit_toNat h
  have h0 : '0'.toNat = 48 := rfl
  omega

theorem isDigit_val_pos {c : Char} (h : isDigit c = true) (h0 : c ≠ '0') :
    0 < c.toNat - '0'.toNat := by
  obtain ⟨h1, h2⟩ := isDigit_toNat h
  have h48 : '0'.toNat = 48 := rfl
  rcases Nat.eq_or_lt_of_le h1 with h3 | h3
  · exfalso
    apply h0
    rw [← Char.ofNat_toNat c, ← h3]
  · omega

/-- Printing the number a digit run denotes gives the run back when the run starts with
a digit other than `0`. -/
theorem toDigits_decVal_cons (c : Char) (hc : isDigit c = true) (h0 : c ≠ '0') (cs : Str)
    (hcs : cs.all isDigit = true) :
    Nat.toDigits 10 (decVal (c :: cs)) = c :: cs ∧ 0 < decVal (c :: cs) := by
  induction cs using List.reverseRecOn with
  | nil =>
    have hv : decVal [c] = c.toNat - '0'.toNat := by simp [decVal]
    rw [hv, toDigits_lt_ten _ (isDigit_val_lt hc), digitChar_sub c hc]
    exact ⟨rfl, isDigit_val_pos hc h0⟩
  | append_singleton xs d ih =>
    simp only [List.all_append, List.all_cons, List.all_nil, Bool.and_true,
      Bool.and_eq_true] at hcs
    obtain ⟨ih1, ih2⟩ := ih hcs.1
    have hv : decVal (c :: (xs ++ [d])) = 10 * decVal (c :: xs) + (d.toNat - '0'.toNat) := by
      rw [← List.cons_append, decVal_append_singleton]
    rw [hv, toDigits_step _ _ ih2 (isDigit_val_lt hcs.2), ih1, digitChar_sub d hcs.2]
    exact ⟨rfl, by omega⟩

namespace semver

theorem Atoi_digits (a : Str) (ha : isDigits a = true) :
    Atoi a = min (decVal a : Int) maxInt := by
  obtain ⟨hne, hall⟩ := isDigits_iff.mp ha
  cases a with
  | nil => exact absurd rfl hne
  | cons c cs =>
    have hc : isDigit c = true := by
      simp only [List.all_cons, Bool.and_eq_true] at hall
      exact hall.1
    have h1 : c ≠ '+' := ne_of_class hc (by decide)
    have h2 : c ≠ '-' := ne_of_class hc (by decide)
    have h3 : Atoi (c :: cs) = parseDigits false (c :: cs) := by
      unfold Atoi
      split
      · rename_i heq
        simp only [List.cons.injEq] at heq
        exact absurd heq.1 h1
      · rename_i heq
        simp only [List.cons.injEq] at heq
        exact absurd heq.1 h2
      · rfl
    rw [h3]
    simp [parseDigits, hall]

theorem fmtInt_Atoi (a : Str) (ha : isDigits a = true) (hc : isCanonical a = true) :
    fmtInt (Atoi a) = a := by
  obtain ⟨hne, hall⟩ := isDigits_iff.mp ha
  simp only [isCanonical, Bool.and_eq_true, Bool.or_eq_true, beq_iff_eq, bne_iff_ne,
    decide_eq_true_eq] at hc
  obtain ⟨hshape, hle⟩ := hc
  rw [Atoi_digits a ha, min_eq_left hle]
  have hnn : ¬ ((decVal a : Int) < 0) := by omega
  simp only [fmtInt, hnn, if_false, Int.natAbs_ofNat]
  rcases hshape with rfl | hhead
  · rfl
  · cases a with
    | nil => exact absurd rfl hne
    | cons c cs =>
      simp only [List.all_cons, Bool.and_eq_true] at hall
      have h0 : c ≠ '0' := by
        intro h
        apply hhead
        simp [h]
      exact (toDigits_decVal_cons c hall.1 h0 cs hall.2).1

theorem wrapInt_of_range (x : Int) (h1 : minInt ≤ x) (h2 : x ≤ maxInt) : wrapInt x = x := by
  unfold wrapInt
  unfold minInt at h1
  unfold maxInt at h2
  omega

/-- C3, as amended: `BumpMajor` sets `Minor` and `Patch` to 0, `BumpMinor` keeps `Major` and
sets `Patch` to 0, `BumpPatch` keeps `Major` and `Minor`; the bumped component is the old
one plus 1 whenever the old one is an `int` below the largest, `2^63 - 1`; in all three
results `Prefix` is that of `v` and `Prerelease` and `Metadata` are empty. -/
theorem Bump_fields (v : Version) :
    ((minInt ≤ v.Major → v.Major < maxInt → v.BumpMajor.Major = v.Major + 1) ∧
        v.BumpMajor.Minor = 0 ∧ v.BumpMajor.Patch = 0) ∧
      (v.BumpMinor.Major = v.Major ∧
        (minInt ≤ v.Minor → v.Minor < maxInt → v.BumpMinor.Minor = v.Minor + 1) ∧
        v.BumpMinor.Patch = 0) ∧
      (v.BumpPatch.Major = v.Major ∧ v.BumpPatch.Minor = v.Minor ∧
        (minInt ≤ v.Patch → v.Patch < maxInt → v.BumpPatch.Patch = v.Patch + 1)) ∧
      (v.BumpMajor.Prefix = v.Prefix ∧ v.BumpMinor.Prefix = v.Prefix ∧
        v.BumpPatch.Prefix = v.Prefix) ∧
      (v.BumpMajor.Prerelease = [] ∧ v.BumpMinor.Prerelease = [] ∧
        v.BumpPatch.Prerelease = []) ∧
      (v.BumpMajor.Metadata = [] ∧ v.BumpMinor.Metadata = [] ∧ v.BumpPatch.Metadata = []) := by
  have key : ∀ x : Int, minInt ≤ x → x < maxInt → wrapInt (x + 1) = x + 1 := by
    intro x h1 h2
    apply wrapInt_of_range
    · unfold minInt at *
      omega
    · unfold maxInt at *
      omega
  exact ⟨⟨key _, rfl, rfl⟩, ⟨rfl, key _, rfl⟩, ⟨rfl, rfl, key _⟩, ⟨rfl, rfl, rfl⟩,
    ⟨rfl, rfl, rfl⟩, ⟨rfl, rfl, rfl⟩⟩

/-- The version `v1.2.3-alpha` of the tests bumps to `2.0.0`, `1.3.0` and `1.2.4`. -/
theorem Bump_fields_witness :
    (Version.BumpMajor ⟨1, 2, 3, ['a', 'l', 'p', 'h', 'a'], [], ['v']⟩).Major = 1 + 1 ∧
      (Version.BumpMinor ⟨1, 2, 3, ['a', 'l', 'p', 'h', 'a'], [], ['v']⟩).Minor = 2 + 1 ∧
      (Version.BumpPatch ⟨1, 2, 3, ['a', 'l', 'p', 'h', 'a'], [], ['v']⟩).Patch = 3 + 1 :=
  ⟨(Bump_fields ⟨1, 2, 3, ['a', 'l', 'p', 'h', 'a'], [], ['v']⟩).1.1 (by decide) (by decide),
    (Bump_fields ⟨1, 2, 3, ['a', 'l', 'p', 'h', 'a'], [], ['v']⟩).2.1.2.1 (by decide) (by decide),
    (Bump_fields ⟨1, 2, 3, ['a', 'l', 'p', 'h', 'a'], [], ['v']⟩).2.2.1.2.2 (by decide)
      (by decide)⟩

/-- C3 fails at the largest `int`: the major number `2^63 - 1`, which `Parse` returns for
`9223372036854775807.0.0`, is bumped to `-2^63`, not to `2^63`. -/
theorem BumpMajor_overflow :
    Parse "9223372036854775807.0.0".toList = some ⟨9223372036854775807, 0, 0, [], [], []⟩ ∧
      (Version.BumpMajor ⟨9223372036854775807, 0, 0, [], [], []⟩).Major =
        -9223372036854775808 ∧
      (Version.BumpMajor ⟨9223372036854775807, 0, 0, [], [], []⟩).Major ≠
        9223372036854775807 + 1 := by
  decide

theorem isIdent_ne_nil {x : Str} (h : isIdent x = true) : x ≠ [] := by
  rintro rfl
  simp [isIdent] at h

theorem String_version (p : Parts) (hwf : p.WF)
    (hc : isCanonical p.major = true ∧ isCanonical p.minor = true ∧
      isCanonical p.patch = true) : p.version.String = p.text := by
  obtain ⟨h1, h2, h3, h4, h5⟩ := hwf
  obtain ⟨c1, c2, c3⟩ := hc
  simp only [Version.String, Parts.version, fmtInt_Atoi _ h1 c1, fmtInt_Atoi _ h2 c2,
    fmtInt_Atoi _ h3 c3, Parts.text, Parts.core, suffixText]
  have hpre : ∀ x, p.pre = some x → x ≠ [] := fun x hx => isIdent_ne_nil (h4 x hx)
  have hbuild : ∀ x, p.build = some x → x ≠ [] := fun x hx => isIdent_ne_nil (h5 x hx)
  cases hv : p.v <;> cases hp : p.pre <;> cases hb : p.build <;>
    simp [hp, hb] at hpre hbuild <;> simp [hpre, hbuild]

/-- C8, as amended: when `Parse` succeeds on `s` with the version `v`, and the three
numbers of `s` are written without a superfluous leading zero and denote at most
`2^63 - 1`, then `v.String()` is `s`. The numbers of `s` are those of the parts that
spell it under the grammar. -/
theorem String_Parse (s : Str) (v : Version) (h : Parse s = some v) (p : Parts)
    (hp : p.WF ∧ p.text = s)
    (hc : isCanonical p.major = true ∧ isCanonical p.minor = true ∧
      isCanonical p.patch = true) :
    v.String = s := by
  obtain ⟨hwf, rfl⟩ := hp
  rw [Parse_text p hwf] at h
  cases h
  exact String_version p hwf hc

/-- The text `v1.0.0-beta+build` of the tests is printed back as it was parsed. -/
theorem String_Parse_witness :
    Version.String ⟨1, 0, 0, "beta".toList, "build".toList, "v".toList⟩ =
      "v1.0.0-beta+build".toList :=
  String_Parse "v1.0.0-beta+build".toList ⟨1, 0, 0, "beta".toList, "build".toList, "v".toList⟩
    (by decide)
    ⟨true, ['1'], ['0'], ['0'], some ['b', 'e', 't', 'a'], some ['b', 'u', 'i', 'l', 'd']⟩
    ⟨by simp [Parts.WF]; decide, by decide⟩ (by decide)

/-- C8 fails on a leading zero: `01.2.3` is accepted and printed back as `1.2.3`. -/
theorem String_Parse_leading_zero :
    ¬ ∀ (s : Str) (v : Version), Parse s = some v → v.String = s := by
  intro h
  exact absurd (h "01.2.3".toList ⟨1, 2, 3, [], [], []⟩ (by decide)) (by decide)

/-- C9: `Parse` succeeds exactly on the texts made of an optional single `v`, three
non-empty runs of ASCII digits separated by dots, then optionally `-` and a pre-release
`[a-zA-Z0-9][a-zA-Z0-9.]*`, then optionally `+` and build metadata of the same shape;
every other text is rejected, among them `v1.2`, `v1.2.3.4`, `abc`, the empty text and
`v-1.2.3`. -/
theorem Parse_succeeds_iff_grammar :
    (∀ s : Str, (Parse s).isSome = true ↔ ∃ p : Parts, p.WF ∧ p.text = s) ∧
      (∀ s : Str, Parse s = none ↔ ¬ ∃ p : Parts, p.WF ∧ p.text = s) ∧
      Parse "v1.2".toList = none ∧ Parse "v1.2.3.4".toList = none ∧
      Parse "abc".toList = none ∧ Parse [] = none ∧ Parse "v-1.2.3".toList = none := by
  refine ⟨Parse_isSome_iff, ?_, by decide, by decide, by decide, by decide, by decide⟩
  intro s
  rw [← Parse_isSome_iff s]
  cases Parse s <;> simp

/-- C10 fails on a number above the largest `int`: `9223372036854775808.0.0` is accepted
with `Major = 9223372036854775807`, while its first digit run denotes
`9223372036854775808`. -/
theorem Parse_saturates :
    Parse "9223372036854775808.0.0".toList = some ⟨9223372036854775807, 0, 0, [], [], []⟩ ∧
      decVal "9223372036854775808".toList = 9223372036854775808 := by
  decide

end semver

/-! ## Lines and trimming -/

theorem SplitLines_ne_nil (s : Str) : SplitLines s ≠ [] := by
  induction s with
  | nil => simp [SplitLines]
  | cons c cs ih =>
    unfold SplitLines
    by_cases h : c = '\n'
    · simp [h]
    · simp only [h, if_false]
      split <;> simp

theorem SplitLines_of_no_newline (s : Str) (h : '\n' ∉ s) : SplitLines s = [s] := by
  induction s with
  | nil => rfl
  | cons c cs ih =>
    have hc : c ≠ '\n' := fun e => h (by simp [e])
    have hcs : '\n' ∉ cs := fun e => h (List.mem_cons_of_mem _ e)
    unfold SplitLines
    simp [hc, ih hcs]

theorem SplitLines_no_newline (s : Str) : ∀ l ∈ SplitLines s, '\n' ∉ l := by
  induction s with
  | nil => simp [SplitLines]
  | cons c cs ih =>
    unfold SplitLines
    by_cases h : c = '\n'
    · simp only [h, if_true, List.mem_cons]
      rintro l (rfl | hl)
      · simp
      · exact ih l hl
    · simp only [h, if_false]
      cases hs : SplitLines cs with
      | nil => exact absurd hs (SplitLines_ne_nil cs)
      | cons l ls =>
        rw [hs] at ih
        simp only [List.mem_cons]
        rintro x (rfl | hx)
        · intro hmem
          rcases List.mem_cons.mp hmem with e | e
          · exact h e.symm
          · exact ih l (List.mem_cons_self _ _) e
        · exact ih x (List.mem_cons_of_mem _ hx)

theorem dropWhile_eq_self_of_head (p : Char → Bool) (s : Str)
    (h : ∀ c, s.head? = some c → p c = false) : s.dropWhile p = s := by
  cases s with
  | nil => rfl
  | cons c cs => simp [List.dropWhile, h c rfl]

theorem TrimSpace_eq_self (s : Str) (h1 : ∀ c, s.head? = some c → isSpace c = false)
    (h2 : ∀ c, s.getLast? = some c → isSpace c = false) : TrimSpace s = s := by
  unfold TrimSpace
  rw [dropWhile_eq_self_of_head isSpace s h1, dropWhile_eq_self_of_head isSpace s.reverse,
    List.reverse_reverse]
  intro c hc
  apply h2
  rw [List.getLast?_eq_head?_reverse]
  exact hc

theorem TrimSpace_subset (s : Str) : ∀ c ∈ TrimSpace s, c ∈ s := by
  intro c hc
  unfold TrimSpace at hc
  rw [List.mem_reverse] at hc
  have h1 := (List.dropWhile_sublist isSpace).subset hc
  rw [List.mem_reverse] at h1
  exact (List.dropWhile_sublist isSpace).subset h1

theorem isSpace_of_isReSpace {c : Char} (h : isReSpace c = true) : isSpace c = true := by
  simp only [isReSpace, Bool.or_eq_true, beq_iff_eq] at h
  rcases h with (((rfl | rfl) | rfl) | rfl) | rfl <;> decide

/-! ## The commit patterns -/

theorem run_seq_group_chr (i : Nat) (x : Char) (rest : Regex) (s : Str) (caps : Caps) :
    (Regex.seq (.group i (.chr x)) rest).run (s, caps) =
      match s with
      | [] => []
      | c :: cs => if c = x then rest.run (cs, (i, [x]) :: caps) else [] := by
  rw [run_seq_group]
  cases s with
  | nil => simp [Regex.run, Regex.chr]
  | cons c cs =>
    by_cases hc : c = x
    · subst hc
      simp [Regex.run, Regex.chr]
    · simp [Regex.run, Regex.chr, hc]

namespace commit

theorem subjectRegex_eq :
    subjectRegex = .seq (.group 1 (.plus isWord)) (.seq (.opt scopeGroup) bangTail) := rfl

theorem footerRegex_eq :
    footerRegex =
      .seq (.group 1 (.alt (.plus isWordHyphen) (.lit breakingChange))) footerTail := rfl

theorem eot_fails (c : Char) (cs : Str) (k : Caps) : Regex.eot.run (c :: cs, k) = [] := by
  simp [Regex.run]

/-- The group `(.+)` before `$` takes the whole rest of the text, which must be non-empty
and free of newlines. -/
theorem descTail_run (i : Nat) (r : Str) (caps : Caps) :
    (Regex.seq (.group i (.plus isNotNewline)) .eot).run (r, caps) =
      if r ≠ [] ∧ r.all isNotNewline = true then [([], (i, r) :: caps)] else [] := by
  rw [run_seq_group_plus_eq i isNotNewline .eot (fun c cs k _ => eot_fails c cs k), run_eot]
  by_cases hall : r.all isNotNewline = true
  · rw [takeWhile_eq_self_of_all _ _ hall, (dropWhile_eq_nil_iff_all _ _).mpr hall]
    by_cases hr : r = [] <;> simp [hr, hall]
  · have hd : r.dropWhile isNotNewline ≠ [] := fun h =>
      hall ((dropWhile_eq_nil_iff_all _ _).mp h)
    simp [hall, hd]

/-- The preferred match of `\s*(.+)$` skips all the white space the text starts with. -/
theorem valueTail_run_head (i : Nat) (r : Str) (caps : Caps)
    (hne : r.dropWhile isReSpace ≠ []) (hnl : (r.dropWhile isReSpace).all isNotNewline = true) :
    ∃ tl, (valueTail i).run (r, caps) = ([], (i, r.dropWhile isReSpace) :: caps) :: tl := by
  obtain ⟨tl, h⟩ := run_seq_star_head isReSpace (.seq (.group i (.plus isNotNewline)) .eot) r caps
  refine ⟨tl, ?_⟩
  unfold valueTail
  rw [h, descTail_run]
  simp [hne, hnl]

theorem all_isNotNewline_of_not_mem (r : Str) (h : '\n' ∉ r) : r.all isNotNewline = true := by
  simp only [List.all_eq_true, isNotNewline, bne_iff_ne]
  intro c hc e
  exact h (e ▸ hc)

/-- After `: ` the value is the rest of the line, when that rest is not empty, does not
start with white space and holds no newline. -/
theorem colon_valueTail_run (i : Nat) (d : Str) (caps : Caps) (hne : d ≠ [])
    (hhead : ∀ c, d.head? = some c → isReSpace c = false) (hnl : '\n' ∉ d) :
    ∃ tl, (Regex.seq (.chr ':') (valueTail i)).run (':' :: ' ' :: d, caps) =
      ([], (i, d) :: caps) :: tl := by
  have hd : (' ' :: d).dropWhile isReSpace = d := by
    have h1 : (' ' :: d).dropWhile isReSpace = d.dropWhile isReSpace := by
      simp [List.dropWhile, isReSpace]
    rw [h1, dropWhile_eq_self_of_head _ _ hhead]
  obtain ⟨tl, h⟩ := valueTail_run_head i (' ' :: d) caps (by rw [hd]; exact hne)
    (by rw [hd]; exact all_isNotNewline_of_not_mem d hnl)
  rw [hd] at h
  exact ⟨tl, by rw [run_seq_chr_self, h]⟩

theorem bangTail_run (r : Str) (caps : Caps) :
    bangTail.run (r, caps) =
      (match r with
        | [] => []
        | c :: cs =>
          if c = '!' then (Regex.seq (.chr ':') (valueTail 5)).run (cs, (4, ['!']) :: caps)
          else []) ++
      (Regex.seq (.chr ':') (valueTail 5)).run (r, caps) := by
  unfold bangTail
  rw [run_seq_opt, run_seq_group_chr]

theorem bangTail_run_text (bang : Bool) (d : Str) (caps : Caps) (hne : d ≠ [])
    (hhead : ∀ c, d.head? = some c → isReSpace c = false) (hnl : '\n' ∉ d) :
    ∃ tl, bangTail.run (bangText bang ++ ':' :: ' ' :: d, caps) =
      ([], (5, d) :: ((if bang then [(4, ['!'])] else []) ++ caps)) :: tl := by
  rw [bangTail_run]
  cases bang with
  | true =>
    obtain ⟨tl, h⟩ := colon_valueTail_run 5 d ((4, ['!']) :: caps) hne hhead hnl
    refine ⟨tl, ?_⟩
    simp only [bangText, if_true, List.cons_append, List.nil_append]
    rw [h, run_seq_chr_ne (by decide)]
    simp
  | false =>
    obtain ⟨tl, h⟩ := colon_valueTail_run 5 d caps hne hhead hnl
    refine ⟨tl, ?_⟩
    simp only [bangText, Bool.false_eq_true, if_false, List.nil_append]
    rw [h]
    simp

theorem bangTail_fails (c : Char) (cs : Str) (k : Caps) (h1 : c ≠ '!') (h2 : c ≠ ':') :
    bangTail.run (c :: cs, k) = [] := by
  rw [bangTail_run, run_seq_chr_ne h2]
  simp [h1]

theorem scopeGroup_fails (rest : Regex) (c : Char) (cs : Str) (k : Caps) (h : c ≠ '(') :
    (Regex.seq scopeGroup rest).run (c :: cs, k) = [] := by
  unfold scopeGroup
  rw [run_seq_group, run_seq_chr_ne h]
  rfl

theorem rparen_fails (c : Char) (cs : Str) (k : Caps) (hc : isNotRParen c = true) :
    (Regex.chr ')').run (c :: cs, k) = [] := by
  have h : c ≠ ')' := by simpa [isNotRParen] using hc
  simp [Regex.run, Regex.chr, h]

/-- The scope group on `(scope)`: group 3 is the scope, group 2 the scope in its
parentheses. -/
theorem scopeGroup_run_text (rest : Regex) (sc r : Str) (caps : Caps) (h : ')' ∉ sc) :
    (Regex.seq scopeGroup rest).run ('(' :: (sc ++ ')' :: r), caps) =
      rest.run (r, (2, '(' :: (sc ++ [')'])) :: (3, sc) :: caps) := by
  have hall : sc.all isNotRParen = true := by
    simp only [List.all_eq_true, isNotRParen, bne_iff_ne]
    intro c hc e
    exact h (e ▸ hc)
  have hr : ∀ c cs, ')' :: r = c :: cs → isNotRParen c = false := by
    intro c cs e
    cases e
    decide
  have htake : ('(' :: (sc ++ ')' :: r)).take (('(' :: (sc ++ ')' :: r)).length - r.length) =
      '(' :: (sc ++ [')']) := by
    have e : '(' :: (sc ++ ')' :: r) = ('(' :: (sc ++ [')'])) ++ r := by simp
    rw [e]
    apply List.take_left'
    simp only [List.length_append, List.length_cons, List.length_nil]
    omega
  unfold scopeGroup
  rw [run_seq_group, run_seq_chr_self, run_seq_group_star 3 isNotRParen (.chr ')') rparen_fails,
    dropWhile_append_of_all _ _ _ hall hr, takeWhile_append_of_all _ _ _ hall hr]
  simp only [Regex.run, Regex.chr, beq_self_eq_true, if_true, List.flatMap_cons,
    List.flatMap_nil, List.append_nil]
  rw [htake]

end commit

theorem getLast?_dropWhile (p : Char → Bool) (s : Str) (c : Char)
    (h : (s.dropWhile p).getLast? = some c) : s.getLast? = some c := by
  have hne : s.dropWhile p ≠ [] := by
    intro e
    rw [e] at h
    cases h
  have hsuf : s.dropWhile p <:+ s := List.dropWhile_suffix p
  have hne2 : s ≠ [] := by
    rintro rfl
    exact hne rfl
  have h1 := hsuf.getLast hne
  rw [List.getLast?_eq_getLast _ hne] at h
  rw [List.getLast?_eq_getLast _ hne2, ← h1]
  exact h

theorem head?_dropWhile_false (p : Char → Bool) (s : Str) (c : Char)
    (h : (s.dropWhile p).head? = some c) : p c = false := by
  have := List.head?_dropWhile_not p s
  rw [h] at this
  exact this

/-- A trimmed text does not start with white space. -/
theorem TrimSpace_head (s : Str) (c : Char) (h : (TrimSpace s).head? = some c) :
    isSpace c = false := by
  unfold TrimSpace at h
  rw [List.head?_reverse] at h
  have h1 := getLast?_dropWhile isSpace _ c h
  rw [List.getLast?_reverse] at h1
  exact head?_dropWhile_false isSpace s c h1

/-- A trimmed text does not end with white space. -/
theorem TrimSpace_getLast (s : Str) (c : Char) (h : (TrimSpace s).getLast? = some c) :
    isSpace c = false := by
  unfold TrimSpace at h
  rw [List.getLast?_reverse] at h
  exact head?_dropWhile_false isSpace _ c h

namespace commit

theorem scopeTail_fails (c : Char) (cs : Str) (k : Caps) (hc : isWord c = true) :
    (Regex.seq (.opt scopeGroup) bangTail).run (c :: cs, k) = [] := by
  rw [run_seq_opt, scopeGroup_fails _ _ _ _ (ne_of_class hc (by decide)),
    bangTail_fails _ _ _ (ne_of_class hc (by decide)) (ne_of_class hc (by decide))]
  rfl

theorem scopeTail_run_text (scope : Option Str) (bang : Bool) (d : Str) (caps : Caps)
    (hscope : ∀ s, scope = some s → ')' ∉ s) (hne : d ≠ [])
    (hhead : ∀ c, d.head? = some c → isReSpace c = false) (hnl : '\n' ∉ d) :
    ∃ tl, (Regex.seq (.opt scopeGroup) bangTail).run
        (scopeText scope ++ (bangText bang ++ ':' :: ' ' :: d), caps) =
      ([], (5, d) :: ((if bang then [(4, ['!'])] else []) ++ (scopeCaps scope ++ caps))) :: tl := by
  rw [run_seq_opt]
  cases scope with
  | some s =>
    obtain ⟨tl, h⟩ := bangTail_run_text bang d ((2, '(' :: (s ++ [')'])) :: (3, s) :: caps)
      hne hhead hnl
    refine ⟨tl, ?_⟩
    have e : scopeText (some s) ++ (bangText bang ++ ':' :: ' ' :: d) =
        '(' :: (s ++ ')' :: (bangText bang ++ ':' :: ' ' :: d)) := by
      simp [scopeText]
    rw [e, scopeGroup_run_text _ _ _ _ (hscope s rfl), h,
      bangTail_fails _ _ _ (by decide) (by decide)]
    simp [scopeCaps]
  | none =>
    obtain ⟨tl, h⟩ := bangTail_run_text bang d caps hne hhead hnl
    refine ⟨tl, ?_⟩
    simp only [scopeText, List.nil_append, scopeCaps]
    rw [h]
    cases bang with
    | true =>
      simp only [bangText, if_true, List.cons_append, List.nil_append]
      rw [scopeGroup_fails _ _ _ _ (by decide)]
      rfl
    | false =>
      simp only [bangText, Bool.false_eq_true, if_false, List.nil_append]
      rw [scopeGroup_fails _ _ _ _ (by decide)]
      rfl

theorem headerRest_head (scope : Option Str) (bang : Bool) (d : Str) (c : Char) (cs : Str)
    (h : scopeText scope ++ (bangText bang ++ ':' :: ' ' :: d) = c :: cs) :
    isWord c = false := by
  cases scope <;> cases bang <;> simp [scopeText, bangText] at h <;> (rw [← h.1]; decide)

/-- On a header `type(scope)!: description` the preferred match of the subject pattern
captures the type, the scope, the marker and the description. -/
theorem subjectRegex_run_header (t : Str) (scope : Option Str) (bang : Bool) (d : Str)
    (ht : t ≠ [] ∧ t.all isWord = true) (hscope : ∀ s, scope = some s → ')' ∉ s)
    (hne : d ≠ []) (hhead : ∀ c, d.head? = some c → isReSpace c = false) (hnl : '\n' ∉ d) :
    ∃ tl, subjectRegex.run (headerText t scope bang d, []) =
      ([], (5, d) :: ((if bang then [(4, ['!'])] else []) ++ (scopeCaps scope ++ [(1, t)])))
        :: tl := by
  obtain ⟨tl, h⟩ := scopeTail_run_text scope bang d [(1, t)] hscope hne hhead hnl
  refine ⟨tl, ?_⟩
  unfold headerText
  rw [subjectRegex_eq, run_seq_group_plus_eq 1 isWord _ scopeTail_fails,
    takeWhile_append_of_all _ _ _ ht.2 (headerRest_head scope bang d),
    dropWhile_append_of_all _ _ _ ht.2 (headerRest_head scope bang d), if_neg ht.1, h]

theorem findSubmatch_header (t : Str) (scope : Option Str) (bang : Bool) (d : Str)
    (ht : t ≠ [] ∧ t.all isWord = true) (hscope : ∀ s, scope = some s → ')' ∉ s)
    (hne : d ≠ []) (hhead : ∀ c, d.head? = some c → isReSpace c = false) (hnl : '\n' ∉ d) :
    ∃ m, subjectRegex.findSubmatch (headerText t scope bang d) = some m ∧
      m.get 1 = t ∧ m.get 3 = scope.getD [] ∧ m.get 4 = bangText bang ∧ m.get 5 = d := by
  obtain ⟨tl, h⟩ := subjectRegex_run_header t scope bang d ht hscope hne hhead hnl
  refine ⟨(5, d) :: ((if bang then [(4, ['!'])] else []) ++ (scopeCaps scope ++ [(1, t)])),
    by simp [Regex.findSubmatch, h], ?_⟩
  cases scope <;> cases bang <;> simp [Caps.get, List.lookup, scopeCaps, bangText]

theorem not_mem_of_all {p : Char → Bool} {x : Char} (hx : p x = false) (s : Str)
    (h : s.all p = true) : x ∉ s := by
  intro hmem
  rw [List.all_eq_true] at h
  rw [h x hmem] at hx
  cases hx

theorem headerText_no_newline (t : Str) (scope : Option Str) (bang : Bool) (d : Str)
    (ht : t.all isWord = true) (hscope : ∀ s, scope = some s → '\n' ∉ s) (hd : '\n' ∉ d) :
    '\n' ∉ headerText t scope bang d := by
  have h1 : '\n' ∉ t := not_mem_of_all (by decide) t ht
  have h2 : '\n' ∉ scopeText scope := by
    cases scope with
    | none => simp [scopeText]
    | some s =>
      have := hscope s rfl
      simp [scopeText, this]
  have h3 : '\n' ∉ bangText bang := by cases bang <;> simp [bangText]
  simp [headerText, h1, h2, h3, hd]

theorem headerText_head (t : Str) (scope : Option Str) (bang : Bool) (d : Str)
    (ht : t ≠ [] ∧ t.all isWord = true) (c : Char)
    (hc : (headerText t scope bang d).head? = some c) : isSpace c = false := by
  obtain ⟨hne, hall⟩ := ht
  cases t with
  | nil => exact absurd rfl hne
  | cons x xs =>
    simp only [headerText, List.cons_append, List.head?_cons, Option.some.injEq] at hc
    subst hc
    simp only [List.all_cons, Bool.and_eq_true] at hall
    have hx := hall.1
    simp only [isWord, isAlnum, Bool.or_eq_true, Bool.and_eq_true, decide_eq_true_eq,
      beq_iff_eq] at hx
    have hn : 48 ≤ x.toNat ∧ x.toNat ≤ 122 := by
      rcases hx with ((⟨a, b⟩ | ⟨a, b⟩) | ⟨a, b⟩) | rfl
      · have a1 : 97 ≤ x.toNat := a
        have b1 : x.toNat ≤ 122 := b
        omega
      · have a1 : 65 ≤ x.toNat := a
        have b1 : x.toNat ≤ 90 := b
        omega
      · have a1 : 48 ≤ x.toNat := a
        have b1 : x.toNat ≤ 57 := b
        omega
      · decide
    simp only [isSpace, Bool.or_eq_false_iff, Bool.and_eq_false_imp, decide_eq_true_eq,
      beq_eq_false_iff_ne, ne_eq, decide_eq_false_iff_not]
    omega

theorem SplitLines_eq_firstLine (message : Str) :
    SplitLines message = firstLine message :: (SplitLines message).tail := by
  unfold firstLine
  cases h : SplitLines message with
  | nil => exact absurd h (SplitLines_ne_nil message)
  | cons l ls => rfl

theorem foldl_breaking (fs : List Footer) (b : Bool) :
    fs.foldl (fun b f => if isBreakingFooter f then true else b) b =
      (b || fs.any isBreakingFooter) := by
  induction fs generalizing b with
  | nil => simp
  | cons f fs ih =>
    simp only [List.foldl_cons, List.any_cons, ih]
    cases isBreakingFooter f <;> cases b <;> simp

theorem Parse_of_none (hash message : Str)
    (h : subjectRegex.findSubmatch (TrimSpace (firstLine message)) = none) :
    Parse hash message = emptyCommit hash message := by
  unfold Parse
  rw [SplitLines_eq_firstLine]
  simp only [h]
  rfl

theorem Parse_of_some (hash message : Str) (m : Caps)
    (h : subjectRegex.findSubmatch (TrimSpace (firstLine message)) = some m) :
    Parse hash message =
      { Type_ := ToLower (m.get 1)
        Scope := m.get 3
        Description := m.get 5
        Body := (footersOf message).1
        Footers := (footersOf message).2
        Breaking := decide (m.get 4 = ['!']) || (footersOf message).2.any isBreakingFooter
        Raw := message
        Hash := hash } := by
  unfold Parse
  rw [SplitLines_eq_firstLine]
  simp only [h, foldl_breaking, footersOf, List.tail_cons]
  by_cases hb : m.get 4 = ['!'] <;> simp [hb]

/-- C4, as amended: for a type `t` of one or more word characters, an optional scope
holding neither `)` nor a newline, an optional `!`, and a description `d` that is not
empty, holds no newline and has no white space at either end, `Parse` on
`t(scope)!: d` gives the lower-cased type, the scope (empty when there is none), the
description `d`, `Breaking` exactly when the `!` is there, and no body and no footers. -/
theorem Parse_header (hash t : Str) (scope : Option Str) (bang : Bool) (d : Str)
    (ht : t ≠ [] ∧ t.all isWord = true)
    (hscope : ∀ s, scope = some s → ')' ∉ s ∧ '\n' ∉ s)
    (hd : d ≠ [] ∧ '\n' ∉ d ∧ TrimSpace d = d) :
    Parse hash (headerText t scope bang d) =
      { Type_ := ToLower t
        Scope := scope.getD []
        Description := d
        Body := []
        Footers := []
        Breaking := bang
        Raw := headerText t scope bang d
        Hash := hash } := by
  obtain ⟨hne, hnl, htrim⟩ := hd
  have hhead : ∀ c, d.head? = some c → isSpace c = false := by
    intro c hc
    rw [← htrim] at hc
    exact TrimSpace_head d c hc
  have hlast : ∀ c, d.getLast? = some c → isSpace c = false := by
    intro c hc
    rw [← htrim] at hc
    exact TrimSpace_getLast d c hc
  have hre : ∀ c, d.head? = some c → isReSpace c = false := by
    intro c hc
    cases h : isReSpace c with
    | false => rfl
    | true =>
      have := isSpace_of_isReSpace h
      rw [hhead c hc] at this
      cases this
  have hmsg : '\n' ∉ headerText t scope bang d :=
    headerText_no_newline t scope bang d ht.2 (fun s hs => (hscope s hs).2) hnl
  have hsplit := SplitLines_of_no_newline _ hmsg
  have hfirst : firstLine (headerText t scope bang d) = headerText t scope bang d := by
    simp [firstLine, hsplit]
  have hmsglast : ∀ c, (headerText t scope bang d).getLast? = some c → isSpace c = false := by
    intro c hc
    apply hlast
    have e : headerText t scope bang d =
        (t ++ (scopeText scope ++ (bangText bang ++ [':', ' ']))) ++ d := by
      simp [headerText]
    rw [e, List.getLast?_append_of_ne_nil _ hne] at hc
    exact hc
  have htrimmsg : TrimSpace (headerText t scope bang d) = headerText t scope bang d :=
    TrimSpace_eq_self _ (headerText_head t scope bang d ht) hmsglast
  obtain ⟨m, hm, g1, g3, g4, g5⟩ :=
    findSubmatch_header t scope bang d ht (fun s hs => (hscope s hs).1) hne hre hnl
  have hfoot : footersOf (headerText t scope bang d) = ([], []) := by
    simp [footersOf, hsplit]
  rw [Parse_of_some hash _ m (by rw [hfirst, htrimmsg, hm]), g1, g3, g4, g5, hfoot]
  cases bang <;> simp [bangText]

/-- The scenario `feat(api)!: add endpoint` of the specification. -/
theorem Parse_header_witness :
    Parse ['a', 'b', 'c'] "feat(api)!: add endpoint".toList =
      { Type_ := "feat".toList
        Scope := "api".toList
        Description := "add endpoint".toList
        Body := []
        Footers := []
        Breaking := true
        Raw := "feat(api)!: add endpoint".toList
        Hash := ['a', 'b', 'c'] } :=
  Parse_header ['a', 'b', 'c'] "feat".toList (some "api".toList) true "add endpoint".toList
    (by decide) (by intro s hs; cases hs; decide) (by decide)

/-- C4 fails for a scope that holds a newline: with the type `feat`, the scope `a\nb`
(which holds no `)`), no marker and the description `d`, the message `feat(a\nb): d` has
the first line `feat(a`, which is no header, so the type comes out empty, not `feat`. -/
theorem Parse_header_newline_scope :
    ("feat".toList ≠ [] ∧ "feat".toList.all isWord = true) ∧ ')' ∉ "a\nb".toList ∧
      ("d".toList ≠ [] ∧ '\n' ∉ "d".toList ∧ TrimSpace "d".toList = "d".toList) ∧
      headerText "feat".toList (some "a\nb".toList) false "d".toList =
        "feat(a\nb): d".toList ∧
      (Parse [] "feat(a\nb): d".toList).Type_ = [] ∧
      (Parse [] "feat(a\nb): d".toList).Type_ ≠ ToLower "feat".toList := by
  decide

/-- C5: the commit `Parse` returns is breaking if and only if the header carried the `!`
marker (the trimmed first line matches the subject pattern, with its group `(!)`) or one
of its footers has a token that, upper-cased, is `BREAKING CHANGE` or `BREAKING-CHANGE`. -/
theorem Parse_breaking_iff (hash message : Str) :
    (Parse hash message).Breaking = true ↔
      headerBang message = true ∨
        ∃ f ∈ (Parse hash message).Footers,
          ToUpper f.Token = breakingChange ∨ ToUpper f.Token = breakingHyphenChange := by
  cases h : subjectRegex.findSubmatch (TrimSpace (firstLine message)) with
  | none =>
    rw [Parse_of_none hash message h]
    simp [emptyCommit, headerBang, h]
  | some m =>
    rw [Parse_of_some hash message m h]
    simp [headerBang, h, isBreakingFooter]

/-- C7: when the trimmed first line of the message does not match the subject pattern,
`Parse` returns a commit whose type, scope, description and body are empty, that has no
footers and is not breaking, with `Raw` the message and `Hash` the hash given; the empty
message is such a message. -/
theorem Parse_no_match (hash message : Str)
    (h : subjectRegex.matchString (TrimSpace (firstLine message)) = false) :
    Parse hash message =
        { Type_ := [], Scope := [], Description := [], Body := [], Footers := [],
          Breaking := false, Raw := message, Hash := hash } ∧
      Parse hash [] =
        { Type_ := [], Scope := [], Description := [], Body := [], Footers := [],
          Breaking := false, Raw := [], Hash := hash } := by
  refine ⟨?_, rfl⟩
  apply Parse_of_none
  cases hf : subjectRegex.findSubmatch (TrimSpace (firstLine message)) with
  | none => rfl
  | some m => simp [Regex.matchString, hf] at h

/-- The test message `Update README` is not a conventional commit. -/
theorem Parse_no_match_witness :
    Parse ['a', 'b', 'c'] "Update README".toList =
        { Type_ := [], Scope := [], Description := [], Body := [], Footers := [],
          Breaking := false, Raw := "Update README".toList, Hash := ['a', 'b', 'c'] } :=
  (Parse_no_match ['a', 'b', 'c'] "Update README".toList (by decide)).1

end commit

/-! ## Footers -/

theorem lit_run_append (l r : Str) (caps : Caps) :
    (Regex.lit l).run (l ++ r, caps) = [(r, caps)] := by
  induction l with
  | nil => simp [Regex.lit, Regex.run]
  | cons c cs ih => simp [Regex.lit, Regex.run, Regex.chr, ih]

theorem run_seq_group_lit (i : Nat) (l : Str) (rest : Regex) (r : Str) (caps : Caps) :
    (Regex.seq (.group i (.lit l)) rest).run (l ++ r, caps) = rest.run (r, (i, l) :: caps) := by
  rw [run_seq_group, lit_run_append]
  simp

namespace commit

theorem colon_fails (rest : Regex) (c : Char) (cs : Str) (k : Caps) (hc : isReSpace c = true) :
    (Regex.seq (.chr ':') rest).run (c :: cs, k) = [] :=
  run_seq_chr_ne (ne_of_class hc (by decide)) rest cs k

/-- The white space before the colon of a footer is skipped as a whole. -/
theorem footerTail_run (r : Str) (caps : Caps) :
    footerTail.run (r, caps) =
      (Regex.seq (.chr ':') (valueTail 2)).run (r.dropWhile isReSpace, caps) := by
  unfold footerTail
  rw [run_seq_star isReSpace _ (colon_fails _)]

theorem isReSpace_of_isWordHyphen {c : Char} (hc : isWordHyphen c = true) :
    isReSpace c = false := by
  cases h : isReSpace c with
  | false => rfl
  | true =>
    simp only [isReSpace, Bool.or_eq_true, beq_iff_eq] at h
    rcases h with (((rfl | rfl) | rfl) | rfl) | rfl <;> revert hc <;> decide

theorem footerTail_fails (c : Char) (cs : Str) (k : Caps) (hc : isWordHyphen c = true) :
    footerTail.run (c :: cs, k) = [] := by
  rw [footerTail_run]
  have h1 : (c :: cs).dropWhile isReSpace = c :: cs := by
    simp [List.dropWhile, isReSpace_of_isWordHyphen hc]
  rw [h1, run_seq_chr_ne (ne_of_class hc (by decide))]

theorem footerTail_run_colon (y : Str) (caps : Caps) (hne : y ≠ [])
    (hhead : ∀ c, y.head? = some c → isReSpace c = false) (hnl : '\n' ∉ y) :
    ∃ tl, footerTail.run (':' :: ' ' :: y, caps) = ([], (2, y) :: caps) :: tl := by
  rw [footerTail_run]
  have h1 : (':' :: ' ' :: y).dropWhile isReSpace = ':' :: ' ' :: y := by
    simp [List.dropWhile, isReSpace]
  rw [h1]
  exact colon_valueTail_run 2 y caps hne hhead hnl

/-- The footer pattern on `BREAKING-CHANGE: y` and on `BREAKING CHANGE: y`. -/
theorem footerRegex_run_breaking (tok y : Str)
    (htok : tok = breakingHyphenChange ∨ tok = breakingChange) (hne : y ≠ [])
    (hhead : ∀ c, y.head? = some c → isReSpace c = false) (hnl : '\n' ∉ y) :
    ∃ tl, footerRegex.run (tok ++ ':' :: ' ' :: y, []) = ([], [(2, y), (1, tok)]) :: tl := by
  obtain ⟨tl, h⟩ := footerTail_run_colon y [(1, tok)] hne hhead hnl
  rw [footerRegex_eq, run_seq_group_alt]
  rcases htok with rfl | rfl
  · refine ⟨tl ++ (Regex.seq (.group 1 (.lit breakingChange)) footerTail).run
      (breakingHyphenChange ++ ':' :: ' ' :: y, []), ?_⟩
    rw [run_seq_group_plus_eq 1 isWordHyphen _ footerTail_fails,
      takeWhile_append_of_all _ _ _ (by decide) (by intro c cs e; cases e; decide),
      dropWhile_append_of_all _ _ _ (by decide) (by intro c cs e; cases e; decide),
      if_neg (by decide), h]
    rfl
  · refine ⟨tl, ?_⟩
    have e : breakingChange ++ ':' :: ' ' :: y =
        ['B', 'R', 'E', 'A', 'K', 'I', 'N', 'G'] ++
          ' ' :: 'C' :: 'H' :: 'A' :: 'N' :: 'G' :: 'E' :: ':' :: ' ' :: y := rfl
    have hfirst : (Regex.seq (.group 1 (.plus isWordHyphen)) footerTail).run
        (breakingChange ++ ':' :: ' ' :: y, []) = [] := by
      rw [e, run_seq_group_plus_eq 1 isWordHyphen _ footerTail_fails,
        takeWhile_append_of_all _ _ _ (by decide) (by intro c cs e; cases e; decide),
        dropWhile_append_of_all _ _ _ (by decide) (by intro c cs e; cases e; decide),
        if_neg (by decide), footerTail_run]
      have h1 : (' ' :: 'C' :: 'H' :: 'A' :: 'N' :: 'G' :: 'E' :: ':' :: ' ' :: y).dropWhile
          isReSpace = 'C' :: 'H' :: 'A' :: 'N' :: 'G' :: 'E' :: ':' :: ' ' :: y := by
        simp [List.dropWhile, isReSpace]
      rw [h1, run_seq_chr_ne (by decide)]
    rw [hfirst, run_seq_group_lit, h]
    rfl

theorem footerOfLine_breaking (line tok y : Str)
    (htrim : TrimSpace line = tok ++ ':' :: ' ' :: y)
    (htok : tok = breakingHyphenChange ∨ tok = breakingChange) (hne : y ≠ [])
    (hhead : ∀ c, y.head? = some c → isReSpace c = false) (hnl : '\n' ∉ y) :
    footerOfLine line = some ⟨tok, y⟩ ∧ footerRegex.matchString (TrimSpace line) = true := by
  obtain ⟨tl, h⟩ := footerRegex_run_breaking tok y htok hne hhead hnl
  simp [footerOfLine, Regex.matchString, Regex.findSubmatch, htrim, h, Caps.get, List.lookup]

theorem scanFooterStart_bound (lines : List Str) :
    ∀ n fs, scanFooterStart lines n fs = fs ∨ scanFooterStart lines n fs < n := by
  intro n
  induction n with
  | zero => intro fs; exact Or.inl rfl
  | succ i ih =>
    intro fs
    unfold scanFooterStart
    simp only
    split
    · exact Or.inl rfl
    · split
      · rcases ih i with h | h
        · exact Or.inr (by omega)
        · exact Or.inr (by omega)
      · exact Or.inl rfl

theorem getD_of_getLast? (lines : List Str) (last : Str) (h : lines.getLast? = some last) :
    lines.getD (lines.length - 1) [] = last := by
  rw [List.getLast?_eq_getElem?] at h
  rw [List.getD_eq_getElem?_getD, h]
  rfl

/-- When the last line is a footer, the backward scan stops before the end. -/
theorem scanFooterStart_lt (lines : List Str) (last : Str) (hlast : lines.getLast? = some last)
    (hne : TrimSpace last ≠ []) (hm : footerRegex.matchString (TrimSpace last) = true) :
    scanFooterStart lines lines.length lines.length < lines.length := by
  have hd := getD_of_getLast? lines last hlast
  cases hl : lines.length with
  | zero =>
    have : lines = [] := List.length_eq_zero.mp hl
    rw [this] at hlast
    cases hlast
  | succ n =>
    rw [hl] at hd
    simp only [Nat.add_sub_cancel] at hd
    unfold scanFooterStart
    simp only [hd, hne, hm, if_true, if_false]
    rcases scanFooterStart_bound lines n n with h | h <;> omega

theorem filterMap_drop_getLast? {β : Type} (f : Str → Option β) (lines : List Str)
    (last : Str) (v : β) (hlast : lines.getLast? = some last) (hf : f last = some v) (k : Nat)
    (hk : k < lines.length) : ((lines.drop k).filterMap f).getLast? = some v := by
  have hne : lines ≠ [] := by
    rintro rfl
    cases hlast
  have hsplit : lines = lines.dropLast ++ [last] := by
    have h1 := List.dropLast_append_getLast? last hlast
    exact h1.symm
  have hlen : lines.dropLast.length = lines.length - 1 := List.length_dropLast lines
  rw [hsplit, List.drop_append_of_le_length (by omega), List.filterMap_append]
  simp [hf]

theorem isBreakingFooter_breaking (tok y : Str)
    (htok : tok = breakingHyphenChange ∨ tok = breakingChange) :
    isBreakingFooter ⟨tok, y⟩ = true := by
  have h1 : ToUpper breakingHyphenChange = breakingHyphenChange := by decide
  have h2 : ToUpper breakingChange = breakingChange := by decide
  rcases htok with rfl | rfl
  · simp [isBreakingFooter, h1]
  · simp [isBreakingFooter, h2]

theorem tail_getLast? (lines : List Str) (h : 2 ≤ lines.length) :
    lines.tail.getLast? = lines.getLast? := by
  cases lines with
  | nil => simp at h
  | cons a as =>
    cases as with
    | nil => simp at h
    | cons b bs => simp [List.getLast?_cons_cons]

end commit

/-! ## The order of strings -/

theorem strLt_irrefl (x : Str) : strLt x x = false := by
  induction x with
  | nil => rfl
  | cons a as ih => simp [strLt, ih]

theorem strLt_asymm (x y : Str) (h : strLt x y = true) : strLt y x = false := by
  induction x generalizing y with
  | nil => cases y <;> simp [strLt] at h ⊢
  | cons a as ih =>
    cases y with
    | nil => simp [strLt] at h
    | cons b bs =>
      simp only [strLt] at h ⊢
      by_cases h1 : a < b
      · simp [h1, lt_asymm h1]
      · by_cases h2 : b < a
        · simp [h1, h2] at h
        · simp only [h1, h2, if_false] at h ⊢
          exact ih bs h

theorem strLt_connex (x y : Str) (h1 : strLt x y = false) (h2 : strLt y x = false) : x = y := by
  induction x generalizing y with
  | nil => cases y <;> simp [strLt] at h1 ⊢
  | cons a as ih =>
    cases y with
    | nil => simp [strLt] at h2
    | cons b bs =>
      simp only [strLt] at h1 h2
      by_cases hab : a < b
      · simp [hab] at h1
      · by_cases hba : b < a
        · simp [hba] at h2
        · simp only [hab, hba, if_false] at h1 h2
          have e : a = b := le_antisymm (not_lt.mp hba) (not_lt.mp hab)
          rw [e, ih bs h1 h2]

theorem strLt_trans (x y z : Str) (h1 : strLt x y = true) (h2 : strLt y z = true) :
    strLt x z = true := by
  induction x generalizing y z with
  | nil =>
    cases y with
    | nil => simp [strLt] at h1
    | cons b bs =>
      cases z with
      | nil => simp [strLt] at h2
      | cons c cs => rfl
  | cons a as ih =>
    cases y with
    | nil => simp [strLt] at h1
    | cons b bs =>
      cases z with
      | nil => simp [strLt] at h2
      | cons c cs =>
        simp only [strLt] at h1 h2 ⊢
        by_cases hab : a < b
        · by_cases hbc : b < c
          · simp [lt_trans hab hbc]
          · by_cases hcb : c < b
            · simp [hbc, hcb] at h2
            · have e : b = c := le_antisymm (not_lt.mp hcb) (not_lt.mp hbc)
              simp [← e, hab]
        · by_cases hba : b < a
          · simp [hab, hba] at h1
          · have e : a = b := le_antisymm (not_lt.mp hba) (not_lt.mp hab)
            simp only [hab, hba, if_false] at h1
            subst e
            by_cases hac : a < c
            · simp [hac]
            · by_cases hca : c < a
              · simp [hac, hca] at h2
              · simp only [hac, hca, if_false] at h2 ⊢
                exact ih bs cs h1 h2

/-- Go's `<` on strings is the ordinary lexicographic order of the runes. -/
theorem strLt_iff_lex (x y : Str) : strLt x y = true ↔ List.Lex (· < ·) x y := by
  induction x generalizing y with
  | nil =>
    cases y with
    | nil =>
      simp only [strLt, Bool.false_eq_true, false_iff]
      intro h
      cases h
    | cons b bs => exact ⟨fun _ => List.Lex.nil, fun _ => rfl⟩
  | cons a as ih =>
    cases y with
    | nil =>
      simp only [strLt, Bool.false_eq_true, false_iff]
      intro h
      cases h
    | cons b bs =>
      simp only [strLt]
      constructor
      · intro h
        by_cases hab : a < b
        · exact List.Lex.rel hab
        · by_cases hba : b < a
          · simp [hab, hba] at h
          · simp only [hab, hba, if_false] at h
            have e : a = b := le_antisymm (not_lt.mp hba) (not_lt.mp hab)
            subst e
            exact List.Lex.cons ((ih bs).mp h)
      · intro h
        cases h with
        | cons h' => simp [lt_irrefl, (ih bs).mpr h']
        | rel h' => simp [h']

/-! ## `Compare` as a strict order with its equality -/

namespace semver

theorem preLt_irrefl (x : Str) : ¬ preLt x x := by
  rintro ⟨hx, h | h⟩
  · exact hx h
  · rw [strLt_irrefl] at h
    cases h

theorem preLt_asymm (x y : Str) (h : preLt x y) : ¬ preLt y x := by
  obtain ⟨hx, hy | hlt⟩ := h
  · rintro ⟨hy', _⟩
    exact hy' hy
  · rintro ⟨_, hx' | hlt'⟩
    · exact hx hx'
    · rw [strLt_asymm x y hlt] at hlt'
      cases hlt'

theorem preLt_trans (x y z : Str) (h1 : preLt x y) (h2 : preLt y z) : preLt x z := by
  obtain ⟨hx, hy | hxy⟩ := h1
  · exact absurd hy h2.1
  · obtain ⟨_, hz | hyz⟩ := h2
    · exact ⟨hx, Or.inl hz⟩
    · exact ⟨hx, Or.inr (strLt_trans x y z hxy hyz)⟩

theorem preLt_connex (x y : Str) (h1 : ¬ preLt x y) (h2 : ¬ preLt y x) : x = y := by
  by_cases hx : x = []
  · by_cases hy : y = []
    · rw [hx, hy]
    · exact absurd ⟨hy, Or.inl hx⟩ h2
  · by_cases hy : y = []
    · exact absurd ⟨hx, Or.inl hy⟩ h1
    · apply strLt_connex
      · cases h : strLt x y with
        | false => rfl
        | true => exact absurd ⟨hx, Or.inr h⟩ h1
      · cases h : strLt y x with
        | false => rfl
        | true => exact absurd ⟨hy, Or.inr h⟩ h2

theorem triple_trichotomy (a b : Version) : tripleLt a b ∨ tripleLt b a ∨ tripleEq a b := by
  unfold tripleLt tripleEq
  omega

theorem version_trichotomy (a b : Version) :
    versionLt a b ∨ versionLt b a ∨ (tripleEq a b ∧ a.Prerelease = b.Prerelease) := by
  rcases triple_trichotomy a b with h | h | h
  · exact Or.inl (Or.inl h)
  · exact Or.inr (Or.inl (Or.inl h))
  · by_cases h1 : preLt a.Prerelease b.Prerelease
    · exact Or.inl (Or.inr ⟨h, h1⟩)
    · by_cases h2 : preLt b.Prerelease a.Prerelease
      · exact Or.inr (Or.inl (Or.inr ⟨⟨h.1.symm, h.2.1.symm, h.2.2.symm⟩, h2⟩))
      · exact Or.inr (Or.inr ⟨h, preLt_connex _ _ h1 h2⟩)

theorem versionLt_asymm (a b : Version) (h : versionLt a b) : ¬ versionLt b a := by
  rcases h with h | ⟨he, hp⟩
  · rintro (h' | ⟨he', _⟩)
    · unfold tripleLt at h h'
      omega
    · unfold tripleLt at h
      unfold tripleEq at he'
      omega
  · rintro (h' | ⟨_, hp'⟩)
    · unfold tripleLt at h'
      unfold tripleEq at he
      omega
    · exact preLt_asymm _ _ hp hp'

theorem versionLt_not_eq (a b : Version) (h : versionLt a b) :
    ¬ (tripleEq a b ∧ a.Prerelease = b.Prerelease) := by
  rintro ⟨he, hp⟩
  rcases h with h | ⟨_, hlt⟩
  · unfold tripleLt at h
    unfold tripleEq at he
    omega
  · rw [hp] at hlt
    exact preLt_irrefl _ hlt

theorem versionLt_trans (a b c : Version) (h1 : versionLt a b) (h2 : versionLt b c) :
    versionLt a c := by
  rcases h1 with h1 | ⟨e1, p1⟩ <;> rcases h2 with h2 | ⟨e2, p2⟩
  · left
    unfold tripleLt at *
    omega
  · left
    unfold tripleLt at *
    unfold tripleEq at e2
    omega
  · left
    unfold tripleLt at *
    unfold tripleEq at e1
    omega
  · right
    refine ⟨?_, preLt_trans _ _ _ p1 p2⟩
    unfold tripleEq at *
    omega

theorem versionLt_of_eq_left (a b c : Version)
    (h1 : tripleEq a b ∧ a.Prerelease = b.Prerelease) (h2 : versionLt b c) : versionLt a c := by
  obtain ⟨e, p⟩ := h1
  rcases h2 with h2 | ⟨e2, p2⟩
  · left
    unfold tripleLt at *
    unfold tripleEq at e
    omega
  · right
    rw [p]
    refine ⟨?_, p2⟩
    unfold tripleEq at *
    omega

theorem versionLt_of_eq_right (a b c : Version) (h1 : versionLt a b)
    (h2 : tripleEq b c ∧ b.Prerelease = c.Prerelease) : versionLt a c := by
  obtain ⟨e, p⟩ := h2
  rcases h1 with h1 | ⟨e1, p1⟩
  · left
    unfold tripleLt at *
    unfold tripleEq at e
    omega
  · right
    rw [← p]
    refine ⟨?_, p1⟩
    unfold tripleEq at *
    omega

theorem Compare_of_tripleLt (a b : Version) (h : tripleLt a b) : a.Compare b = -1 := by
  unfold tripleLt at h
  unfold Version.Compare cmpInt
  split_ifs <;> omega

theorem Compare_of_tripleGt (a b : Version) (h : tripleLt b a) : a.Compare b = 1 := by
  unfold tripleLt at h
  unfold Version.Compare cmpInt
  split_ifs <;> omega

theorem Compare_of_tripleEq (a b : Version) (h : tripleEq a b) :
    a.Compare b =
      if a.Prerelease = [] ∧ b.Prerelease ≠ [] then 1
      else if a.Prerelease ≠ [] ∧ b.Prerelease = [] then -1
      else if strLt a.Prerelease b.Prerelease then -1
      else if strLt b.Prerelease a.Prerelease then 1
      else 0 := by
  obtain ⟨h1, h2, h3⟩ := h
  simp [Version.Compare, h1, h2, h3]

theorem Compare_of_versionLt (a b : Version) (h : versionLt a b) : a.Compare b = -1 := by
  rcases h with h | ⟨he, hx, hy | hlt⟩
  · exact Compare_of_tripleLt a b h
  · rw [Compare_of_tripleEq a b he]
    simp [hx, hy]
  · rw [Compare_of_tripleEq a b he]
    by_cases hy : b.Prerelease = []
    · simp [hx, hy]
    · simp [hx, hy, hlt]

theorem Compare_of_versionGt (a b : Version) (h : versionLt b a) : a.Compare b = 1 := by
  rcases h with h | ⟨he, hx, hy | hlt⟩
  · exact Compare_of_tripleGt a b h
  · rw [Compare_of_tripleEq a b ⟨he.1.symm, he.2.1.symm, he.2.2.symm⟩]
    simp [hx, hy]
  · rw [Compare_of_tripleEq a b ⟨he.1.symm, he.2.1.symm, he.2.2.symm⟩]
    by_cases hy : a.Prerelease = []
    · simp [hx, hy]
    · simp [hx, hy, hlt, strLt_asymm _ _ hlt]

theorem Compare_of_eq (a b : Version) (h : tripleEq a b ∧ a.Prerelease = b.Prerelease) :
    a.Compare b = 0 := by
  rw [Compare_of_tripleEq a b h.1, h.2]
  simp [strLt_irrefl]

theorem Compare_eq_neg_one_iff (a b : Version) : a.Compare b = -1 ↔ versionLt a b := by
  constructor
  · intro h
    rcases version_trichotomy a b with h1 | h1 | h1
    · exact h1
    · rw [Compare_of_versionGt a b h1] at h
      cases h
    · rw [Compare_of_eq a b h1] at h
      cases h
  · exact Compare_of_versionLt a b

theorem Compare_eq_one_iff (a b : Version) : a.Compare b = 1 ↔ versionLt b a := by
  constructor
  · intro h
    rcases version_trichotomy a b with h1 | h1 | h1
    · rw [Compare_of_versionLt a b h1] at h
      cases h
    · exact h1
    · rw [Compare_of_eq a b h1] at h
      cases h
  · exact Compare_of_versionGt a b

theorem Compare_eq_zero_iff (a b : Version) :
    a.Compare b = 0 ↔ tripleEq a b ∧ a.Prerelease = b.Prerelease := by
  constructor
  · intro h
    rcases version_trichotomy a b with h1 | h1 | h1
    · rw [Compare_of_versionLt a b h1] at h
      cases h
    · rw [Compare_of_versionGt a b h1] at h
      cases h
    · exact h1
  · exact Compare_of_eq a b

theorem Compare_range (a b : Version) :
    a.Compare b = -1 ∨ a.Compare b = 0 ∨ a.Compare b = 1 := by
  rcases version_trichotomy a b with h | h | h
  · exact Or.inl (Compare_of_versionLt a b h)
  · exact Or.inr (Or.inr (Compare_of_versionGt a b h))
  · exact Or.inr (Or.inl (Compare_of_eq a b h))

theorem Compare_le_zero_iff (a b : Version) :
    a.Compare b ≤ 0 ↔ versionLt a b ∨ (tripleEq a b ∧ a.Prerelease = b.Prerelease) := by
  constructor
  · intro h
    rcases version_trichotomy a b with h1 | h1 | h1
    · exact Or.inl h1
    · rw [Compare_of_versionGt a b h1] at h
      omega
    · exact Or.inr h1
  · rintro (h | h)
    · rw [Compare_of_versionLt a b h]
      decide
    · rw [Compare_of_eq a b h]

theorem Compare_neg_iff (a b : Version) : a.Compare b < 0 ↔ versionLt a b := by
  constructor
  · intro h
    rcases version_trichotomy a b with h1 | h1 | h1
    · exact h1
    · rw [Compare_of_versionGt a b h1] at h
      omega
    · rw [Compare_of_eq a b h1] at h
      omega
  · intro h
    rw [Compare_of_versionLt a b h]
    decide

/-- C13: when the triples `(Major, Minor, Patch)` of `a` and `b` differ, `a.Compare(b)` is
`-1` if the triple of `a` is lexicographically smaller as integers and `1` if it is
larger, and one of the two is the case; the result is the same for all versions with
these triples, whatever their `Prerelease`, `Metadata` and `Prefix`; and `Compare` only
ever returns `-1`, `0` or `1`. -/
theorem Compare_triple (a b : Version) (h : ¬ tripleEq a b) :
    (tripleLt a b → a.Compare b = -1) ∧ (tripleLt b a → a.Compare b = 1) ∧
      (tripleLt a b ∨ tripleLt b a) ∧
      (∀ a' b' : Version, tripleEq a a' → tripleEq b b' → a'.Compare b' = a.Compare b) ∧
      (∀ x y : Version, x.Compare y = -1 ∨ x.Compare y = 0 ∨ x.Compare y = 1) := by
  have hcases : tripleLt a b ∨ tripleLt b a := by
    rcases triple_trichotomy a b with h1 | h1 | h1
    · exact Or.inl h1
    · exact Or.inr h1
    · exact absurd h1 h
  refine ⟨Compare_of_tripleLt a b, Compare_of_tripleGt a b, hcases, ?_, Compare_range⟩
  intro a' b' ha hb
  rcases hcases with h1 | h1
  · have h2 : tripleLt a' b' := by
      unfold tripleLt tripleEq at *
      omega
    rw [Compare_of_tripleLt a b h1, Compare_of_tripleLt a' b' h2]
  · have h2 : tripleLt b' a' := by
      unfold tripleLt tripleEq at *
      omega
    rw [Compare_of_tripleGt a b h1, Compare_of_tripleGt a' b' h2]

/-- The test pair `v1.0.0`, `v2.0.0`: the triples differ and the result is `-1`. -/
theorem Compare_triple_witness :
    Version.Compare ⟨1, 0, 0, [], [], ['v']⟩ ⟨2, 0, 0, [], [], ['v']⟩ = -1 :=
  (Compare_triple ⟨1, 0, 0, [], [], ['v']⟩ ⟨2, 0, 0, [], [], ['v']⟩
    (by simp [tripleEq])).1 (by simp [tripleLt])

/-- C14: with equal `Major`, `Minor` and `Patch`, a version without pre-release compares
`1` against one with a pre-release, and that one `-1` against it. -/
theorem Compare_release_prerelease (a b : Version) (h : tripleEq a b)
    (ha : a.Prerelease = []) (hb : b.Prerelease ≠ []) :
    a.Compare b = 1 ∧ b.Compare a = -1 := by
  have hlt : versionLt b a := Or.inr ⟨⟨h.1.symm, h.2.1.symm, h.2.2.symm⟩, hb, Or.inl ha⟩
  exact ⟨Compare_of_versionGt a b hlt, Compare_of_versionLt b a hlt⟩

/-- The test pair `v1.0.0`, `v1.0.0-alpha`. -/
theorem Compare_release_prerelease_witness :
    Version.Compare ⟨1, 0, 0, [], [], ['v']⟩ ⟨1, 0, 0, "alpha".toList, [], ['v']⟩ = 1 ∧
      Version.Compare ⟨1, 0, 0, "alpha".toList, [], ['v']⟩ ⟨1, 0, 0, [], [], ['v']⟩ = -1 :=
  Compare_release_prerelease ⟨1, 0, 0, [], [], ['v']⟩ ⟨1, 0, 0, "alpha".toList, [], ['v']⟩
    (by simp [tripleEq]) rfl (by decide)

/-- C15: with equal `Major`, `Minor` and `Patch` and two non-empty pre-releases,
`a.Compare(b)` is the sign of the ordinary lexicographic comparison of the two
pre-release strings, character by character: `-1` exactly when that of `a` comes first,
`1` exactly when that of `b` comes first, `0` exactly when they are the same. Numbers
inside are not read as numbers: `alpha.10` is below `alpha.9`. -/
theorem Compare_prerelease_lex (a b : Version) (h : tripleEq a b)
    (ha : a.Prerelease ≠ []) (hb : b.Prerelease ≠ []) :
    (a.Compare b = -1 ↔ List.Lex (· < ·) a.Prerelease b.Prerelease) ∧
      (a.Compare b = 1 ↔ List.Lex (· < ·) b.Prerelease a.Prerelease) ∧
      (a.Compare b = 0 ↔ a.Prerelease = b.Prerelease) ∧
      Version.Compare ⟨1, 0, 0, "alpha.10".toList, [], []⟩
        ⟨1, 0, 0, "alpha.9".toList, [], []⟩ = -1 := by
  have hnot : ∀ x y : Version, tripleEq x y → ¬ tripleLt x y := by
    intro x y he hl
    unfold tripleEq at he
    unfold tripleLt at hl
    omega
  have key : ∀ x y : Version, tripleEq x y → x.Prerelease ≠ [] → y.Prerelease ≠ [] →
      (versionLt x y ↔ List.Lex (· < ·) x.Prerelease y.Prerelease) := by
    intro x y he hx hy
    rw [← strLt_iff_lex]
    constructor
    · rintro (hl | ⟨_, _, hz | hlt⟩)
      · exact absurd hl (hnot x y he)
      · exact absurd hz hy
      · exact hlt
    · intro hlt
      exact Or.inr ⟨he, hx, Or.inr hlt⟩
  refine ⟨?_, ?_, ?_, by decide⟩
  · rw [Compare_eq_neg_one_iff, key a b h ha hb]
  · rw [Compare_eq_one_iff, key b a ⟨h.1.symm, h.2.1.symm, h.2.2.symm⟩ hb ha]
  · rw [Compare_eq_zero_iff]
    exact ⟨fun hh => hh.2, fun hh => ⟨h, hh⟩⟩

/-- The test pair `v1.0.0-alpha`, `v1.0.0-beta`: `alpha` comes first, so the result is
`-1`. -/
theorem Compare_prerelease_lex_witness :
    Version.Compare ⟨1, 0, 0, "alpha".toList, [], ['v']⟩
      ⟨1, 0, 0, "beta".toList, [], ['v']⟩ = -1 :=
  (Compare_prerelease_lex ⟨1, 0, 0, "alpha".toList, [], ['v']⟩
    ⟨1, 0, 0, "beta".toList, [], ['v']⟩ (by simp [tripleEq]) (by decide) (by decide)).1.mpr
    (List.Lex.rel (by decide))

/-- C16: `v.Compare(v) = 0` for every version, and `a.Compare(b) = -(b.Compare(a))` for
all versions. -/
theorem Compare_refl_antisymm :
    (∀ v : Version, v.Compare v = 0) ∧ ∀ a b : Version, a.Compare b = -(b.Compare a) := by
  refine ⟨fun v => Compare_of_eq v v ⟨⟨rfl, rfl, rfl⟩, rfl⟩, ?_⟩
  intro a b
  rcases version_trichotomy a b with h | h | h
  · rw [Compare_of_versionLt a b h, Compare_of_versionGt b a h]
  · rw [Compare_of_versionGt a b h, Compare_of_versionLt b a h]
    decide
  · rw [Compare_of_eq a b h,
      Compare_of_eq b a ⟨⟨h.1.1.symm, h.1.2.1.symm, h.1.2.2.symm⟩, h.2.symm⟩]
    decide

/-- C17: `Compare` is transitive: if `a.Compare(b) <= 0` and `b.Compare(c) <= 0` then
`a.Compare(c) <= 0`, and if one of the two is negative then `a.Compare(c) < 0`. -/
theorem Compare_trans (a b c : Version) (h1 : a.Compare b ≤ 0) (h2 : b.Compare c ≤ 0) :
    a.Compare c ≤ 0 ∧ (a.Compare b < 0 ∨ b.Compare c < 0 → a.Compare c < 0) := by
  rw [Compare_le_zero_iff] at h1 h2
  have hstrict : a.Compare b < 0 ∨ b.Compare c < 0 → versionLt a c := by
    rw [Compare_neg_iff, Compare_neg_iff]
    rintro (hab | hbc)
    · rcases h2 with h2 | h2
      · exact versionLt_trans a b c hab h2
      · exact versionLt_of_eq_right a b c hab h2
    · rcases h1 with h1 | h1
      · exact versionLt_trans a b c h1 hbc
      · exact versionLt_of_eq_left a b c h1 hbc
  refine ⟨?_, fun h => (Compare_neg_iff a c).mpr (hstrict h)⟩
  rw [Compare_le_zero_iff]
  rcases h1 with h1 | h1
  · exact Or.inl (hstrict (Or.inl ((Compare_neg_iff a b).mpr h1)))
  · rcases h2 with h2 | h2
    · exact Or.inl (hstrict (Or.inr ((Compare_neg_iff b c).mpr h2)))
    · refine Or.inr ⟨?_, h1.2.trans h2.2⟩
      have e1 := h1.1
      have e2 := h2.1
      unfold tripleEq at *
      omega

/-- The chain `v1.0.0-alpha`, `v1.0.0`, `v1.0.1` of the test versions. -/
theorem Compare_trans_witness :
    Version.Compare ⟨1, 0, 0, "alpha".toList, [], ['v']⟩ ⟨1, 0, 1, [], [], ['v']⟩ ≤ 0 ∧
      Version.Compare ⟨1, 0, 0, "alpha".toList, [], ['v']⟩ ⟨1, 0, 1, [], [], ['v']⟩ < 0 :=
  ⟨(Compare_trans ⟨1, 0, 0, "alpha".toList, [], ['v']⟩ ⟨1, 0, 0, [], [], ['v']⟩
      ⟨1, 0, 1, [], [], ['v']⟩ (by decide) (by decide)).1,
    (Compare_trans ⟨1, 0, 0, "alpha".toList, [], ['v']⟩ ⟨1, 0, 0, [], [], ['v']⟩
      ⟨1, 0, 1, [], [], ['v']⟩ (by decide) (by decide)).2 (Or.inl (by decide))⟩

/-- C18: build metadata takes no part in the comparison: putting any `m` and `n` in the
place of the `Metadata` of `a` and of `b` leaves `a.Compare(b)` as it is; and
`a.Compare(b) = 0` exactly when `Major`, `Minor`, `Patch` and `Prerelease` are equal. -/
theorem Compare_metadata (a b : Version) (m n : Str) :
    Version.Compare { a with Metadata := m } { b with Metadata := n } = a.Compare b ∧
      (a.Compare b = 0 ↔
        a.Major = b.Major ∧ a.Minor = b.Minor ∧ a.Patch = b.Patch ∧
          a.Prerelease = b.Prerelease) := by
  refine ⟨rfl, ?_⟩
  rw [Compare_eq_zero_iff]
  unfold tripleEq
  exact ⟨fun h => ⟨h.1.1, h.1.2.1, h.1.2.2, h.2⟩, fun h => ⟨⟨h.1, h.2.1, h.2.2.1⟩, h.2.2.2⟩⟩

/-! ## Bumps and the prefix -/

theorem parseDigits_range (neg : Bool) (ds : Str) :
    minInt ≤ parseDigits neg ds ∧ parseDigits neg ds ≤ maxInt := by
  unfold parseDigits
  split_ifs
  · decide
  · refine ⟨le_max_left _ _, max_le (by decide) ?_⟩
    unfold maxInt
    omega
  · refine ⟨le_min ?_ (by decide), min_le_right _ _⟩
    unfold minInt
    omega

theorem Atoi_range (s : Str) : minInt ≤ Atoi s ∧ Atoi s ≤ maxInt := by
  unfold Atoi
  split <;> exact parseDigits_range _ _

theorem wrapInt_range (x : Int) : minInt ≤ wrapInt x ∧ wrapInt x ≤ maxInt := by
  unfold wrapInt minInt maxInt
  omega

/-- Every version the program can build has its three numbers inside the range of `int`. -/
theorem Obtainable_range (v : Version) (h : Obtainable v) :
    (minInt ≤ v.Major ∧ v.Major ≤ maxInt) ∧ (minInt ≤ v.Minor ∧ v.Minor ≤ maxInt) ∧
      (minInt ≤ v.Patch ∧ v.Patch ≤ maxInt) := by
  induction h with
  | parse s v h =>
    unfold Parse at h
    cases hm : semverRegex.findSubmatch s with
    | none => simp [hm] at h
    | some m =>
      simp only [hm, Option.some.injEq] at h
      subst h
      exact ⟨Atoi_range _, Atoi_range _, Atoi_range _⟩
  | bumpMajor v _ ih =>
    have hz : minInt ≤ (0 : Int) ∧ (0 : Int) ≤ maxInt := by decide
    exact ⟨wrapInt_range _, hz, hz⟩
  | bumpMinor v _ ih =>
    have hz : minInt ≤ (0 : Int) ∧ (0 : Int) ≤ maxInt := by decide
    exact ⟨ih.1, wrapInt_range _, hz⟩
  | bumpPatch v _ ih => exact ⟨ih.1, ih.2.1, wrapInt_range _⟩

/-- C12, as amended: for every version obtained from `Parse` or by bumping such a version,
with or without a pre-release, the bumped version compares above it, provided the number
that is bumped is not the largest `int`, `2^63 - 1`. -/
theorem Compare_bump (v : Version) (h : Obtainable v) :
    (v.Patch ≠ maxInt → v.BumpPatch.Compare v > 0) ∧
      (v.Minor ≠ maxInt → v.BumpMinor.Compare v > 0) ∧
      (v.Major ≠ maxInt → v.BumpMajor.Compare v > 0) := by
  obtain ⟨⟨h1, h2⟩, ⟨h3, h4⟩, ⟨h5, h6⟩⟩ := Obtainable_range v h
  have key : ∀ x : Int, minInt ≤ x → x ≤ maxInt → x ≠ maxInt → x < wrapInt (x + 1) := by
    intro x hx1 hx2 hx3
    unfold wrapInt
    unfold minInt at hx1
    unfold maxInt at hx2 hx3
    omega
  refine ⟨fun hne => ?_, fun hne => ?_, fun hne => ?_⟩
  · rw [Compare_of_tripleGt v.BumpPatch v (Or.inr ⟨rfl, Or.inr ⟨rfl, key _ h5 h6 hne⟩⟩)]
    decide
  · rw [Compare_of_tripleGt v.BumpMinor v (Or.inr ⟨rfl, Or.inl (key _ h3 h4 hne)⟩)]
    decide
  · rw [Compare_of_tripleGt v.BumpMajor v (Or.inl (key _ h1 h2 hne))]
    decide

/-- The version `v1.2.3-alpha` of the tests compares below each of its three bumps. -/
theorem Compare_bump_witness :
    (Version.BumpPatch ⟨1, 2, 3, "alpha".toList, [], ['v']⟩).Compare
        ⟨1, 2, 3, "alpha".toList, [], ['v']⟩ > 0 ∧
      (Version.BumpMinor ⟨1, 2, 3, "alpha".toList, [], ['v']⟩).Compare
        ⟨1, 2, 3, "alpha".toList, [], ['v']⟩ > 0 ∧
      (Version.BumpMajor ⟨1, 2, 3, "alpha".toList, [], ['v']⟩).Compare
        ⟨1, 2, 3, "alpha".toList, [], ['v']⟩ > 0 :=
  ⟨(Compare_bump ⟨1, 2, 3, "alpha".toList, [], ['v']⟩
      (Obtainable.parse "v1.2.3-alpha".toList _ (by decide))).1 (by decide),
    (Compare_bump ⟨1, 2, 3, "alpha".toList, [], ['v']⟩
      (Obtainable.parse "v1.2.3-alpha".toList _ (by decide))).2.1 (by decide),
    (Compare_bump ⟨1, 2, 3, "alpha".toList, [], ['v']⟩
      (Obtainable.parse "v1.2.3-alpha".toList _ (by decide))).2.2 (by decide)⟩

/-- C12 fails at the largest `int`: `Parse` accepts `0.0.9223372036854775807`, and the
patch bump of that version, whose patch number wraps around to `-2^63`, compares below
it. -/
theorem Compare_bump_overflow :
    Obtainable ⟨0, 0, 9223372036854775807, [], [], []⟩ ∧
      (Version.BumpPatch ⟨0, 0, 9223372036854775807, [], [], []⟩).Compare
        ⟨0, 0, 9223372036854775807, [], [], []⟩ = -1 :=
  ⟨Obtainable.parse "0.0.9223372036854775807".toList _ (by decide), by decide⟩

theorem Parse_of_run_nil (s : Str) (h : semverRegex.run (s, []) = []) : Parse s = none := by
  simp [Parse, Regex.findSubmatch, h]

/-- C11, as amended: before a well-formed `MAJOR.MINOR.PATCH` core (with optional
pre-release and build metadata) `Parse` accepts the empty prefix and the prefix `v`, and
returns that prefix as `Prefix`; with any other prefix of non-digit characters it
fails. -/
theorem Parse_prefix_only_v (pfx : Str) (core : Parts) (hcore : core.WF)
    (hp : ∀ c ∈ pfx, isDigit c = false) :
    (pfx = [] ∨ pfx = ['v'] →
        ∃ v, Parse (pfx ++ core.core) = some v ∧ v.Prefix = pfx) ∧
      (pfx ≠ [] → pfx ≠ ['v'] → Parse (pfx ++ core.core) = none) := by
  constructor
  · rintro (rfl | rfl)
    · have h := Parse_text { core with v := false } hcore
      exact ⟨_, h, rfl⟩
    · have h := Parse_text { core with v := true } hcore
      exact ⟨_, h, rfl⟩
  · intro h1 h2
    apply Parse_of_run_nil
    cases pfx with
    | nil => exact absurd rfl h1
    | cons c cs =>
      have hc : isDigit c = false := hp c (List.mem_cons_self _ _)
      rw [semverRegex_eq, run_seq_opt, run_group_v, List.cons_append,
        coreTail_run_not_digit c _ _ hc, List.append_nil]
      by_cases hv : c = 'v'
      · subst hv
        simp only [if_true]
        cases cs with
        | nil => exact absurd rfl h2
        | cons d ds =>
          have hd : isDigit d = false := hp d (by simp)
          rw [List.cons_append, coreTail_run_not_digit d _ _ hd]
      · simp [hv]

/-- The test texts `v1.2.3` and `1.2.3`, as the prefixes `v` and none before `1.2.3`. -/
theorem Parse_prefix_only_v_witness :
    (∃ v, Parse "v1.2.3".toList = some v ∧ v.Prefix = ['v']) ∧
      (∃ v, Parse "1.2.3".toList = some v ∧ v.Prefix = []) :=
  ⟨(Parse_prefix_only_v ['v'] ⟨false, ['1'], ['2'], ['3'], none, none⟩
      (by simp [Parts.WF]; decide) (by decide)).1 (Or.inr rfl),
    (Parse_prefix_only_v [] ⟨false, ['1'], ['2'], ['3'], none, none⟩
      (by simp [Parts.WF]; decide) (by decide)).1 (Or.inl rfl)⟩

/-- C11 fails for the prefix `v-` of the test text `v-1.2.3`: it holds no digit, `1.2.3`
is a well-formed core, and `Parse` rejects the text. -/
theorem Parse_prefix_rejected :
    (∀ c ∈ "v-".toList, isDigit c = false) ∧ Parse "1.2.3".toList ≠ none ∧
      Parse ("v-".toList ++ "1.2.3".toList) = none := by
  decide

/-- C19 fails on numeric pre-release identifiers: `Parse` accepts `1.0.0-alpha.9` and
`1.0.0-alpha.10`, `Compare` puts the first above the second (`9` is above `1` as a
character), and the precedence of semantic versioning puts it below (`9 < 10`). -/
theorem Compare_not_precedence :
    Parse "1.0.0-alpha.9".toList = some ⟨1, 0, 0, "alpha.9".toList, [], []⟩ ∧
      Parse "1.0.0-alpha.10".toList = some ⟨1, 0, 0, "alpha.10".toList, [], []⟩ ∧
      Version.Compare ⟨1, 0, 0, "alpha.9".toList, [], []⟩
        ⟨1, 0, 0, "alpha.10".toList, [], []⟩ = 1 ∧
      precedence ⟨1, 0, 0, "alpha.9".toList, [], []⟩
        ⟨1, 0, 0, "alpha.10".toList, [], []⟩ = -1 := by
  decide

end semver

namespace commit

open BumpType

theorem BumpType.max_left_comm (a b c : BumpType) :
    BumpType.max a (BumpType.max b c) = BumpType.max b (BumpType.max a c) := by
  cases a <;> cases b <;> cases c <;> rfl

theorem maxLevel_perm (flag : Bool) (l1 l2 : List ConventionalCommit) (h : l1.Perm l2) :
    maxLevel flag l1 = maxLevel flag l2 := by
  induction h with
  | nil => rfl
  | cons x _ ih =>
    simp only [maxLevel, List.foldr_cons] at ih ⊢
    rw [ih]
  | swap x y l =>
    simp only [maxLevel, List.foldr_cons]
    exact BumpType.max_left_comm _ _ _
  | trans _ _ ih1 ih2 => exact ih1.trans ih2

/-- C20: on a commit list without breaking commits, `DetermineBump` returns the same level
for every permutation of the list as for the list itself, for either value of the
flag. -/
theorem DetermineBump_perm (commits permuted : List ConventionalCommit)
    (bumpPatchOnUnknown : Bool) (h : ∀ c ∈ commits, c.Breaking = false)
    (hp : commits.Perm permuted) :
    DetermineBump permuted bumpPatchOnUnknown = DetermineBump commits bumpPatchOnUnknown := by
  have h2 : ∀ c ∈ permuted, c.Breaking = false := fun c hc => h c (hp.mem_iff.mpr hc)
  unfold DetermineBump
  rw [determineLoop_eq_max bumpPatchOnUnknown commits h,
    determineLoop_eq_max bumpPatchOnUnknown permuted h2,
    maxLevel_perm bumpPatchOnUnknown commits permuted hp]

/-- The scenario `[fix, feat, docs]` and its reversal `[docs, feat, fix]`. -/
theorem DetermineBump_perm_witness :
    DetermineBump [ofType ['d', 'o', 'c', 's'], ofType ['f', 'e', 'a', 't'],
        ofType ['f', 'i', 'x']] false =
      DetermineBump [ofType ['f', 'i', 'x'], ofType ['f', 'e', 'a', 't'],
        ofType ['d', 'o', 'c', 's']] false :=
  DetermineBump_perm
    [ofType ['f', 'i', 'x'], ofType ['f', 'e', 'a', 't'], ofType ['d', 'o', 'c', 's']]
    [ofType ['d', 'o', 'c', 's'], ofType ['f', 'e', 'a', 't'], ofType ['f', 'i', 'x']]
    false (by decide) (List.reverse_perm _).symm

end commit

/-! ## Bump determination under extension -/

namespace commit

open BumpType

theorem BumpType.le_refl (a : BumpType) : a ≤ a := Nat.le_refl _

theorem BumpType.le_trans {a b c : BumpType} (h1 : a ≤ b) (h2 : b ≤ c) : a ≤ c :=
  Nat.le_trans h1 h2

theorem BumpType.le_max_left (a b : BumpType) : a ≤ BumpType.max a b := by
  cases a <;> cases b <;> decide

theorem BumpType.le_major (a : BumpType) : a ≤ BumpMajor := by
  cases a <;> decide

theorem determineLoop_ge (flag : Bool) (cs : List ConventionalCommit) (b : BumpType) :
    b ≤ determineLoop flag cs b := by
  induction cs generalizing b with
  | nil => exact BumpType.le_refl b
  | cons c cs ih =>
    unfold determineLoop
    by_cases hc : c.Breaking = true
    · simp only [hc, if_true]
      exact BumpType.le_major b
    · simp only [hc, if_false]
      refine BumpType.le_trans ?_ (ih _)
      rw [bumpStep_eq_max]
      exact BumpType.le_max_left _ _

theorem determineLoop_append_ge (flag : Bool) (xs ys : List ConventionalCommit) (b : BumpType) :
    determineLoop flag xs b ≤ determineLoop flag (xs ++ ys) b := by
  induction xs generalizing b with
  | nil => exact determineLoop_ge flag ys b
  | cons c cs ih =>
    simp only [List.cons_append, determineLoop]
    by_cases hc : c.Breaking = true
    · simp only [hc, if_true]
      exact BumpType.le_refl _
    · simp only [hc, if_false]
      exact ih _

/-- C21: `DetermineBump` is monotone under extension: for all commit lists `xs` and `ys` and
either value of the flag, the level of `xs ++ ys` is at least the level of `xs`, under
`None < Patch < Minor < Major`. -/
theorem DetermineBump_append_ge (xs ys : List ConventionalCommit) (bumpPatchOnUnknown : Bool) :
    DetermineBump xs bumpPatchOnUnknown ≤ DetermineBump (xs ++ ys) bumpPatchOnUnknown :=
  determineLoop_append_ge bumpPatchOnUnknown xs ys BumpNone

end commit

/-! ## The changelog -/

namespace changelog

open commit

theorem addCommit_fields (g : Groups) (c : ConventionalCommit) :
    (addCommit g c).breaking =
        g.breaking ++ (if groupOf c = .breaking then [bulletOf c] else []) ∧
      (addCommit g c).features =
        g.features ++ (if groupOf c = .features then [bulletOf c] else []) ∧
      (addCommit g c).fixes = g.fixes ++ (if groupOf c = .fixes then [bulletOf c] else []) ∧
      (addCommit g c).perf = g.perf ++ (if groupOf c = .perf then [bulletOf c] else []) ∧
      (addCommit g c).other = g.other ++ (if groupOf c = .other then [bulletOf c] else []) := by
  unfold addCommit groupOf bulletOf
  by_cases hb : c.Breaking = true
  · simp [hb, formatCommit, bulletText]
  · have hb' : c.Breaking = false := by simpa using hb
    by_cases h1 : c.Type_ = ['f', 'e', 'a', 't']
    · simp [hb', h1, formatCommit, bulletText]
    · by_cases h2 : c.Type_ = ['f', 'i', 'x']
      · simp [hb', h2, formatCommit, bulletText]
      · by_cases h3 : c.Type_ = ['p', 'e', 'r', 'f']
        · simp [hb', h3, formatCommit, bulletText]
        · by_cases h4 : c.Type_ = []
          · simp [hb', h4, bulletText]
          · simp [hb', h1, h2, h3, h4, formatCommit, bulletText]

theorem foldl_addCommit_fields (commits : List ConventionalCommit) (g : Groups) :
    (commits.foldl addCommit g).breaking = g.breaking ++ groupBullets .breaking commits ∧
      (commits.foldl addCommit g).features = g.features ++ groupBullets .features commits ∧
      (commits.foldl addCommit g).fixes = g.fixes ++ groupBullets .fixes commits ∧
      (commits.foldl addCommit g).perf = g.perf ++ groupBullets .perf commits ∧
      (commits.foldl addCommit g).other = g.other ++ groupBullets .other commits := by
  induction commits generalizing g with
  | nil => simp [groupBullets]
  | cons c cs ih =>
    obtain ⟨h1, h2, h3, h4, h5⟩ := addCommit_fields g c
    obtain ⟨i1, i2, i3, i4, i5⟩ := ih (addCommit g c)
    simp only [List.foldl_cons]
    rw [i1, i2, i3, i4, i5, h1, h2, h3, h4, h5]
    simp only [groupBullets, List.filter_cons]
    refine ⟨?_, ?_, ?_, ?_, ?_⟩ <;> split_ifs <;> simp_all

/-- The five slices of `Generate` are the bullets of the five groups. -/
theorem collect_fields (commits : List ConventionalCommit) :
    (collect commits).breaking = groupBullets .breaking commits ∧
      (collect commits).features = groupBullets .features commits ∧
      (collect commits).fixes = groupBullets .fixes commits ∧
      (collect commits).perf = groupBullets .perf commits ∧
      (collect commits).other = groupBullets .other commits := by
  have h := foldl_addCommit_fields commits ⟨[], [], [], [], []⟩
  simpa [collect] using h

theorem foldl_items (items : List Str) (sb : Str) :
    items.foldl (fun sb item => sb ++ item ++ ['\n']) sb =
      sb ++ items.flatMap fun b => b ++ ['\n'] := by
  induction items generalizing sb with
  | nil => simp
  | cons x xs ih =>
    rw [List.foldl_cons, ih]
    simp

theorem writeSection_eq (sb : Str) (g : Group) (items : List Str) :
    writeSection sb g.title items = sb ++ sectionText g items := by
  unfold writeSection sectionText
  by_cases h : items = []
  · simp [h]
  · have h2 : items.length ≠ 0 := fun e => h (List.length_eq_zero.mp e)
    rw [if_neg h2, if_neg h, foldl_items]
    simp [Group.subheading]

/-- The text of `Generate`, section by section. -/
theorem Generate_eq (commits : List ConventionalCommit) (previousTag newTag : Str) :
    Generate commits previousTag newTag =
      "## What's Changed\n".toList ++
        (sectionText .breaking (groupBullets .breaking commits) ++
          (sectionText .features (groupBullets .features commits) ++
            (sectionText .fixes (groupBullets .fixes commits) ++
              (sectionText .perf (groupBullets .perf commits) ++
                (sectionText .other (groupBullets .other commits) ++
                  comparisonText previousTag newTag))))) := by
  obtain ⟨h1, h2, h3, h4, h5⟩ := collect_fields commits
  have t1 : "Breaking Changes".toList = Group.breaking.title := rfl
  have t2 : "Features".toList = Group.features.title := rfl
  have t3 : "Bug Fixes".toList = Group.fixes.title := rfl
  have t4 : "Performance".toList = Group.perf.title := rfl
  have t5 : "Other Changes".toList = Group.other.title := rfl
  unfold Generate
  simp only [t1, t2, t3, t4, t5, writeSection_eq, h1, h2, h3, h4, h5, comparisonText]
  split_ifs <;> simp

open commit

theorem groupBullets_length (commits : List ConventionalCommit) :
    (groupBullets .breaking commits).length + (groupBullets .features commits).length +
        (groupBullets .fixes commits).length + (groupBullets .perf commits).length +
        (groupBullets .other commits).length = commits.length := by
  induction commits with
  | nil => rfl
  | cons c cs ih =>
    simp only [groupBullets, List.length_map] at ih ⊢
    cases h : groupOf c <;> simp [List.filter_cons, h] <;> omega

theorem groupBullets_append (g : Group) (xs ys : List ConventionalCommit) :
    groupBullets g (xs ++ ys) = groupBullets g xs ++ groupBullets g ys := by
  simp [groupBullets]

theorem groupBullets_ne_nil_iff (g : Group) (commits : List ConventionalCommit) :
    groupBullets g commits ≠ [] ↔ ∃ c ∈ commits, groupOf c = g := by
  simp [groupBullets, List.filter_eq_nil_iff]

theorem firstLine_spec (s : Str) :
    '\n' ∉ firstLine s ∧ (s = firstLine s ∨ ∃ rest, s = firstLine s ++ '\n' :: rest) := by
  unfold firstLine
  constructor
  · intro h
    have := List.mem_takeWhile_imp h
    simp at this
  · induction s with
    | nil => simp
    | cons c cs ih =>
      by_cases hc : c = '\n'
      · right
        exact ⟨cs, by simp [hc]⟩
      · have hc' : (c != '\n') = true := by simpa using hc
        have e : List.takeWhile (fun c => c != '\n') (c :: cs) =
            c :: List.takeWhile (fun c => c != '\n') cs := by
          simp [List.takeWhile_cons, hc]
        rw [e]
        rcases ih with h | ⟨rest, h⟩
        · left
          exact congrArg (c :: ·) h
        · right
          exact ⟨rest, congrArg (c :: ·) h⟩

theorem utf8Size_ascii (c : Char) (h : c.toNat < 128) : c.utf8Size = 1 := by
  have h1 : c.val.toNat < 128 := h
  have h2 : c.val ≤ 127 := by
    rw [UInt32.le_def]
    show c.val.toNat ≤ 127
    omega
  simp [Char.utf8Size, h2]

theorem takeBytes_ascii (s : Str) (h : ∀ c ∈ s, c.toNat < 128) (n : Nat) :
    takeBytes n s = s.take n := by
  induction s generalizing n with
  | nil => simp [takeBytes]
  | cons c cs ih =>
    have hc := utf8Size_ascii c (h c (List.mem_cons_self _ _))
    have hcs : ∀ x ∈ cs, x.toNat < 128 := fun x hx => h x (List.mem_cons_of_mem _ hx)
    cases n with
    | zero => simp [takeBytes, hc]
    | succ n => simp [takeBytes, hc, ih hcs]

theorem byteLen_ascii (s : Str) (h : ∀ c ∈ s, c.toNat < 128) : byteLen s = s.length := by
  induction s with
  | nil => rfl
  | cons c cs ih =>
    have hc := utf8Size_ascii c (h c (List.mem_cons_self _ _))
    have hcs : ∀ x ∈ cs, x.toNat < 128 := fun x hx => h x (List.mem_cons_of_mem _ hx)
    have := ih hcs
    simp only [byteLen] at this ⊢
    simp [hc, this]
    omega

theorem takeBytes_of_byteLen_le (s : Str) (n : Nat) (h : byteLen s ≤ n) : takeBytes n s = s := by
  induction s generalizing n with
  | nil => simp [takeBytes]
  | cons c cs ih =>
    have e : byteLen (c :: cs) = c.utf8Size + byteLen cs := by simp [byteLen]
    rw [e] at h
    have h1 : c.utf8Size ≤ n := by omega
    simp only [takeBytes, h1, if_true]
    rw [ih (n - c.utf8Size) (by omega)]

theorem shortHash_ascii (hash : Str) (h : ∀ c ∈ hash, c.toNat < 128) :
    shortHash hash = shortId hash := by
  unfold shortHash shortId
  rw [byteLen_ascii hash h, takeBytes_ascii hash h]
  split_ifs with h7
  · rfl
  · exact (List.take_of_length_le (by omega)).symm

/-- C25: for every commit list and labels, `Generate` returns the heading
`## What's Changed`, then for each of the five groups in the fixed order the text of its
section (nothing for a group with no bullet, else a blank line, `### title` and the bullets,
each ended by a newline), then the comparison line exactly when both labels are non-empty;
for the empty list that is the heading, plus the comparison line when both labels are
given. -/
theorem Generate_layout (commits : List ConventionalCommit) (previousTag newTag : Str) :
    Generate commits previousTag newTag =
        "## What's Changed\n".toList ++
          (sectionText .breaking (groupBullets .breaking commits) ++
            (sectionText .features (groupBullets .features commits) ++
              (sectionText .fixes (groupBullets .fixes commits) ++
                (sectionText .perf (groupBullets .perf commits) ++
                  (sectionText .other (groupBullets .other commits) ++
                    comparisonText previousTag newTag))))) ∧
      (∀ g bullets, bullets ≠ [] →
        sectionText g bullets =
          "\n### ".toList ++ g.title ++ "\n".toList ++ bullets.flatMap fun b => b ++ "\n".toList) ∧
      (∀ g, sectionText g [] = []) ∧
      (previousTag ≠ [] ∧ newTag ≠ [] →
        comparisonText previousTag newTag =
          "\n**Full Changelog**: ".toList ++ previousTag ++ "...".toList ++ newTag ++
            "\n".toList) ∧
      (¬ (previousTag ≠ [] ∧ newTag ≠ []) → comparisonText previousTag newTag = []) ∧
      Generate [] previousTag newTag =
        "## What's Changed\n".toList ++ comparisonText previousTag newTag := by
  refine ⟨Generate_eq commits previousTag newTag, ?_, ?_, ?_, ?_, ?_⟩
  · intro g bullets hb
    simp [sectionText, hb, Group.subheading]
  · intro g
    simp [sectionText]
  · intro h
    simp [comparisonText, h]
  · intro h
    simp only [comparisonText, if_neg h]
  · rw [Generate_eq]
    simp [groupBullets, sectionText]

/-- C26: `Generate` puts every commit in one group, the first that matches (breaking, then
the types `feat`, `fix`, `perf`, then everything else): each of its five slices holds the
bullets of the commits of that group, in the order of the list, and the slices together
hold as many bullets as there are commits. -/
theorem Generate_groups (commits : List ConventionalCommit) :
    collect commits =
        { breaking := (commits.filter fun c => groupOf c = .breaking).map bulletOf
          features := (commits.filter fun c => groupOf c = .features).map bulletOf
          fixes := (commits.filter fun c => groupOf c = .fixes).map bulletOf
          perf := (commits.filter fun c => groupOf c = .perf).map bulletOf
          other := (commits.filter fun c => groupOf c = .other).map bulletOf } ∧
      (∀ c : ConventionalCommit,
        groupOf c =
          if c.Breaking = true then .breaking
          else if c.Type_ = "feat".toList then .features
          else if c.Type_ = "fix".toList then .fixes
          else if c.Type_ = "perf".toList then .perf
          else .other) ∧
      (collect commits).breaking.length + (collect commits).features.length +
          (collect commits).fixes.length + (collect commits).perf.length +
          (collect commits).other.length = commits.length := by
  obtain ⟨h1, h2, h3, h4, h5⟩ := collect_fields commits
  refine ⟨?_, fun c => rfl, ?_⟩
  · cases hc : collect commits
    rw [hc] at h1 h2 h3 h4 h5
    simp only at h1 h2 h3 h4 h5
    rw [h1, h2, h3, h4, h5]
    rfl
  · rw [h1, h2, h3, h4, h5]
    exact groupBullets_length commits

/-- C27, as amended: the bullet of a commit that is breaking or has a non-empty type is
`- **SCOPE**: DESCRIPTION (SHORTID)` for a non-empty scope and `- DESCRIPTION (SHORTID)`
otherwise, where SHORTID is the hash cut to its first 7 bytes, the whole hash when it has 7
bytes or fewer; for a hash of ASCII characters that is its first 7 characters, or the whole
hash when it has 7 or fewer. -/
theorem Generate_bullet (c : ConventionalCommit) (h : c.Breaking = true ∨ c.Type_ ≠ []) :
    Generate [c] [] [] =
        "## What's Changed\n\n".toList ++ (groupOf c).subheading ++ "\n".toList ++
          bulletText c.Scope c.Description (shortHash c.Hash) ++ "\n".toList ∧
      bulletOf c = bulletText c.Scope c.Description (shortHash c.Hash) ∧
      formatCommit c = bulletText c.Scope c.Description (shortHash c.Hash) ∧
      (c.Scope ≠ [] →
        bulletText c.Scope c.Description (shortHash c.Hash) =
          "- **".toList ++ c.Scope ++ "**: ".toList ++ c.Description ++ " (".toList ++
            shortHash c.Hash ++ ")".toList) ∧
      (c.Scope = [] →
        bulletText c.Scope c.Description (shortHash c.Hash) =
          "- ".toList ++ c.Description ++ " (".toList ++ shortHash c.Hash ++ ")".toList) ∧
      shortHash c.Hash = takeBytes 7 c.Hash ∧
      (byteLen c.Hash ≤ 7 → shortHash c.Hash = c.Hash) ∧
      ((∀ x ∈ c.Hash, x.toNat < 128) → shortHash c.Hash = c.Hash.take 7) := by
  have hb : bulletOf c = bulletText c.Scope c.Description (shortHash c.Hash) := by
    unfold bulletOf
    rw [if_neg]
    rintro ⟨h1, h2⟩
    rcases h with h | h
    · rw [h1] at h
      exact Bool.noConfusion h
    · exact h h2
  refine ⟨?_, hb, rfl, ?_, ?_, ?_, ?_, ?_⟩
  · rw [Generate_eq]
    cases hg : groupOf c <;>
      simp [groupBullets, List.filter_cons, hg, sectionText, comparisonText, hb]
  · intro hs
    simp [bulletText, hs]
  · intro hs
    simp [bulletText, hs]
  · unfold shortHash
    split_ifs with h7
    · rfl
    · exact (takeBytes_of_byteLen_le _ _ (by omega)).symm
  · intro h7
    unfold shortHash
    rw [if_neg (by omega)]
  · intro ha
    exact shortHash_ascii _ ha

/-- The scenario of the specification: the commit of type `fix` with the description
`a bug` and the hash `abc1234567` is shown as `- a bug (abc1234)` under Bug Fixes. -/
theorem Generate_bullet_witness :
    Generate [{ Type_ := "fix".toList, Scope := [], Description := "a bug".toList, Body := [],
                Footers := [], Breaking := false, Raw := "fix: a bug".toList,
                Hash := "abc1234567".toList }] [] [] =
        "## What's Changed\n\n### Bug Fixes\n- a bug (abc1234)\n".toList := by
  have h := (Generate_bullet
    { Type_ := "fix".toList, Scope := [], Description := "a bug".toList, Body := [],
      Footers := [], Breaking := false, Raw := "fix: a bug".toList,
      Hash := "abc1234567".toList } (Or.inr (by decide))).1
  rw [h]
  decide

/-- C27 fails for a hash of 7 characters that takes more than 7 bytes: the hash `äbcdefg`
has 7 characters, so the bullet should show it whole, but it is 8 bytes long and the bullet
shows its first 7 bytes, `äbcdef`. -/
theorem Generate_bullet_bytes :
    "äbcdefg".toList.length = 7 ∧
      Generate [{ Type_ := "fix".toList, Scope := [], Description := "a bug".toList,
                  Body := [], Footers := [], Breaking := false, Raw := "fix: a bug".toList,
                  Hash := "äbcdefg".toList }] [] [] =
        "## What's Changed\n\n### Bug Fixes\n- a bug (äbcdef)\n".toList ∧
      formatCommit { Type_ := "fix".toList, Scope := [], Description := "a bug".toList,
                     Body := [], Footers := [], Breaking := false,
                     Raw := "fix: a bug".toList, Hash := "äbcdefg".toList } ≠
        bulletText [] "a bug".toList (shortId "äbcdefg".toList) := by
  decide

/-- C28: a commit that is not breaking and has an empty type is shown under Other Changes
as `- FIRSTLINE (SHORTID)`, where FIRSTLINE is the raw message up to its first newline (all
of it when it has none); its description and scope play no part. -/
theorem Generate_untyped (c : ConventionalCommit) (hb : c.Breaking = false)
    (ht : c.Type_ = []) (pre post : List ConventionalCommit) :
    groupOf c = .other ∧
      bulletOf c =
        "- ".toList ++ firstLine c.Raw ++ " (".toList ++ shortHash c.Hash ++ ")".toList ∧
      (collect (pre ++ c :: post)).other =
        (collect pre).other ++ bulletOf c :: (collect post).other ∧
      (collect (pre ++ c :: post)).breaking = (collect pre).breaking ++ (collect post).breaking ∧
      (collect (pre ++ c :: post)).features = (collect pre).features ++ (collect post).features ∧
      (collect (pre ++ c :: post)).fixes = (collect pre).fixes ++ (collect post).fixes ∧
      (collect (pre ++ c :: post)).perf = (collect pre).perf ++ (collect post).perf ∧
      Generate [c] [] [] =
        "## What's Changed\n\n### Other Changes\n- ".toList ++ firstLine c.Raw ++
          " (".toList ++ shortHash c.Hash ++ ")\n".toList ∧
      '\n' ∉ firstLine c.Raw ∧
      (c.Raw = firstLine c.Raw ∨ ∃ rest, c.Raw = firstLine c.Raw ++ '\n' :: rest) ∧
      ∀ scope description,
        Generate (pre ++ { c with Scope := scope, Description := description } :: post) [] [] =
          Generate (pre ++ c :: post) [] [] := by
  have hg : groupOf c = .other := by simp [groupOf, hb, ht]
  have hbul : bulletOf c =
      "- ".toList ++ firstLine c.Raw ++ " (".toList ++ shortHash c.Hash ++ ")".toList := by
    simp [bulletOf, hb, ht, bulletText]
  have hone : ∀ g, groupBullets g [c] = if g = .other then [bulletOf c] else [] := by
    intro g
    cases g <;> simp [groupBullets, List.filter_cons, hg]
  have happ : ∀ g, groupBullets g (pre ++ c :: post) =
      groupBullets g pre ++ ((if g = .other then [bulletOf c] else []) ++ groupBullets g post) := by
    intro g
    rw [← hone g, ← groupBullets_append, ← groupBullets_append]
    rfl
  obtain ⟨a1, a2, a3, a4, a5⟩ := collect_fields (pre ++ c :: post)
  obtain ⟨p1, p2, p3, p4, p5⟩ := collect_fields pre
  obtain ⟨q1, q2, q3, q4, q5⟩ := collect_fields post
  refine ⟨hg, hbul, ?_, ?_, ?_, ?_, ?_, ?_, (firstLine_spec c.Raw).1, (firstLine_spec c.Raw).2, ?_⟩
  · rw [a5, p5, q5, happ]
    simp
  · rw [a1, p1, q1, happ]
    simp
  · rw [a2, p2, q2, happ]
    simp
  · rw [a3, p3, q3, happ]
    simp
  · rw [a4, p4, q4, happ]
    simp
  · rw [Generate_eq]
    simp [hone, sectionText, comparisonText, hbul, Group.subheading, Group.title]
  · intro scope description
    have hg2 : ∀ g, groupBullets g (pre ++ { c with Scope := scope, Description := description } :: post) =
        groupBullets g (pre ++ c :: post) := by
      intro g
      have e1 : groupOf { c with Scope := scope, Description := description } = groupOf c := rfl
      have e2 : bulletOf { c with Scope := scope, Description := description } = bulletOf c := by
        simp [bulletOf, hb, ht]
      by_cases hgg : groupOf c = g <;> simp [groupBullets, List.filter_cons, e1, e2, hgg]
    rw [Generate_eq, Generate_eq]
    simp only [hg2]

/-- The message `Update README` with no type, as in the tests: it is listed under Other
Changes by its first line. -/
theorem Generate_untyped_witness :
    Generate [{ Type_ := [], Scope := [], Description := [], Body := [], Footers := [],
                Breaking := false, Raw := "Update README\n\nmore".toList,
                Hash := "abc1234567".toList }] [] [] =
        "## What's Changed\n\n### Other Changes\n- Update README (abc1234)\n".toList := by
  have h := (Generate_untyped
    { Type_ := [], Scope := [], Description := [], Body := [], Footers := [],
      Breaking := false, Raw := "Update README\n\nmore".toList,
      Hash := "abc1234567".toList } rfl rfl [] []).2.2.2.2.2.2.2.1
  rw [h]
  decide

end changelog

/-! ## The latest tag -/

theorem TrimSpace_idem (s : Str) : TrimSpace (TrimSpace s) = TrimSpace s :=
  TrimSpace_eq_self _ (TrimSpace_head s) (TrimSpace_getLast s)

namespace git

open semver

theorem Compare_pos_iff (a b : Version) : 0 < a.Compare b ↔ versionLt b a := by
  rw [← Compare_eq_one_iff]
  rcases Compare_range a b with h | h | h <;> rw [h] <;> decide

theorem Compare_nonneg_iff (a b : Version) : 0 ≤ a.Compare b ↔ ¬ versionLt a b := by
  rw [← Compare_eq_neg_one_iff]
  rcases Compare_range a b with h | h | h <;> rw [h] <;> decide

theorem latestStep_of_none (st : Option Version × Str) (line : Str)
    (h : Parse (TrimSpace line) = none) : latestStep st line = st := by
  unfold latestStep
  simp only [h]
  split_ifs <;> rfl

theorem Parse_nil : Parse [] = none := by decide

theorem latestStep_of_some (st : Option Version × Str) (line : Str) (w : Version)
    (h : Parse (TrimSpace line) = some w) :
    latestStep st line =
      match st.1 with
      | none => (some w, TrimSpace line)
      | some latest => if w.Compare latest > 0 then (some w, TrimSpace line) else st := by
  have hne : TrimSpace line ≠ [] := by
    intro e
    rw [e, Parse_nil] at h
    cases h
  unfold latestStep
  simp only [h, hne, if_false]

theorem latestStep_trim (st : Option Version × Str) (line : Str) :
    latestStep st (TrimSpace line) = latestStep st line := by
  unfold latestStep
  simp only [TrimSpace_idem]

theorem foldl_latestStep_filter (lines : List Str) (st : Option Version × Str) :
    lines.foldl latestStep st =
      (((lines.map TrimSpace).filter fun t => (Parse t).isSome).foldl latestStep st) := by
  induction lines generalizing st with
  | nil => rfl
  | cons l ls ih =>
    simp only [List.foldl_cons, List.map_cons, List.filter_cons]
    cases h : Parse (TrimSpace l) with
    | none =>
      simp only [Option.isSome_none, Bool.false_eq_true, if_false]
      rw [latestStep_of_none st l h]
      exact ih st
    | some w =>
      simp only [Option.isSome_some, if_true, List.foldl_cons]
      rw [latestStep_trim]
      exact ih _

/-- The state of the loop of `FindLatestSemverTag` after the lines `lines`: nothing before
the first tag that parses, then a tag that parses, above every such tag before it and not
below any after it. -/
theorem foldl_latestStep_inv (lines : List Str) :
    (((lines.map TrimSpace).filter fun t => (Parse t).isSome) = [] ∧
        lines.foldl latestStep (none, []) = (none, [])) ∨
      ∃ pre r post v,
        ((lines.map TrimSpace).filter fun t => (Parse t).isSome) = pre ++ r :: post ∧
          lines.foldl latestStep (none, []) = (some v, r) ∧ Parse r = some v ∧
          (∀ t ∈ pre, ∀ w, Parse t = some w → versionLt w v) ∧
          ∀ t ∈ post, ∀ w, Parse t = some w → ¬ versionLt v w := by
  induction lines using List.reverseRecOn with
  | nil => exact Or.inl ⟨rfl, rfl⟩
  | append_singleton ls l ih =>
    simp only [List.foldl_append, List.foldl_cons, List.foldl_nil, List.map_append,
      List.map_cons, List.map_nil, List.filter_append]
    cases h : Parse (TrimSpace l) with
    | none =>
      have e : List.filter (fun t => (Parse t).isSome) [TrimSpace l] = [] := by
        simp [List.filter_cons, h]
      rw [e, List.append_nil, latestStep_of_none _ l h]
      exact ih
    | some w =>
      have e : List.filter (fun t => (Parse t).isSome) [TrimSpace l] = [TrimSpace l] := by
        simp [List.filter_cons, h]
      rw [e, latestStep_of_some _ l w h]
      right
      rcases ih with ⟨hT, hst⟩ | ⟨pre, r, post, v, hT, hst, hr, hpre, hpost⟩
      · rw [hT, hst]
        exact ⟨[], TrimSpace l, [], w, rfl, rfl, h, by simp, by simp⟩
      · rw [hT, hst]
        simp only
        by_cases hc : w.Compare v > 0
        · rw [if_pos hc]
          have hvw : versionLt v w := (Compare_pos_iff w v).mp hc
          refine ⟨pre ++ r :: post, TrimSpace l, [], w, by simp, rfl, h, ?_, by simp⟩
          intro t ht x hx
          rw [List.mem_append, List.mem_cons] at ht
          rcases ht with ht | ht | ht
          · exact versionLt_trans x v w (hpre t ht x hx) hvw
          · rw [ht, hr] at hx
            cases hx
            exact hvw
          · rcases version_trichotomy x v with h1 | h1 | h1
            · exact versionLt_trans x v w h1 hvw
            · exact absurd h1 (hpost t ht x hx)
            · exact versionLt_of_eq_left x v w h1 hvw
        · rw [if_neg hc]
          refine ⟨pre, r, post ++ [TrimSpace l], v, by simp, rfl, hr, hpre, ?_⟩
          intro t ht x hx
          rw [List.mem_append, List.mem_singleton] at ht
          rcases ht with ht | ht
          · exact hpost t ht x hx
          · rw [ht, h] at hx
            cases hx
            intro hlt
            exact hc ((Compare_pos_iff _ v).mpr hlt)

/-- C30: `FindLatestSemverTag` returns the empty text exactly when no listed tag, trimmed,
is accepted by `Parse`; otherwise it returns one of the parseable tags of the listing, whose
version compares greater than that of every parseable tag listed before it and greater than
or equal to that of every parseable tag listed after it; and the result is the same for two
listings with the same parseable tags. -/
theorem FindLatestSemverTag_latest (out : Str) :
    (FindLatestSemverTag out = [] ↔ parseableTags out = []) ∧
      (parseableTags out ≠ [] →
        ∃ pre post v,
          parseableTags out = pre ++ FindLatestSemverTag out :: post ∧
            Parse (FindLatestSemverTag out) = some v ∧
            (∀ t ∈ pre, ∀ w, Parse t = some w → v.Compare w > 0) ∧
            ∀ t ∈ post, ∀ w, Parse t = some w → v.Compare w ≥ 0) ∧
      ∀ other, parseableTags other = parseableTags out →
        FindLatestSemverTag other = FindLatestSemverTag out := by
  refine ⟨?_, ?_, ?_⟩
  · unfold FindLatestSemverTag parseableTags
    rcases foldl_latestStep_inv (SplitLines out) with
      ⟨hT, hst⟩ | ⟨pre, r, post, v, hT, hst, hr, _, _⟩
    · rw [hT, hst]
      simp
    · rw [hT, hst]
      have hne : r ≠ [] := by
        intro e
        rw [e, Parse_nil] at hr
        cases hr
      simp [hne]
  · intro hne
    unfold FindLatestSemverTag parseableTags at *
    rcases foldl_latestStep_inv (SplitLines out) with
      ⟨hT, hst⟩ | ⟨pre, r, post, v, hT, hst, hr, hpre, hpost⟩
    · exact absurd hT hne
    · rw [hst]
      refine ⟨pre, post, v, hT, hr, ?_, ?_⟩
      · intro t ht w hw
        exact (Compare_pos_iff v w).mpr (hpre t ht w hw)
      · intro t ht w hw
        exact (Compare_nonneg_iff v w).mpr (hpost t ht w hw)
  · intro other h
    unfold FindLatestSemverTag
    unfold parseableTags at h
    rw [foldl_latestStep_filter (SplitLines other), foldl_latestStep_filter (SplitLines out), h]

end git

/-! ## Body and footers -/

theorem TrimSpace_append_left (pre s : Str) (h : pre.all isSpace = true) :
    TrimSpace (pre ++ s) = TrimSpace s := by
  unfold TrimSpace
  have e : (pre ++ s).dropWhile isSpace = s.dropWhile isSpace := by
    induction pre with
    | nil => rfl
    | cons c cs ih =>
      simp only [List.all_cons, Bool.and_eq_true] at h
      simp only [List.cons_append, List.dropWhile_cons, h.1, if_true]
      exact ih h.2
  rw [e]

theorem dropWhile_append_all (p : Char → Bool) (pre s : Str) (h : pre.all p = true) :
    (pre ++ s).dropWhile p = s.dropWhile p := by
  induction pre with
  | nil => rfl
  | cons c cs ih =>
    simp only [List.all_cons, Bool.and_eq_true] at h
    simp only [List.cons_append, List.dropWhile_cons, h.1, if_true]
    exact ih h.2

theorem dropWhile_append_of_ne_nil (p : Char → Bool) (s suf : Str)
    (h : s.dropWhile p ≠ []) : (s ++ suf).dropWhile p = s.dropWhile p ++ suf := by
  induction s with
  | nil => exact absurd rfl h
  | cons c cs ih =>
    by_cases hc : p c = true
    · simp only [List.cons_append, List.dropWhile_cons, hc, if_true] at h ⊢
      exact ih h
    · simp [List.dropWhile_cons, hc]

theorem TrimSpace_append_right (s suf : Str) (h : suf.all isSpace = true) :
    TrimSpace (s ++ suf) = TrimSpace s := by
  unfold TrimSpace
  by_cases hs : s.dropWhile isSpace = []
  · have hall : s.all isSpace = true := (dropWhile_eq_nil_iff_all _ _).mp hs
    have hall2 : (s ++ suf).all isSpace = true := by
      rw [List.all_append, hall, h]
      rfl
    rw [hs, (dropWhile_eq_nil_iff_all _ _).mpr hall2]
  · rw [dropWhile_append_of_ne_nil _ _ _ hs, List.reverse_append,
      dropWhile_append_all isSpace _ _ (by rw [List.all_reverse]; exact h)]

theorem TrimSpace_eq_nil_iff (s : Str) : TrimSpace s = [] ↔ s.all isSpace = true := by
  constructor
  · intro h
    unfold TrimSpace at h
    rw [List.reverse_eq_nil_iff] at h
    have h1 := (dropWhile_eq_nil_iff_all _ _).mp h
    rw [List.all_reverse] at h1
    by_cases hs : s.dropWhile isSpace = []
    · exact (dropWhile_eq_nil_iff_all _ _).mp hs
    · exfalso
      have hhead := List.head?_dropWhile_not isSpace s
      cases hd : s.dropWhile isSpace with
      | nil => exact hs hd
      | cons c cs =>
        rw [hd] at hhead h1
        simp only [List.head?_cons] at hhead
        simp only [List.all_cons, Bool.and_eq_true] at h1
        rw [h1.1] at hhead
        cases hhead
  · intro h
    unfold TrimSpace
    rw [(dropWhile_eq_nil_iff_all _ _).mpr h]
    rfl

theorem JoinLines_cons (l : Str) (ls : List Str) (h : ls ≠ []) :
    JoinLines (l :: ls) = l ++ '\n' :: JoinLines ls := by
  cases ls with
  | nil => exact absurd rfl h
  | cons x xs => rfl

theorem JoinLines_append_singleton (ls : List Str) (x : Str) (h : ls ≠ []) :
    JoinLines (ls ++ [x]) = JoinLines ls ++ '\n' :: x := by
  induction ls with
  | nil => exact absurd rfl h
  | cons l ls ih =>
    cases ls with
    | nil => rfl
    | cons y ys =>
      have e : (l :: y :: ys) ++ [x] = l :: ((y :: ys) ++ [x]) := rfl
      rw [e, JoinLines_cons l ((y :: ys) ++ [x]) (by simp), ih (by simp),
        JoinLines_cons l (y :: ys) (by simp)]
      simp

namespace commit

theorem isBlankLine_all (l : Str) (h : isBlankLine l = true) : l.all isSpace = true := by
  apply (TrimSpace_eq_nil_iff l).mp
  simpa [isBlankLine] using h

theorem TrimSpace_JoinLines_dropWhile (ls : List Str) :
    TrimSpace (JoinLines (ls.dropWhile isBlankLine)) = TrimSpace (JoinLines ls) := by
  induction ls with
  | nil => rfl
  | cons l ls ih =>
    by_cases hl : isBlankLine l = true
    · rw [List.dropWhile_cons_of_pos hl, ih]
      have hall := isBlankLine_all l hl
      cases ls with
      | nil =>
        have e : JoinLines [l] = l := rfl
        rw [e, (TrimSpace_eq_nil_iff l).mpr hall]
        rfl
      | cons x xs =>
        rw [JoinLines_cons l _ (by simp)]
        have e : l ++ '\n' :: JoinLines (x :: xs) = (l ++ ['\n']) ++ JoinLines (x :: xs) := by simp
        rw [e, TrimSpace_append_left]
        rw [List.all_append, hall]
        rfl
    · rw [List.dropWhile_cons_of_neg hl]

theorem TrimSpace_JoinLines_dropWhile_end (ls : List Str) :
    TrimSpace (JoinLines (ls.reverse.dropWhile isBlankLine).reverse) = TrimSpace (JoinLines ls) := by
  induction ls using List.reverseRecOn with
  | nil => rfl
  | append_singleton ls l ih =>
    rw [List.reverse_append, List.reverse_singleton, List.singleton_append]
    by_cases hl : isBlankLine l = true
    · rw [List.dropWhile_cons_of_pos hl, ih]
      have hall := isBlankLine_all l hl
      cases hls : ls with
      | nil =>
        have e : JoinLines ([] ++ [l]) = l := rfl
        rw [e, (TrimSpace_eq_nil_iff l).mpr hall]
        rfl
      | cons x xs =>
        rw [JoinLines_append_singleton _ _ (by simp)]
        have e : JoinLines (x :: xs) ++ '\n' :: l = JoinLines (x :: xs) ++ ('\n' :: l) := rfl
        rw [e, TrimSpace_append_right]
        rw [List.all_cons, hall]
        rfl
    · rw [List.dropWhile_cons_of_neg hl]
      simp

theorem TrimSpace_JoinLines_stripBlankLines (ls : List Str) :
    TrimSpace (JoinLines (stripBlankLines ls)) = TrimSpace (JoinLines ls) := by
  unfold stripBlankLines
  rw [TrimSpace_JoinLines_dropWhile_end, TrimSpace_JoinLines_dropWhile]

theorem scanFooterStart_eq (lines : List Str) :
    ∀ n, n ≤ lines.length → ∀ fs,
      scanFooterStart lines n fs =
        if (lines.take n).reverse.takeWhile isFooterLine = [] then fs
        else n - ((lines.take n).reverse.takeWhile isFooterLine).length := by
  intro n
  induction n with
  | zero =>
    intro _ fs
    simp [scanFooterStart]
  | succ i ih =>
    intro hi fs
    have hlt : i < lines.length := hi
    have hget : lines.getD i [] = lines[i] := by
      rw [List.getD_eq_getElem?_getD, List.getElem?_eq_getElem hlt]
      rfl
    have htake : (lines.take (i + 1)).reverse = lines[i] :: (lines.take i).reverse := by
      rw [List.take_succ, List.getElem?_eq_getElem hlt]
      simp
    unfold scanFooterStart
    simp only [hget, htake]
    by_cases h1 : TrimSpace lines[i] = []
    · have hf : isFooterLine lines[i] = false := by simp [isFooterLine, h1]
      simp [h1, List.takeWhile_cons, hf]
    · by_cases h2 : footerRegex.matchString (TrimSpace lines[i]) = true
      · have hf : isFooterLine lines[i] = true := by simp [isFooterLine, h1, h2]
        simp only [h1, h2, if_false, if_true, List.takeWhile_cons, hf]
        rw [ih (by omega) i]
        by_cases h3 : (lines.take i).reverse.takeWhile isFooterLine = []
        · simp [h3]
        · simp only [h3, if_false, List.length_cons]
          simp
      · have hf : isFooterLine lines[i] = false := by simp [isFooterLine, h2]
        simp [h1, h2, List.takeWhile_cons, hf]

theorem isSome_footerOfLine (l : Str) (h : isFooterLine l = true) :
    ∃ m, footerRegex.findSubmatch (TrimSpace l) = some m ∧
      footerOfLine l = some ⟨m.get 1, m.get 2⟩ := by
  simp only [isFooterLine, Bool.and_eq_true, Regex.matchString] at h
  cases hm : footerRegex.findSubmatch (TrimSpace l) with
  | none =>
    rw [hm] at h
    exact absurd h.2 (by simp)
  | some m => exact ⟨m, rfl, by simp [footerOfLine, hm]⟩

theorem filterMap_map_some {α β : Type} (f : α → Option β) (l : List α)
    (h : ∀ x ∈ l, ∃ y, f x = some y) : (l.filterMap f).map some = l.map f := by
  induction l with
  | nil => rfl
  | cons x xs ih =>
    obtain ⟨y, hy⟩ := h x (List.mem_cons_self _ _)
    rw [List.filterMap_cons_some hy, List.map_cons, List.map_cons, hy,
      ih fun z hz => h z (List.mem_cons_of_mem _ hz)]

/-- The lines after the header fall into the lines before the footers and the trailing run
of footer lines, which is as long as can be; the body is made of the first and the
footers of the second. -/
theorem parseBodyAndFooters_eq (lines : List Str) :
    ∃ before run, lines = before ++ run ∧ (∀ l ∈ run, isFooterLine l = true) ∧
      (∀ l, before.getLast? = some l → isFooterLine l = false) ∧
      parseBodyAndFooters lines = (TrimSpace (JoinLines before), run.filterMap footerOfLine) := by
  have hsplit : lines = (lines.reverse.dropWhile isFooterLine).reverse ++
      (lines.reverse.takeWhile isFooterLine).reverse := by
    rw [← List.reverse_append, List.takeWhile_append_dropWhile, List.reverse_reverse]
  have hlen : lines.length = (lines.reverse.dropWhile isFooterLine).length +
      (lines.reverse.takeWhile isFooterLine).length := by
    have := congrArg List.length hsplit
    simpa using this
  have hstart : scanFooterStart lines lines.length lines.length =
      ((lines.reverse.dropWhile isFooterLine).reverse).length := by
    rw [scanFooterStart_eq lines lines.length (Nat.le_refl _), List.take_length,
      List.length_reverse]
    split_ifs with h
    · rw [h] at hlen
      simpa using hlen
    · omega
  refine ⟨(lines.reverse.dropWhile isFooterLine).reverse,
    (lines.reverse.takeWhile isFooterLine).reverse, hsplit, ?_, ?_, ?_⟩
  · intro l hl
    rw [List.mem_reverse] at hl
    exact List.mem_takeWhile_imp hl
  · intro l hl
    rw [List.getLast?_reverse] at hl
    have := List.head?_dropWhile_not isFooterLine lines.reverse
    rw [hl] at this
    simpa using this
  · unfold parseBodyAndFooters
    simp only [hstart]
    have h1 : lines.take ((lines.reverse.dropWhile isFooterLine).reverse).length =
        (lines.reverse.dropWhile isFooterLine).reverse := by
      have h := @List.take_left' _ (lines.reverse.dropWhile isFooterLine).reverse
        (lines.reverse.takeWhile isFooterLine).reverse _ rfl
      rwa [← hsplit] at h
    have h2 : lines.drop ((lines.reverse.dropWhile isFooterLine).reverse).length =
        (lines.reverse.takeWhile isFooterLine).reverse := by
      have h := @List.drop_left' _ (lines.reverse.dropWhile isFooterLine).reverse
        (lines.reverse.takeWhile isFooterLine).reverse _ rfl
      rwa [← hsplit] at h
    rw [h1, h2]

theorem footersOf_eq (message : Str) :
    footersOf message = parseBodyAndFooters (SplitLines message).tail := by
  unfold footersOf
  cases h : (SplitLines message).tail with
  | nil => decide
  | cons l ls => simp

theorem footerRegex_run_token (tok y : Str) (htok : tok ≠ [] ∧ tok.all isWordHyphen = true)
    (hne : y ≠ []) (hhead : ∀ c, y.head? = some c → isReSpace c = false) (hnl : '\n' ∉ y) :
    ∃ tl, footerRegex.run (tok ++ ':' :: ' ' :: y, []) = ([], [(2, y), (1, tok)]) :: tl := by
  obtain ⟨tl, h⟩ := footerTail_run_colon y [(1, tok)] hne hhead hnl
  have hr : ∀ c cs, ':' :: ' ' :: y = c :: cs → isWordHyphen c = false := by
    intro c cs e
    cases e
    decide
  refine ⟨tl ++ (Regex.seq (.group 1 (.lit breakingChange)) footerTail).run
    (tok ++ ':' :: ' ' :: y, []), ?_⟩
  rw [footerRegex_eq, run_seq_group_alt, run_seq_group_plus_eq 1 isWordHyphen _ footerTail_fails,
    takeWhile_append_of_all _ _ _ htok.2 hr, dropWhile_append_of_all _ _ _ htok.2 hr,
    if_neg htok.1, h]
  rfl

/-- A line that trims to `TOKEN: VALUE` is a footer line and holds the footer
`{TOKEN, VALUE}`. -/
theorem footerOfLine_token (line tok y : Str) (htrim : TrimSpace line = tok ++ ':' :: ' ' :: y)
    (htok : (tok ≠ [] ∧ tok.all isWordHyphen = true) ∨ tok = breakingChange) (hne : y ≠ [])
    (hhead : ∀ c, y.head? = some c → isReSpace c = false) (hnl : '\n' ∉ y) :
    isFooterLine line = true ∧ footerOfLine line = some ⟨tok, y⟩ := by
  have hrun : ∃ tl, footerRegex.run (tok ++ ':' :: ' ' :: y, []) =
      ([], [(2, y), (1, tok)]) :: tl := by
    rcases htok with h | h
    · exact footerRegex_run_token tok y h hne hhead hnl
    · exact footerRegex_run_breaking tok y (Or.inr h) hne hhead hnl
  obtain ⟨tl, h⟩ := hrun
  have hne2 : tok ++ ':' :: ' ' :: y ≠ [] := by simp
  simp [isFooterLine, footerOfLine, Regex.matchString, Regex.findSubmatch, htrim, h, Caps.get,
    List.lookup]

/-- C23, as amended: when the trimmed first line matches the subject pattern, the body
`Parse` returns is the lines between the header line and the trailing run of footer lines,
joined by newlines, with the white space at its start and at its end removed: that takes
away the blank lines at the start and at the end, and also the white space before the first
and after the last line that is left. The body is empty for a message of the header alone
and when the only other line is blank. -/
theorem Parse_body (hash message : Str)
    (h : subjectRegex.matchString (TrimSpace (firstLine message)) = true) :
    ∃ before run,
      (SplitLines message).tail = before ++ run ∧
        (∀ l ∈ run, TrimSpace l ≠ [] ∧ footerRegex.matchString (TrimSpace l) = true) ∧
        (∀ l, before.getLast? = some l →
          TrimSpace l = [] ∨ footerRegex.matchString (TrimSpace l) = false) ∧
        (Parse hash message).Body = TrimSpace (JoinLines before) ∧
        (Parse hash message).Body = TrimSpace (JoinLines (stripBlankLines before)) ∧
        ((SplitLines message).tail = [] → (Parse hash message).Body = []) ∧
        ∀ l, (SplitLines message).tail = [l] → TrimSpace l = [] →
          (Parse hash message).Body = [] := by
  obtain ⟨before, run, hsplit, hrun, hbefore, hpf⟩ :=
    parseBodyAndFooters_eq (SplitLines message).tail
  cases hm : subjectRegex.findSubmatch (TrimSpace (firstLine message)) with
  | none => simp [Regex.matchString, hm] at h
  | some m =>
    have hbody : (Parse hash message).Body = TrimSpace (JoinLines before) := by
      rw [Parse_of_some hash message m hm, footersOf_eq, hpf]
    refine ⟨before, run, hsplit, ?_, ?_, hbody, ?_, ?_, ?_⟩
    · intro l hl
      have := hrun l hl
      simpa [isFooterLine] using this
    · intro l hl
      have := hbefore l hl
      by_cases h1 : TrimSpace l = []
      · exact Or.inl h1
      · right
        simpa [isFooterLine, h1] using this
    · rw [hbody, TrimSpace_JoinLines_stripBlankLines]
    · intro hnil
      rw [hnil] at hsplit
      have hb : before = [] := (List.append_eq_nil.mp hsplit.symm).1
      rw [hbody, hb]
      rfl
    · intro l hl htrim
      rw [hl] at hsplit
      have hnotfooter : isFooterLine l = false := by simp [isFooterLine, htrim]
      have hrunnil : run = [] := by
        rcases List.eq_nil_or_concat run with hr | ⟨xs, x, hr⟩
        · exact hr
        · exfalso
          rw [hr, List.concat_eq_append, ← List.append_assoc] at hsplit
          have hx : x = l := by
            have := congrArg List.getLast? hsplit
            simp at this
            exact this.symm
          have := hrun x (by rw [hr]; simp)
          rw [hx, hnotfooter] at this
          cases this
      rw [hrunnil, List.append_nil] at hsplit
      rw [hbody, ← hsplit]
      exact htrim

/-- The test message with a body and two footers: the body is the text between the blank
lines. -/
theorem Parse_body_witness :
    ∃ before run,
      (SplitLines "feat: x\n\nbody\n\nReviewed-by: Z\nRefs: #123".toList).tail = before ++ run ∧
        (∀ l ∈ run, TrimSpace l ≠ [] ∧ footerRegex.matchString (TrimSpace l) = true) ∧
        (∀ l, before.getLast? = some l →
          TrimSpace l = [] ∨ footerRegex.matchString (TrimSpace l) = false) ∧
        (Parse [] "feat: x\n\nbody\n\nReviewed-by: Z\nRefs: #123".toList).Body =
          TrimSpace (JoinLines before) ∧
        (Parse [] "feat: x\n\nbody\n\nReviewed-by: Z\nRefs: #123".toList).Body =
          TrimSpace (JoinLines (stripBlankLines before)) ∧
        ((SplitLines "feat: x\n\nbody\n\nReviewed-by: Z\nRefs: #123".toList).tail = [] →
          (Parse [] "feat: x\n\nbody\n\nReviewed-by: Z\nRefs: #123".toList).Body = []) ∧
        ∀ l, (SplitLines "feat: x\n\nbody\n\nReviewed-by: Z\nRefs: #123".toList).tail = [l] →
          TrimSpace l = [] →
          (Parse [] "feat: x\n\nbody\n\nReviewed-by: Z\nRefs: #123".toList).Body = [] :=
  Parse_body [] "feat: x\n\nbody\n\nReviewed-by: Z\nRefs: #123".toList (by decide)

/-- C23 fails for a body whose first line is indented: in `feat: x`, blank line,
`  indented body` there is no footer line, the lines after the header without the blank
lines at the start and the end are the one line `  indented body`, but the body comes out
as `indented body`, without the two spaces. -/
theorem Parse_body_indented :
    subjectRegex.matchString (TrimSpace (firstLine "feat: x\n\n  indented body".toList)) = true ∧
      (Parse [] "feat: x\n\n  indented body".toList).Footers = [] ∧
      JoinLines (stripBlankLines (SplitLines "feat: x\n\n  indented body".toList).tail) =
        "  indented body".toList ∧
      (Parse [] "feat: x\n\n  indented body".toList).Body = "indented body".toList ∧
      (Parse [] "feat: x\n\n  indented body".toList).Body ≠
        JoinLines (stripBlankLines (SplitLines "feat: x\n\n  indented body".toList).tail) := by
  decide

end commit

/-! ## The description -/

namespace commit

theorem colon_valueTail_run_rest (i : Nat) (rest : Str) (caps : Caps)
    (hne : rest.dropWhile isReSpace ≠ []) (hnl : '\n' ∉ rest) :
    ∃ tl, (Regex.seq (.chr ':') (valueTail i)).run (':' :: rest, caps) =
      ([], (i, rest.dropWhile isReSpace) :: caps) :: tl := by
  have hnl2 : '\n' ∉ rest.dropWhile isReSpace := fun hmem =>
    hnl ((List.dropWhile_sublist isReSpace).subset hmem)
  obtain ⟨tl, h⟩ := valueTail_run_head i rest caps hne (all_isNotNewline_of_not_mem _ hnl2)
  exact ⟨tl, by rw [run_seq_chr_self, h]⟩

theorem bangTail_run_rest (bang : Bool) (rest : Str) (caps : Caps)
    (hne : rest.dropWhile isReSpace ≠ []) (hnl : '\n' ∉ rest) :
    ∃ tl, bangTail.run (bangText bang ++ ':' :: rest, caps) =
      ([], (5, rest.dropWhile isReSpace) :: ((if bang then [(4, ['!'])] else []) ++ caps))
        :: tl := by
  rw [bangTail_run]
  cases bang with
  | true =>
    obtain ⟨tl, h⟩ := colon_valueTail_run_rest 5 rest ((4, ['!']) :: caps) hne hnl
    refine ⟨tl, ?_⟩
    simp only [bangText, if_true, List.cons_append, List.nil_append]
    rw [h, run_seq_chr_ne (by decide)]
    simp
  | false =>
    obtain ⟨tl, h⟩ := colon_valueTail_run_rest 5 rest caps hne hnl
    refine ⟨tl, ?_⟩
    simp only [bangText, Bool.false_eq_true, if_false, List.nil_append]
    rw [h]
    simp

theorem scopeTail_run_rest (scope : Option Str) (bang : Bool) (rest : Str) (caps : Caps)
    (hscope : ∀ s, scope = some s → ')' ∉ s) (hne : rest.dropWhile isReSpace ≠ [])
    (hnl : '\n' ∉ rest) :
    ∃ tl, (Regex.seq (.opt scopeGroup) bangTail).run
        (scopeText scope ++ (bangText bang ++ ':' :: rest), caps) =
      ([], (5, rest.dropWhile isReSpace) ::
        ((if bang then [(4, ['!'])] else []) ++ (scopeCaps scope ++ caps))) :: tl := by
  rw [run_seq_opt]
  cases scope with
  | some s =>
    obtain ⟨tl, h⟩ := bangTail_run_rest bang rest ((2, '(' :: (s ++ [')'])) :: (3, s) :: caps)
      hne hnl
    refine ⟨tl, ?_⟩
    have e : scopeText (some s) ++ (bangText bang ++ ':' :: rest) =
        '(' :: (s ++ ')' :: (bangText bang ++ ':' :: rest)) := by
      simp [scopeText]
    rw [e, scopeGroup_run_text _ _ _ _ (hscope s rfl), h,
      bangTail_fails _ _ _ (by decide) (by decide)]
    simp [scopeCaps]
  | none =>
    obtain ⟨tl, h⟩ := bangTail_run_rest bang rest caps hne hnl
    refine ⟨tl, ?_⟩
    simp only [scopeText, List.nil_append, scopeCaps]
    rw [h]
    cases bang with
    | true =>
      simp only [bangText, if_true, List.cons_append, List.nil_append]
      rw [scopeGroup_fails _ _ _ _ (by decide)]
      rfl
    | false =>
      simp only [bangText, Bool.false_eq_true, if_false, List.nil_append]
      rw [scopeGroup_fails _ _ _ _ (by decide)]
      rfl

theorem headerRest_head_rest (scope : Option Str) (bang : Bool) (rest : Str) (c : Char)
    (cs : Str) (h : scopeText scope ++ (bangText bang ++ ':' :: rest) = c :: cs) :
    isWord c = false := by
  cases scope <;> cases bang <;> simp [scopeText, bangText] at h <;> (rw [← h.1]; decide)

/-- On a line `type(scope)!:rest` the preferred match of the subject pattern captures the
type, the scope, the marker and, as the description, `rest` without the white space at its
start. -/
theorem findSubmatch_rest (t : Str) (scope : Option Str) (bang : Bool) (rest : Str)
    (ht : t ≠ [] ∧ t.all isWord = true) (hscope : ∀ s, scope = some s → ')' ∉ s)
    (hne : rest.dropWhile isReSpace ≠ []) (hnl : '\n' ∉ rest) :
    ∃ m, subjectRegex.findSubmatch (t ++ (scopeText scope ++ (bangText bang ++ ':' :: rest))) =
        some m ∧
      m.get 1 = t ∧ m.get 3 = scope.getD [] ∧ m.get 4 = bangText bang ∧
      m.get 5 = rest.dropWhile isReSpace := by
  obtain ⟨tl, h⟩ := scopeTail_run_rest scope bang rest [(1, t)] hscope hne hnl
  have hrun : subjectRegex.run (t ++ (scopeText scope ++ (bangText bang ++ ':' :: rest)), []) =
      ([], (5, rest.dropWhile isReSpace) ::
        ((if bang then [(4, ['!'])] else []) ++ (scopeCaps scope ++ [(1, t)]))) :: tl := by
    rw [subjectRegex_eq, run_seq_group_plus_eq 1 isWord _ scopeTail_fails,
      takeWhile_append_of_all _ _ _ ht.2 (headerRest_head_rest scope bang rest),
      dropWhile_append_of_all _ _ _ ht.2 (headerRest_head_rest scope bang rest), if_neg ht.1, h]
  refine ⟨(5, rest.dropWhile isReSpace) ::
    ((if bang then [(4, ['!'])] else []) ++ (scopeCaps scope ++ [(1, t)])),
    by simp [Regex.findSubmatch, hrun], ?_⟩
  cases scope <;> cases bang <;> simp [Caps.get, List.lookup, scopeCaps, bangText]

theorem firstLine_mem (message : Str) : firstLine message ∈ SplitLines message := by
  rw [SplitLines_eq_firstLine message]
  exact List.mem_cons_self _ _

theorem dropWhile_eq_dropOneSpace (rest : Str)
    (h : ∀ c, (dropOneSpace rest).head? = some c → isReSpace c = false) :
    rest.dropWhile isReSpace = dropOneSpace rest := by
  cases rest with
  | nil => rfl
  | cons c r =>
    by_cases hc : c = ' '
    · subst hc
      have e : dropOneSpace (' ' :: r) = r := by simp [dropOneSpace]
      rw [e] at h ⊢
      have e2 : (' ' :: r).dropWhile isReSpace = r.dropWhile isReSpace := by
        simp [List.dropWhile, isReSpace]
      rw [e2, dropWhile_eq_self_of_head _ _ h]
    · have e : dropOneSpace (c :: r) = c :: r := by simp [dropOneSpace, hc]
      rw [e] at h ⊢
      exact dropWhile_eq_self_of_head _ _ h

/-- C24, as amended: when the trimmed first line is `type(scope)!:rest` (a type of word
characters, an optional scope without `)`, an optional `!`, the colon, and a `rest` that is
not empty), the description `Parse` returns is `rest` without all the white space at its
start (spaces, tabs, form feeds, carriage returns), so it never starts with white space; it
is `rest` with one optional space removed whenever what is left then does not start with
white space. -/
theorem Parse_description (hash message t : Str) (scope : Option Str) (bang : Bool)
    (rest : Str)
    (hline : TrimSpace (firstLine message) =
      t ++ (scopeText scope ++ (bangText bang ++ ':' :: rest)))
    (ht : t ≠ [] ∧ t.all isWord = true) (hscope : ∀ s, scope = some s → ')' ∉ s)
    (hrest : rest ≠ []) :
    subjectRegex.matchString (TrimSpace (firstLine message)) = true ∧
      (Parse hash message).Description = rest.dropWhile isReSpace ∧
      (∀ c, (Parse hash message).Description.head? = some c → isReSpace c = false) ∧
      ((∀ c, (dropOneSpace rest).head? = some c → isReSpace c = false) →
        (Parse hash message).Description = dropOneSpace rest) := by
  have hnlline : '\n' ∉ TrimSpace (firstLine message) := fun hmem =>
    SplitLines_no_newline message _ (firstLine_mem message) (TrimSpace_subset _ _ hmem)
  have hnl : '\n' ∉ rest := by
    intro hmem
    apply hnlline
    rw [hline]
    simp [hmem]
  have hlast : (TrimSpace (firstLine message)).getLast? = rest.getLast? := by
    rw [hline, ← List.append_assoc, ← List.append_assoc,
      List.getLast?_append_of_ne_nil _ (List.cons_ne_nil _ _)]
    cases rest with
    | nil => exact absurd rfl hrest
    | cons x xs => exact List.getLast?_cons_cons
  have hne : rest.dropWhile isReSpace ≠ [] := by
    intro hnil
    have hall := (dropWhile_eq_nil_iff_all _ _).mp hnil
    have hl := List.getLast?_eq_getLast rest hrest
    have hsp : isReSpace (rest.getLast hrest) = true :=
      List.all_eq_true.mp hall _ (List.getLast_mem hrest)
    have := TrimSpace_getLast (firstLine message) (rest.getLast hrest) (by rw [hlast, hl])
    rw [isSpace_of_isReSpace hsp] at this
    cases this
  obtain ⟨m, hm, _, _, _, g5⟩ := findSubmatch_rest t scope bang rest ht hscope hne hnl
  rw [← hline] at hm
  have hdesc : (Parse hash message).Description = rest.dropWhile isReSpace := by
    rw [Parse_of_some hash message m hm, g5]
  refine ⟨by simp [Regex.matchString, hm], hdesc, ?_, ?_⟩
  · intro c hc
    rw [hdesc] at hc
    exact head?_dropWhile_false isReSpace rest c hc
  · intro h
    rw [hdesc, dropWhile_eq_dropOneSpace rest h]

/-- The scenario `feat(api)!: add endpoint`: the description is `add endpoint`. -/
theorem Parse_description_witness :
    subjectRegex.matchString (TrimSpace (firstLine "feat(api)!: add endpoint".toList)) = true ∧
      (Parse [] "feat(api)!: add endpoint".toList).Description =
        " add endpoint".toList.dropWhile isReSpace ∧
      (∀ c, (Parse [] "feat(api)!: add endpoint".toList).Description.head? = some c →
        isReSpace c = false) ∧
      ((∀ c, (dropOneSpace " add endpoint".toList).head? = some c → isReSpace c = false) →
        (Parse [] "feat(api)!: add endpoint".toList).Description =
          dropOneSpace " add endpoint".toList) :=
  Parse_description [] "feat(api)!: add endpoint".toList "feat".toList (some "api".toList) true
    " add endpoint".toList (by decide) (by decide) (by intro s hs; cases hs; decide) (by decide)

/-- C24 fails when two spaces follow the colon: the trimmed first line `feat:  x` matches
the subject pattern, what follows its colon is `  x`, which is ` x` with one space removed,
but the description is `x`. -/
theorem Parse_description_two_spaces :
    TrimSpace (firstLine "feat:  x".toList) = "feat".toList ++ ':' :: "  x".toList ∧
      subjectRegex.matchString (TrimSpace (firstLine "feat:  x".toList)) = true ∧
      dropOneSpace "  x".toList = " x".toList ∧
      (Parse [] "feat:  x".toList).Description = "x".toList ∧
      (Parse [] "feat:  x".toList).Description ≠ dropOneSpace "  x".toList := by
  decide

end commit

/-! ## Where a subheading occurs in the changelog -/

theorem infix_append_sep (p a b : Str) (x : Char) (hx : x ∉ p) :
    p <:+: a ++ x :: b ↔ p <:+: a ∨ p <:+: b := by
  constructor
  · rintro ⟨s, t, h⟩
    rcases List.append_eq_append_iff.mp h with ⟨a', h1, h2⟩ | ⟨c', h1, h2⟩
    · -- `a = s ++ p ++ a'`
      exact Or.inl ⟨s, a', h1.symm⟩
    · -- `s ++ p = a ++ c'` and `x :: b = c' ++ t`
      cases c' with
      | nil =>
        rw [List.append_nil] at h1
        exact Or.inl ⟨s, [], by rw [List.append_nil]; exact h1⟩
      | cons y c'' =>
        simp only [List.cons_append, List.cons.injEq] at h2
        obtain ⟨hy, hb⟩ := h2
        subst hy
        rcases List.append_eq_append_iff.mp h1 with ⟨a', h3, h4⟩ | ⟨c3, h3, h4⟩
        · exfalso
          apply hx
          rw [h4]
          simp
        · cases c3 with
          | nil =>
            exfalso
            apply hx
            simp only [List.nil_append] at h4
            rw [← h4]
            simp
          | cons z c4 =>
            simp only [List.cons_append, List.cons.injEq] at h4
            right
            refine ⟨c4, t, ?_⟩
            rw [hb, ← h4.2]
  · rintro (h | h)
    · exact h.trans (List.prefix_append a (x :: b)).isInfix
    · exact h.trans ((List.suffix_cons x b).trans (List.suffix_append a (x :: b))).isInfix

theorem infix_flatMap_lines (p : Str) (hp : '\n' ∉ p) (hne : p ≠ []) (ls : List Str) :
    p <:+: ls.flatMap (fun b => b ++ ['\n']) ↔ ∃ b ∈ ls, p <:+: b := by
  induction ls with
  | nil => simp [hne]
  | cons b bs ih =>
    have e : (b :: bs).flatMap (fun b => b ++ ['\n']) =
        b ++ '\n' :: bs.flatMap (fun b => b ++ ['\n']) := by
      simp
    rw [e, infix_append_sep p _ _ '\n' hp, ih]
    simp

namespace changelog

open commit

theorem sectionText_eq_lines (g : Group) (bullets : List Str) :
    sectionText g bullets = (sectionLines g bullets).flatMap fun b => b ++ ['\n'] := by
  unfold sectionText sectionLines
  split_ifs <;> simp

theorem comparisonText_eq_lines (previousTag newTag : Str) :
    comparisonText previousTag newTag =
      (comparisonLines previousTag newTag).flatMap fun b => b ++ ['\n'] := by
  unfold comparisonText comparisonLines
  split_ifs <;> simp

/-- The text of `Generate` is its pieces, each followed by a newline. -/
theorem Generate_eq_lines (commits : List ConventionalCommit) (previousTag newTag : Str) :
    Generate commits previousTag newTag =
      (changelogLines commits previousTag newTag).flatMap fun b => b ++ ['\n'] := by
  rw [Generate_eq, changelogLines]
  simp only [sectionText_eq_lines, comparisonText_eq_lines, List.flatMap_cons,
    List.flatMap_append]
  rfl

theorem mem_sectionLines (g : Group) (bullets : List Str) (b : Str) :
    b ∈ sectionLines g bullets ↔ bullets ≠ [] ∧ (b = [] ∨ b = g.subheading ∨ b ∈ bullets) := by
  unfold sectionLines
  split_ifs with h <;> simp [h]

theorem mem_changelogLines (commits : List ConventionalCommit) (previousTag newTag b : Str) :
    b ∈ changelogLines commits previousTag newTag ↔
      b = "## What's Changed".toList ∨
        (∃ g, b ∈ sectionLines g (groupBullets g commits)) ∨
        b ∈ comparisonLines previousTag newTag := by
  unfold changelogLines
  simp only [List.mem_cons, List.mem_append]
  constructor
  · rintro (h | h | h | h | h | h | h)
    · exact Or.inl h
    · exact Or.inr (Or.inl ⟨_, h⟩)
    · exact Or.inr (Or.inl ⟨_, h⟩)
    · exact Or.inr (Or.inl ⟨_, h⟩)
    · exact Or.inr (Or.inl ⟨_, h⟩)
    · exact Or.inr (Or.inl ⟨_, h⟩)
    · exact Or.inr (Or.inr h)
  · rintro (h | ⟨g, h⟩ | h)
    · exact Or.inl h
    · cases g <;> simp only [h, true_or, or_true]
    · simp only [h, or_true]

theorem subheading_chars (g : Group) :
    '\n' ∉ g.subheading ∧ ':' ∉ g.subheading ∧ '.' ∉ g.subheading ∧ g.subheading ≠ [] ∧
      g.subheading.head? = some '#' := by
  cases g <;> decide

theorem subheading_not_infix_heading (g : Group) :
    ¬ g.subheading <:+: "## What's Changed".toList := by
  cases g <;> decide

theorem subheading_not_infix_label (g : Group) :
    ¬ g.subheading <:+: "**Full Changelog**".toList := by
  cases g <;> decide

theorem subheading_infix_subheading (g g' : Group) (h : g.subheading <:+: g'.subheading) :
    g = g' := by
  revert h
  cases g <;> cases g' <;> decide

theorem mem_groupBullets (g : Group) (commits : List ConventionalCommit) (b : Str) :
    b ∈ groupBullets g commits ↔ ∃ c ∈ commits, groupOf c = g ∧ bulletOf c = b := by
  simp [groupBullets, and_assoc]

theorem infix_comparison (g : Group) (previousTag newTag : Str) :
    g.subheading <:+:
        "**Full Changelog**".toList ++ ':' :: ' ' :: (previousTag ++ "...".toList ++ newTag) ↔
      g.subheading <:+: previousTag ∨ g.subheading <:+: newTag := by
  obtain ⟨_, hcolon, hdot, hne, hhead⟩ := subheading_chars g
  have hnil : ¬ g.subheading <:+: [] := by
    rw [List.infix_nil]
    exact hne
  have hpre : ∀ l, ¬ g.subheading <+: ' ' :: l := by
    rintro l ⟨t, ht⟩
    have := congrArg List.head? ht
    rw [List.head?_append_of_ne_nil _ hne, hhead] at this
    cases this
  have e : previousTag ++ "...".toList ++ newTag =
      previousTag ++ '.' :: ([] ++ '.' :: ([] ++ '.' :: newTag)) := by
    simp
  rw [infix_append_sep _ _ _ ':' hcolon, List.infix_cons_iff, e,
    infix_append_sep _ _ _ '.' hdot, infix_append_sep _ _ _ '.' hdot,
    infix_append_sep _ _ _ '.' hdot]
  constructor
  · rintro (h | h | h | h | h | h)
    · exact absurd h (subheading_not_infix_label g)
    · exact absurd h (hpre _)
    · exact Or.inl h
    · exact absurd h hnil
    · exact absurd h hnil
    · exact Or.inr h
  · rintro (h | h)
    · exact Or.inr (Or.inr (Or.inl h))
    · exact Or.inr (Or.inr (Or.inr (Or.inr (Or.inr h))))

/-- C29, as amended: the subheading of a group occurs in the text of `Generate` exactly
when a commit falls into the group, or the subheading occurs inside the bullet of a commit,
or both labels are given and it occurs inside one of them. So the subheading of every
non-empty group is present, and that of an empty group is absent unless a bullet or a label
holds it. -/
theorem Generate_subheading (commits : List ConventionalCommit) (previousTag newTag : Str)
    (g : Group) :
    (g.subheading <:+: Generate commits previousTag newTag ↔
        (∃ c ∈ commits, groupOf c = g) ∨ (∃ c ∈ commits, g.subheading <:+: bulletOf c) ∨
          (previousTag ≠ [] ∧ newTag ≠ [] ∧
            (g.subheading <:+: previousTag ∨ g.subheading <:+: newTag))) ∧
      ((∀ c ∈ commits, groupOf c ≠ g) → (∀ c ∈ commits, ¬ g.subheading <:+: bulletOf c) →
        ¬ g.subheading <:+: previousTag → ¬ g.subheading <:+: newTag →
        ¬ g.subheading <:+: Generate commits previousTag newTag) := by
  obtain ⟨hnl, _, _, hne, _⟩ := subheading_chars g
  have hnil : ¬ g.subheading <:+: [] := by
    rw [List.infix_nil]
    exact hne
  have hiff : g.subheading <:+: Generate commits previousTag newTag ↔
      (∃ c ∈ commits, groupOf c = g) ∨ (∃ c ∈ commits, g.subheading <:+: bulletOf c) ∨
        (previousTag ≠ [] ∧ newTag ≠ [] ∧
          (g.subheading <:+: previousTag ∨ g.subheading <:+: newTag)) := by
    rw [Generate_eq_lines, infix_flatMap_lines _ hnl hne]
    constructor
    · rintro ⟨b, hb, hin⟩
      rcases (mem_changelogLines _ _ _ _).mp hb with h | ⟨g', h⟩ | h
      · rw [h] at hin
        exact absurd hin (subheading_not_infix_heading g)
      · obtain ⟨hbs, h1 | h1 | h1⟩ := (mem_sectionLines _ _ _).mp h
        · rw [h1] at hin
          exact absurd hin hnil
        · rw [h1] at hin
          have hg := subheading_infix_subheading g g' hin
          rw [← hg] at hbs
          exact Or.inl ((groupBullets_ne_nil_iff g commits).mp hbs)
        · obtain ⟨c, hc, _, hbul⟩ := (mem_groupBullets _ _ _).mp h1
          rw [← hbul] at hin
          exact Or.inr (Or.inl ⟨c, hc, hin⟩)
      · unfold comparisonLines at h
        by_cases hlab : previousTag ≠ [] ∧ newTag ≠ []
        · rw [if_pos hlab] at h
          simp only [List.mem_cons, List.mem_singleton, List.not_mem_nil, or_false] at h
          rcases h with h | h
          · rw [h] at hin
            exact absurd hin hnil
          · rw [h] at hin
            exact Or.inr (Or.inr ⟨hlab.1, hlab.2, (infix_comparison g _ _).mp hin⟩)
        · rw [if_neg hlab] at h
          cases h
    · rintro (⟨c, hc, hg⟩ | ⟨c, hc, hin⟩ | ⟨h1, h2, hin⟩)
      · refine ⟨g.subheading, ?_, List.infix_refl _⟩
        apply (mem_changelogLines _ _ _ _).mpr
        refine Or.inr (Or.inl ⟨g, (mem_sectionLines _ _ _).mpr ⟨?_, Or.inr (Or.inl rfl)⟩⟩)
        exact (groupBullets_ne_nil_iff g commits).mpr ⟨c, hc, hg⟩
      · refine ⟨bulletOf c, ?_, hin⟩
        apply (mem_changelogLines _ _ _ _).mpr
        have hmem : bulletOf c ∈ groupBullets (groupOf c) commits :=
          (mem_groupBullets _ _ _).mpr ⟨c, hc, rfl, rfl⟩
        exact Or.inr (Or.inl ⟨groupOf c, (mem_sectionLines _ _ _).mpr
          ⟨List.ne_nil_of_mem hmem, Or.inr (Or.inr hmem)⟩⟩)
      · refine ⟨_, ?_, (infix_comparison g previousTag newTag).mpr hin⟩
        apply (mem_changelogLines _ _ _ _).mpr
        right
        right
        simp [comparisonLines, h1, h2]
  refine ⟨hiff, ?_⟩
  intro h1 h2 h3 h4 hin
  rcases hiff.mp hin with ⟨c, hc, hg⟩ | ⟨c, hc, hb⟩ | ⟨_, _, hp | hn⟩
  · exact h1 c hc hg
  · exact h2 c hc hb
  · exact h3 hp
  · exact h4 hn

/-- C29 fails for a description that holds a subheading: the message
`fix: render ### Features` parses to a commit of type `fix`, no commit falls into the group
Features, and yet `### Features` occurs in the changelog, in the bullet under Bug Fixes. -/
theorem Generate_subheading_in_bullet :
    (∀ c ∈ [Parse "abc1234".toList "fix: render ### Features".toList],
        groupOf c ≠ .features) ∧
      Group.features.subheading = "### Features".toList ∧
      Generate [Parse "abc1234".toList "fix: render ### Features".toList] [] [] =
        "## What's Changed\n\n### Bug Fixes\n- render ### Features (abc1234)\n".toList ∧
      Group.features.subheading <:+:
        Generate [Parse "abc1234".toList "fix: render ### Features".toList] [] [] := by
  refine ⟨by decide, by decide, by decide,
    ⟨"## What's Changed\n\n### Bug Fixes\n- render ".toList, " (abc1234)\n".toList, by decide⟩⟩

end changelog

/-! ## A blank last line -/

theorem SplitLines_append_newline (s : Str) : SplitLines (s ++ ['\n']) = SplitLines s ++ [[]] := by
  induction s with
  | nil => decide
  | cons c cs ih =>
    by_cases hc : c = '\n'
    · simp [SplitLines, hc, ih]
    · cases hs : SplitLines cs with
      | nil => exact absurd hs (SplitLines_ne_nil cs)
      | cons l ls =>
        rw [hs] at ih
        simp [SplitLines, hc, ih, hs]

theorem JoinLines_SplitLines (s : Str) : JoinLines (SplitLines s) = s := by
  induction s with
  | nil => rfl
  | cons c cs ih =>
    by_cases hc : c = '\n'
    · have e : SplitLines (c :: cs) = [] :: SplitLines cs := by simp [SplitLines, hc]
      rw [e, JoinLines_cons _ _ (SplitLines_ne_nil cs), ih, hc]
      rfl
    · cases hs : SplitLines cs with
      | nil => exact absurd hs (SplitLines_ne_nil cs)
      | cons l ls =>
        have e : SplitLines (c :: cs) = (c :: l) :: ls := by simp [SplitLines, hc, hs]
        rw [hs] at ih
        rw [e]
        cases ls with
        | nil =>
          have e1 : JoinLines [l] = l := rfl
          have e2 : JoinLines [c :: l] = c :: l := rfl
          rw [e1] at ih
          rw [e2, ih]
        | cons x xs =>
          rw [JoinLines_cons _ _ (by simp)] at ih ⊢
          rw [List.cons_append, ih]

namespace commit

theorem message_eq_firstLine (message : Str) (h : (SplitLines message).tail ≠ []) :
    message = firstLine message ++ '\n' :: JoinLines (SplitLines message).tail := by
  have h1 := JoinLines_SplitLines message
  rw [SplitLines_eq_firstLine message, JoinLines_cons _ _ h] at h1
  exact h1.symm

/-- After a header, lines that end in a blank line hold no footer: they all go to the
body. -/
theorem parseBodyAndFooters_blank (lines : List Str) (last : Str)
    (hlast : lines.getLast? = some last) (hblank : TrimSpace last = []) :
    parseBodyAndFooters lines = (TrimSpace (JoinLines lines), []) := by
  obtain ⟨before, run, hsplit, hrun, _, hpf⟩ := parseBodyAndFooters_eq lines
  have hnotfooter : isFooterLine last = false := by simp [isFooterLine, hblank]
  have hrunnil : run = [] := by
    rcases List.eq_nil_or_concat run with hr | ⟨xs, x, hr⟩
    · exact hr
    · exfalso
      rw [hr, List.concat_eq_append, ← List.append_assoc] at hsplit
      have hx : x = last := by
        rw [hsplit] at hlast
        simpa using hlast
      have := hrun x (by rw [hr]; simp)
      rw [hx, hnotfooter] at this
      cases this
  rw [hrunnil, List.append_nil] at hsplit
  rw [hpf, hrunnil, ← hsplit]
  rfl

/-- C31: when the trimmed first line matches the subject pattern and the last of the lines
after it is blank, `Parse` returns no footers, the body is all the text after the first
line, trimmed, and the commit is breaking exactly when the header carries the `!`; every
message that ends with a newline has such a blank last line. -/
theorem Parse_blank_last_line (hash message last : Str)
    (h : subjectRegex.matchString (TrimSpace (firstLine message)) = true)
    (hlast : (SplitLines message).tail.getLast? = some last) (hblank : TrimSpace last = []) :
    (Parse hash message).Footers = [] ∧
      (Parse hash message).Body = TrimSpace (JoinLines (SplitLines message).tail) ∧
      message = firstLine message ++ '\n' :: JoinLines (SplitLines message).tail ∧
      ((Parse hash message).Breaking = true ↔ headerBang message = true) ∧
      ∀ s : Str, (SplitLines (s ++ ['\n'])).tail.getLast? = some [] := by
  have hne : (SplitLines message).tail ≠ [] := by
    intro e
    rw [e] at hlast
    cases hlast
  have hpf := parseBodyAndFooters_blank _ last hlast hblank
  cases hm : subjectRegex.findSubmatch (TrimSpace (firstLine message)) with
  | none => simp [Regex.matchString, hm] at h
  | some m =>
    rw [Parse_of_some hash message m hm, footersOf_eq, hpf]
    refine ⟨rfl, rfl, message_eq_firstLine message hne, ?_, ?_⟩
    · simp [headerBang, hm]
    · intro s
      rw [SplitLines_append_newline]
      cases hs : SplitLines s with
      | nil => exact absurd hs (SplitLines_ne_nil s)
      | cons l ls => simp

/-- A breaking footer followed by a newline: the footer is not seen, the commit is not
breaking and the footer line is part of the body. -/
theorem Parse_blank_last_line_witness :
    (Parse [] "feat: x\n\nBREAKING CHANGE: y\n".toList).Footers = [] ∧
      (Parse [] "feat: x\n\nBREAKING CHANGE: y\n".toList).Body =
        TrimSpace (JoinLines (SplitLines "feat: x\n\nBREAKING CHANGE: y\n".toList).tail) ∧
      "feat: x\n\nBREAKING CHANGE: y\n".toList =
        firstLine "feat: x\n\nBREAKING CHANGE: y\n".toList ++
          '\n' :: JoinLines (SplitLines "feat: x\n\nBREAKING CHANGE: y\n".toList).tail ∧
      ((Parse [] "feat: x\n\nBREAKING CHANGE: y\n".toList).Breaking = true ↔
        headerBang "feat: x\n\nBREAKING CHANGE: y\n".toList = true) ∧
      ∀ s : Str, (SplitLines (s ++ ['\n'])).tail.getLast? = some [] :=
  Parse_blank_last_line [] "feat: x\n\nBREAKING CHANGE: y\n".toList [] (by decide) (by decide)
    (by decide)

end commit

/-! ## The type of a commit -/

theorem toLower_word_ofNat :
    ∀ n : Nat, n < 128 → isWord (Char.ofNat n) = true →
      isWord (Char.ofNat n).toLower = true ∧ (Char.ofNat n).toLower.isUpper = false := by
  decide

theorem isWord_toNat_lt (c : Char) (h : isWord c = true) : c.toNat < 128 := by
  simp only [isWord, isAlnum, Bool.or_eq_true, Bool.and_eq_true, decide_eq_true_eq,
    beq_iff_eq] at h
  rcases h with ((⟨_, b⟩ | ⟨_, b⟩) | ⟨_, b⟩) | rfl
  · have b1 : c.toNat ≤ 122 := b
    omega
  · have b1 : c.toNat ≤ 90 := b
    omega
  · have b1 : c.toNat ≤ 57 := b
    omega
  · decide

/-- A word character, lower-cased, is a word character that is no capital letter. -/
theorem toLower_word (c : Char) (h : isWord c = true) :
    isWord c.toLower = true ∧ c.toLower.isUpper = false := by
  have h1 := toLower_word_ofNat c.toNat (isWord_toNat_lt c h)
  rw [Char.ofNat_toNat] at h1
  exact h1 h

namespace commit

theorem valueTail_run_nil (i : Nat) (caps : Caps) : (valueTail i).run ([], caps) = [] := by
  simp [valueTail, Regex.run, starRun, Regex.plus]

theorem colon_valueTail_ne_nil (i : Nat) (x : Str) (caps : Caps)
    (h : (Regex.seq (.chr ':') (valueTail i)).run (x, caps) ≠ []) :
    ∃ rest, x = ':' :: rest ∧ rest ≠ [] := by
  rw [run_seq_chr] at h
  cases x with
  | nil => exact absurd rfl h
  | cons c cs =>
    by_cases hc : c = ':'
    · subst hc
      refine ⟨cs, rfl, ?_⟩
      rintro rfl
      simp only [if_true] at h
      exact h (valueTail_run_nil i caps)
    · simp only [hc, if_false] at h
      exact absurd rfl h

theorem bangTail_ne_nil (r : Str) (caps : Caps) (h : bangTail.run (r, caps) ≠ []) :
    ∃ bang rest, r = bangText bang ++ ':' :: rest ∧ rest ≠ [] := by
  rw [bangTail_run] at h
  by_cases h2 : (Regex.seq (.chr ':') (valueTail 5)).run (r, caps) = []
  · rw [h2, List.append_nil] at h
    cases r with
    | nil => exact absurd rfl h
    | cons c cs =>
      by_cases hc : c = '!'
      · subst hc
        simp only [if_true] at h
        obtain ⟨rest, h3, h4⟩ := colon_valueTail_ne_nil 5 cs _ h
        exact ⟨true, rest, by simp [bangText, h3], h4⟩
      · simp only [hc, if_false] at h
        exact absurd rfl h
  · obtain ⟨rest, h3, h4⟩ := colon_valueTail_ne_nil 5 r caps h2
    exact ⟨false, rest, by simp [bangText, h3], h4⟩

theorem scopeGroup_run_nil (rest : Regex) (caps : Caps) :
    (Regex.seq scopeGroup rest).run ([], caps) = [] := by
  simp [scopeGroup, Regex.run, Regex.chr]

/-- The scope group fails on a `(` that is never closed. -/
theorem scopeGroup_run_unclosed (rest : Regex) (x : Str) (caps : Caps)
    (h : x.all isNotRParen = true) :
    (Regex.seq scopeGroup rest).run ('(' :: x, caps) = [] := by
  unfold scopeGroup
  rw [run_seq_group, run_seq_chr_self, run_seq_group_star 3 isNotRParen (.chr ')') rparen_fails,
    (dropWhile_eq_nil_iff_all _ _).mpr h]
  simp [Regex.run, Regex.chr]

theorem scopeTail_ne_nil (r : Str) (caps : Caps)
    (h : (Regex.seq (.opt scopeGroup) bangTail).run (r, caps) ≠ []) :
    ∃ scope bang rest, r = scopeText scope ++ (bangText bang ++ ':' :: rest) ∧
      (∀ s, scope = some s → ')' ∉ s) ∧ rest ≠ [] := by
  rw [run_seq_opt] at h
  by_cases h2 : bangTail.run (r, caps) = []
  · rw [h2, List.append_nil] at h
    cases r with
    | nil => exact absurd (scopeGroup_run_nil _ _) h
    | cons c x =>
      by_cases hc : c = '('
      · subst hc
        cases hy : x.dropWhile isNotRParen with
        | nil =>
          exact absurd (scopeGroup_run_unclosed _ x caps
            ((dropWhile_eq_nil_iff_all _ _).mp hy)) h
        | cons d y =>
          have hd : isNotRParen d = false := head?_dropWhile_false isNotRParen x d (by rw [hy]; rfl)
          have hd2 : d = ')' := by simpa [isNotRParen] using hd
          subst hd2
          have hx : x = x.takeWhile isNotRParen ++ ')' :: y := by
            rw [← hy, List.takeWhile_append_dropWhile]
          have hsc : ')' ∉ x.takeWhile isNotRParen :=
            not_mem_of_all (by decide) _ (all_takeWhile isNotRParen x)
          rw [hx, scopeGroup_run_text _ _ _ _ hsc] at h
          obtain ⟨bang, rest, h3, h4⟩ := bangTail_ne_nil y _ h
          refine ⟨some (x.takeWhile isNotRParen), bang, rest, ?_, ?_, h4⟩
          · rw [← h3]
            simp only [scopeText, List.cons_append, List.append_assoc, List.singleton_append,
              List.nil_append]
            exact congrArg (List.cons '(') hx
          · intro s hs
            cases hs
            exact hsc
      · exact absurd (scopeGroup_fails _ c x caps hc) h
  · obtain ⟨bang, rest, h3, h4⟩ := bangTail_ne_nil r caps h2
    refine ⟨none, bang, rest, ?_, ?_, h4⟩
    · simp [scopeText, h3]
    · intro s hs
      cases hs

/-- A text the subject pattern matches is `type(scope)!:rest`. -/
theorem subjectRegex_match_form (line : Str) (h : subjectRegex.matchString line = true) :
    ∃ t scope bang rest, line = t ++ (scopeText scope ++ (bangText bang ++ ':' :: rest)) ∧
      (t ≠ [] ∧ t.all isWord = true) ∧ (∀ s, scope = some s → ')' ∉ s) ∧ rest ≠ [] := by
  have hrun : subjectRegex.run (line, []) ≠ [] := by
    intro e
    simp [Regex.matchString, Regex.findSubmatch, e] at h
  rw [subjectRegex_eq, run_seq_group_plus_eq 1 isWord _ scopeTail_fails] at hrun
  by_cases ht : line.takeWhile isWord = []
  · rw [if_pos ht] at hrun
    exact absurd rfl hrun
  · rw [if_neg ht] at hrun
    obtain ⟨scope, bang, rest, h1, h2, h3⟩ := scopeTail_ne_nil _ _ hrun
    refine ⟨line.takeWhile isWord, scope, bang, rest, ?_, ⟨ht, all_takeWhile isWord line⟩, h2, h3⟩
    rw [← h1, List.takeWhile_append_dropWhile]

/-- The trimmed first line `type(scope)!:rest` of a message: `Parse` returns the type in
lower case, the scope, and the rest without the white space at its start. -/
theorem Parse_of_form (hash message t : Str) (scope : Option Str) (bang : Bool) (rest : Str)
    (hline : TrimSpace (firstLine message) =
      t ++ (scopeText scope ++ (bangText bang ++ ':' :: rest)))
    (ht : t ≠ [] ∧ t.all isWord = true) (hscope : ∀ s, scope = some s → ')' ∉ s)
    (hrest : rest ≠ []) :
    subjectRegex.matchString (TrimSpace (firstLine message)) = true ∧
      (Parse hash message).Type_ = ToLower t ∧
      (Parse hash message).Scope = scope.getD [] ∧
      (Parse hash message).Description = rest.dropWhile isReSpace := by
  have hnlline : '\n' ∉ TrimSpace (firstLine message) := fun hmem =>
    SplitLines_no_newline message _ (firstLine_mem message) (TrimSpace_subset _ _ hmem)
  have hnl : '\n' ∉ rest := by
    intro hmem
    apply hnlline
    rw [hline]
    simp [hmem]
  have hlast : (TrimSpace (firstLine message)).getLast? = rest.getLast? := by
    rw [hline, ← List.append_assoc, ← List.append_assoc,
      List.getLast?_append_of_ne_nil _ (List.cons_ne_nil _ _)]
    cases rest with
    | nil => exact absurd rfl hrest
    | cons x xs => exact List.getLast?_cons_cons
  have hne : rest.dropWhile isReSpace ≠ [] := by
    intro hnil
    have hall := (dropWhile_eq_nil_iff_all _ _).mp hnil
    have hl := List.getLast?_eq_getLast rest hrest
    have hsp : isReSpace (rest.getLast hrest) = true :=
      List.all_eq_true.mp hall _ (List.getLast_mem hrest)
    have := TrimSpace_getLast (firstLine message) (rest.getLast hrest) (by rw [hlast, hl])
    rw [isSpace_of_isReSpace hsp] at this
    cases this
  obtain ⟨m, hm, g1, g3, _, g5⟩ := findSubmatch_rest t scope bang rest ht hscope hne hnl
  rw [← hline] at hm
  rw [Parse_of_some hash message m hm, g1, g3, g5]
  exact ⟨by simp [Regex.matchString, hm], rfl, rfl, rfl⟩

/-- C32: `Parse` returns an empty type if and only if the trimmed first line fails the
subject pattern, that is, is not of the form `type(scope)!:rest` (a type of one or more word
characters, an optional scope without `)`, an optional `!`, the colon, a non-empty rest).
The type returned consists of word characters none of which is a capital letter, and a
commit that is breaking or has a non-empty scope, description or body, or a footer, has a
non-empty type. -/
theorem Parse_type_empty_iff (hash message : Str) :
    ((Parse hash message).Type_ = [] ↔
        subjectRegex.matchString (TrimSpace (firstLine message)) = false) ∧
      (subjectRegex.matchString (TrimSpace (firstLine message)) = true ↔
        ∃ t scope bang rest,
          TrimSpace (firstLine message) =
              t ++ (scopeText scope ++ (bangText bang ++ ':' :: rest)) ∧
            (t ≠ [] ∧ t.all isWord = true) ∧ (∀ s, scope = some s → ')' ∉ s) ∧ rest ≠ []) ∧
      (∀ c ∈ (Parse hash message).Type_, isWord c = true ∧ c.isUpper = false) ∧
      ToLower (Parse hash message).Type_ = (Parse hash message).Type_ ∧
      ((Parse hash message).Breaking = true ∨ (Parse hash message).Scope ≠ [] ∨
          (Parse hash message).Description ≠ [] ∨ (Parse hash message).Body ≠ [] ∨
          (Parse hash message).Footers ≠ [] →
        (Parse hash message).Type_ ≠ []) := by
  have hempty : subjectRegex.matchString (TrimSpace (firstLine message)) = false →
      Parse hash message = emptyCommit hash message := by
    intro h
    apply Parse_of_none
    cases hf : subjectRegex.findSubmatch (TrimSpace (firstLine message)) with
    | none => rfl
    | some m => simp [Regex.matchString, hf] at h
  have htype : subjectRegex.matchString (TrimSpace (firstLine message)) = true →
      ∃ t, (t ≠ [] ∧ t.all isWord = true) ∧ (Parse hash message).Type_ = ToLower t := by
    intro h
    obtain ⟨t, scope, bang, rest, h1, h2, h3, h4⟩ := subjectRegex_match_form _ h
    exact ⟨t, h2, (Parse_of_form hash message t scope bang rest h1 h2 h3 h4).2.1⟩
  have hchars : ∀ c ∈ (Parse hash message).Type_, isWord c = true ∧ c.isUpper = false := by
    intro c hc
    cases hmatch : subjectRegex.matchString (TrimSpace (firstLine message)) with
    | false =>
      rw [hempty hmatch] at hc
      cases hc
    | true =>
      obtain ⟨t, ⟨_, hall⟩, ht⟩ := htype hmatch
      rw [ht, ToLower, List.mem_map] at hc
      obtain ⟨x, hx, rfl⟩ := hc
      exact toLower_word x (List.all_eq_true.mp hall x hx)
  have hiff : (Parse hash message).Type_ = [] ↔
      subjectRegex.matchString (TrimSpace (firstLine message)) = false := by
    constructor
    · intro h
      cases hmatch : subjectRegex.matchString (TrimSpace (firstLine message)) with
      | false => rfl
      | true =>
        obtain ⟨t, ⟨hne, _⟩, ht⟩ := htype hmatch
        rw [ht, ToLower, List.map_eq_nil_iff] at h
        exact absurd h hne
    · intro h
      rw [hempty h]
      rfl
  refine ⟨hiff, ?_, hchars, ?_, ?_⟩
  · constructor
    · exact subjectRegex_match_form _
    · rintro ⟨t, scope, bang, rest, h1, h2, h3, h4⟩
      exact (Parse_of_form hash message t scope bang rest h1 h2 h3 h4).1
  · unfold ToLower
    conv_rhs => rw [← List.map_id (Parse hash message).Type_]
    apply List.map_congr_left
    intro c hc
    have hup := (hchars c hc).2
    have hn : ¬ (c.toNat ≥ 65 ∧ c.toNat ≤ 90) := by
      intro ⟨a, b⟩
      have : c.isUpper = true := by
        simp only [Char.isUpper, Bool.and_eq_true, decide_eq_true_eq]
        exact ⟨a, b⟩
      rw [this] at hup
      cases hup
    simp only [Char.toLower, id]
    rw [if_neg hn]
  · intro h hnil
    rw [hempty (hiff.mp hnil)] at h
    simp [emptyCommit] at h

end commit

/-! ## The footer grammar -/

namespace commit

theorem isWordHyphen_of_isReSpace {c : Char} (hc : isReSpace c = true) :
    isWordHyphen c = false := by
  cases h : isWordHyphen c with
  | false => rfl
  | true =>
    rw [isReSpace_of_isWordHyphen h] at hc
    cases hc

theorem footerRest_head (ws rest : Str) (hws : ws.all isReSpace = true) (c : Char) (cs : Str)
    (h : ws ++ ':' :: rest = c :: cs) : isWordHyphen c = false := by
  cases ws with
  | nil =>
    cases h
    decide
  | cons w ws' =>
    simp only [List.cons_append, List.cons.injEq] at h
    simp only [List.all_cons, Bool.and_eq_true] at hws
    rw [← h.1]
    exact isWordHyphen_of_isReSpace hws.1

/-- The end of the footer pattern on white space, the colon and the rest of the line: the
value is the rest without the white space at its start. -/
theorem footerTail_run_rest (ws rest : Str) (caps : Caps) (hws : ws.all isReSpace = true)
    (hne : rest.dropWhile isReSpace ≠ []) (hnl : '\n' ∉ rest) :
    ∃ tl, footerTail.run (ws ++ ':' :: rest, caps) =
      ([], (2, rest.dropWhile isReSpace) :: caps) :: tl := by
  rw [footerTail_run,
    dropWhile_append_of_all isReSpace ws (':' :: rest) hws (by intro c cs e; cases e; decide)]
  exact colon_valueTail_run_rest 2 rest caps hne hnl

theorem footerTail_run_change (x : Str) (caps : Caps) :
    footerTail.run (' ' :: 'C' :: x, caps) = [] := by
  rw [footerTail_run]
  have h1 : (' ' :: 'C' :: x).dropWhile isReSpace = 'C' :: x := by
    simp [List.dropWhile, isReSpace]
  rw [h1, run_seq_chr_ne (by decide)]

/-- On a line `TOKEN`, white space, `:`, rest, the preferred match of the footer pattern
captures the token and, as the value, the rest without the white space at its start. -/
theorem footerRegex_run_form (tok ws rest : Str)
    (htok : (tok ≠ [] ∧ tok.all isWordHyphen = true) ∨ tok = breakingChange)
    (hws : ws.all isReSpace = true) (hne : rest.dropWhile isReSpace ≠ [])
    (hnl : '\n' ∉ rest) :
    ∃ tl, footerRegex.run (tok ++ (ws ++ ':' :: rest), []) =
      ([], [(2, rest.dropWhile isReSpace), (1, tok)]) :: tl := by
  obtain ⟨tl, h⟩ := footerTail_run_rest ws rest [(1, tok)] hws hne hnl
  rw [footerRegex_eq, run_seq_group_alt]
  rcases htok with ⟨h1, h2⟩ | rfl
  · refine ⟨tl ++ (Regex.seq (.group 1 (.lit breakingChange)) footerTail).run
      (tok ++ (ws ++ ':' :: rest), []), ?_⟩
    rw [run_seq_group_plus_eq 1 isWordHyphen _ footerTail_fails,
      takeWhile_append_of_all _ _ _ h2 (footerRest_head ws rest hws),
      dropWhile_append_of_all _ _ _ h2 (footerRest_head ws rest hws), if_neg h1, h]
    rfl
  · refine ⟨tl, ?_⟩
    have e : breakingChange ++ (ws ++ ':' :: rest) =
        ['B', 'R', 'E', 'A', 'K', 'I', 'N', 'G'] ++
          ' ' :: 'C' :: ('H' :: 'A' :: 'N' :: 'G' :: 'E' :: (ws ++ ':' :: rest)) := rfl
    have hfirst : (Regex.seq (.group 1 (.plus isWordHyphen)) footerTail).run
        (breakingChange ++ (ws ++ ':' :: rest), []) = [] := by
      rw [e, run_seq_group_plus_eq 1 isWordHyphen _ footerTail_fails,
        takeWhile_append_of_all _ _ _ (by decide) (by intro c cs e; cases e; decide),
        dropWhile_append_of_all _ _ _ (by decide) (by intro c cs e; cases e; decide),
        if_neg (by decide), footerTail_run_change]
    rw [hfirst, run_seq_group_lit, h]
    rfl

theorem lit_run_ne_nil (l s : Str) (caps : Caps) (h : (Regex.lit l).run (s, caps) ≠ []) :
    ∃ r, s = l ++ r := by
  induction l generalizing s with
  | nil => exact ⟨s, rfl⟩
  | cons c cs ih =>
    have e : Regex.lit (c :: cs) = .seq (.chr c) (Regex.lit cs) := rfl
    rw [e, run_seq_chr] at h
    cases s with
    | nil => exact absurd rfl h
    | cons d ds =>
      by_cases hd : d = c
      · subst hd
        simp only [if_true] at h
        obtain ⟨r, hr⟩ := ih ds h
        exact ⟨r, by rw [hr]; rfl⟩
      · simp only [hd, if_false] at h
        exact absurd rfl h

theorem footerTail_ne_nil (r : Str) (caps : Caps) (h : footerTail.run (r, caps) ≠ []) :
    ∃ ws rest, r = ws ++ ':' :: rest ∧ ws.all isReSpace = true ∧ rest ≠ [] := by
  rw [footerTail_run] at h
  obtain ⟨rest, h1, h2⟩ := colon_valueTail_ne_nil 2 _ caps h
  refine ⟨r.takeWhile isReSpace, rest, ?_, all_takeWhile isReSpace r, h2⟩
  rw [← h1, List.takeWhile_append_dropWhile]

/-- A text the footer pattern matches is a token of word and hyphen characters, or the
token `BREAKING CHANGE`, then white space, the colon and a rest. -/
theorem footerRegex_match_form (line : Str) (h : footerRegex.matchString line = true) :
    ∃ tok ws rest, line = tok ++ (ws ++ ':' :: rest) ∧
      ((tok ≠ [] ∧ tok.all isWordHyphen = true) ∨ tok = breakingChange) ∧
      ws.all isReSpace = true ∧ rest ≠ [] := by
  have hrun : footerRegex.run (line, []) ≠ [] := by
    intro e
    simp [Regex.matchString, Regex.findSubmatch, e] at h
  rw [footerRegex_eq, run_seq_group_alt] at hrun
  by_cases h1 : (Regex.seq (.group 1 (.plus isWordHyphen)) footerTail).run (line, []) = []
  · rw [h1, List.nil_append] at hrun
    have hlit : (Regex.lit breakingChange).run (line, []) ≠ [] := by
      intro e
      apply hrun
      rw [run_seq_group, e]
      rfl
    obtain ⟨r, hr⟩ := lit_run_ne_nil _ _ _ hlit
    rw [hr, run_seq_group_lit] at hrun
    obtain ⟨ws, rest, h2, h3, h4⟩ := footerTail_ne_nil _ _ hrun
    exact ⟨breakingChange, ws, rest, by rw [hr, h2], Or.inr rfl, h3, h4⟩
  · rw [run_seq_group_plus_eq 1 isWordHyphen _ footerTail_fails] at h1
    by_cases ht : line.takeWhile isWordHyphen = []
    · rw [if_pos ht] at h1
      exact absurd rfl h1
    · rw [if_neg ht] at h1
      obtain ⟨ws, rest, h2, h3, h4⟩ := footerTail_ne_nil _ _ h1
      refine ⟨line.takeWhile isWordHyphen, ws, rest, ?_,
        Or.inl ⟨ht, all_takeWhile isWordHyphen line⟩, h3, h4⟩
      rw [← h2, List.takeWhile_append_dropWhile]

/-- In a trimmed text, what follows a given start loses not everything when the white
space at its start is removed. -/
theorem dropWhile_ne_nil_of_trimmed (line pre rest : Str) (h : TrimSpace line = pre ++ rest)
    (hrest : rest ≠ []) : rest.dropWhile isReSpace ≠ [] := by
  intro hnil
  have hall := (dropWhile_eq_nil_iff_all _ _).mp hnil
  have hl := List.getLast?_eq_getLast rest hrest
  have hsp : isReSpace (rest.getLast hrest) = true :=
    List.all_eq_true.mp hall _ (List.getLast_mem hrest)
  have hlast : (TrimSpace line).getLast? = some (rest.getLast hrest) := by
    rw [h, List.getLast?_append_of_ne_nil _ hrest, hl]
  have := TrimSpace_getLast line _ hlast
  rw [isSpace_of_isReSpace hsp] at this
  cases this

/-- A line without a newline that trims to `TOKEN`, white space, `:`, rest is a footer
line, and its footer is the token with the rest without the white space at its start. -/
theorem footerOfLine_form (line tok ws rest : Str) (hnl : '\n' ∉ line)
    (htrim : TrimSpace line = tok ++ (ws ++ ':' :: rest))
    (htok : (tok ≠ [] ∧ tok.all isWordHyphen = true) ∨ tok = breakingChange)
    (hws : ws.all isReSpace = true) (hrest : rest ≠ []) :
    footerRegex.matchString (TrimSpace line) = true ∧ TrimSpace line ≠ [] ∧
      footerOfLine line = some ⟨tok, rest.dropWhile isReSpace⟩ := by
  have hnl2 : '\n' ∉ rest := by
    intro hmem
    apply hnl
    apply TrimSpace_subset
    rw [htrim]
    simp [hmem]
  have hne : rest.dropWhile isReSpace ≠ [] := by
    have e : TrimSpace line = (tok ++ (ws ++ [':'])) ++ rest := by
      rw [htrim]
      simp
    exact dropWhile_ne_nil_of_trimmed line _ rest e hrest
  obtain ⟨tl, h⟩ := footerRegex_run_form tok ws rest htok hws hne hnl2
  have hne2 : tok ++ (ws ++ ':' :: rest) ≠ [] := by simp
  simp [footerOfLine, Regex.matchString, Regex.findSubmatch, htrim, h, Caps.get, List.lookup]

/-- C6, as amended: when the trimmed first line matches the subject pattern (with or
without the `!` marker) and the last of at least two lines trims to
`BREAKING-CHANGE: y` or `BREAKING CHANGE: y`, with `y` not empty, `Parse` returns a
breaking commit whose last footer has that token; the value of that footer is `y` without
the white space at its start, which is not empty, and is `y` when `y` does not start with
white space. -/
theorem Parse_breaking_footer (hash message last tok y : Str)
    (hheader : subjectRegex.matchString (TrimSpace (firstLine message)) = true)
    (hlines : 2 ≤ (SplitLines message).length)
    (hlast : (SplitLines message).getLast? = some last)
    (htok : tok = breakingHyphenChange ∨ tok = breakingChange)
    (htrim : TrimSpace last = tok ++ ':' :: ' ' :: y)
    (hy : y ≠ []) :
    (Parse hash message).Breaking = true ∧
      (Parse hash message).Footers.getLast? = some ⟨tok, y.dropWhile isReSpace⟩ ∧
      y.dropWhile isReSpace ≠ [] ∧
      ((∀ c, y.head? = some c → isReSpace c = false) →
        (Parse hash message).Footers.getLast? = some ⟨tok, y⟩) := by
  have hvalue : y.dropWhile isReSpace ≠ [] := by
    have e : TrimSpace last = (tok ++ [':', ' ']) ++ y := by
      rw [htrim]
      simp
    exact dropWhile_ne_nil_of_trimmed last _ y e hy
  have hmemlast : last ∈ SplitLines message := List.mem_of_getLast?_eq_some hlast
  have hnl : '\n' ∉ last := SplitLines_no_newline message last hmemlast
  have htok2 : (tok ≠ [] ∧ tok.all isWordHyphen = true) ∨ tok = breakingChange := by
    rcases htok with rfl | rfl
    · exact Or.inl (by decide)
    · exact Or.inr rfl
  have hdrop : (' ' :: y).dropWhile isReSpace = y.dropWhile isReSpace := by
    simp [List.dropWhile, isReSpace]
  obtain ⟨hmatch, htne, hfoot⟩ :=
    footerOfLine_form last tok [] (' ' :: y) hnl htrim htok2 rfl (List.cons_ne_nil _ _)
  rw [hdrop] at hfoot
  have hrest : (SplitLines message).tail.getLast? = some last := by
    rw [tail_getLast? _ hlines, hlast]
  have hlt := scanFooterStart_lt _ last hrest htne hmatch
  have hfooters : (footersOf message).2.getLast? = some ⟨tok, y.dropWhile isReSpace⟩ := by
    have hlen : (SplitLines message).tail.length + 1 > 1 := by
      rw [List.length_tail]
      omega
    simp only [footersOf, hlen, if_true, parseBodyAndFooters]
    exact filterMap_drop_getLast? footerOfLine _ last _ hrest hfoot _ hlt
  cases hm : subjectRegex.findSubmatch (TrimSpace (firstLine message)) with
  | none => simp [Regex.matchString, hm] at hheader
  | some m =>
    rw [Parse_of_some hash message m hm]
    refine ⟨?_, hfooters, hvalue, ?_⟩
    · have hmem := List.mem_of_getLast?_eq_some hfooters
      have hany : (footersOf message).2.any isBreakingFooter = true :=
        List.any_eq_true.mpr ⟨_, hmem, isBreakingFooter_breaking tok _ htok⟩
      simp [hany]
    · intro hhead
      rw [dropWhile_eq_self_of_head isReSpace y hhead] at hfooters
      exact hfooters

/-- The test message `refactor: change API`, blank line, `BREAKING-CHANGE: new response
format`. -/
theorem Parse_breaking_footer_witness :
    (Parse [] "refactor: change API\n\nBREAKING-CHANGE: new response format".toList).Breaking
        = true ∧
      (Parse [] "refactor: change API\n\nBREAKING-CHANGE: new response format".toList
        ).Footers.getLast? =
          some ⟨breakingHyphenChange, "new response format".toList.dropWhile isReSpace⟩ ∧
      "new response format".toList.dropWhile isReSpace ≠ [] ∧
      ((∀ c, "new response format".toList.head? = some c → isReSpace c = false) →
        (Parse [] "refactor: change API\n\nBREAKING-CHANGE: new response format".toList
          ).Footers.getLast? = some ⟨breakingHyphenChange, "new response format".toList⟩) :=
  Parse_breaking_footer []
    "refactor: change API\n\nBREAKING-CHANGE: new response format".toList
    "BREAKING-CHANGE: new response format".toList breakingHyphenChange
    "new response format".toList (by decide) (by decide) (by decide) (Or.inl rfl) (by decide)
    (by decide)

/-- C6 fails for a value that starts with white space: the last line
`BREAKING-CHANGE:  y` (two spaces) trims to `BREAKING-CHANGE: ` followed by ` y`, which is
not empty; the commit is breaking and the footer has the token, but its value is `y`,
without the space. -/
theorem Parse_breaking_footer_space :
    TrimSpace "BREAKING-CHANGE:  y".toList = breakingHyphenChange ++ ':' :: ' ' :: " y".toList ∧
      (Parse [] "refactor: x\nBREAKING-CHANGE:  y".toList).Breaking = true ∧
      (Parse [] "refactor: x\nBREAKING-CHANGE:  y".toList).Footers.getLast? =
        some ⟨breakingHyphenChange, "y".toList⟩ ∧
      (Parse [] "refactor: x\nBREAKING-CHANGE:  y".toList).Footers.getLast? ≠
        some ⟨breakingHyphenChange, " y".toList⟩ := by
  decide

/-- C22: when the trimmed first line matches the subject pattern, the lines after it fall
into `before` and `run`, where `run` is the longest run of footer lines at the end (each of
them, trimmed, is not blank and matches the footer pattern, and the line before the run is
blank or fails it); the footers `Parse` returns are those of the lines of `run`, one for
each line and in their order. A line after the header matches the footer pattern exactly
when, trimmed, it is a token of one or more word and hyphen characters or the token
`BREAKING CHANGE`, then optional white space, the colon and a non-empty rest; the footer of
such a line is that token with, as its value, the rest without the white space at its
start. -/
theorem Parse_footers (hash message : Str)
    (h : subjectRegex.matchString (TrimSpace (firstLine message)) = true) :
    ∃ before run,
      (SplitLines message).tail = before ++ run ∧
        (∀ l ∈ run, TrimSpace l ≠ [] ∧ footerRegex.matchString (TrimSpace l) = true) ∧
        (∀ l, before.getLast? = some l →
          TrimSpace l = [] ∨ footerRegex.matchString (TrimSpace l) = false) ∧
        (Parse hash message).Footers.map some = run.map footerOfLine ∧
        (Parse hash message).Footers.length = run.length ∧
        ∀ l ∈ (SplitLines message).tail,
          (footerRegex.matchString (TrimSpace l) = true ↔
            ∃ tok ws rest, TrimSpace l = tok ++ (ws ++ ':' :: rest) ∧
              ((tok ≠ [] ∧ tok.all isWordHyphen = true) ∨ tok = breakingChange) ∧
              ws.all isReSpace = true ∧ rest ≠ []) ∧
          ∀ tok ws rest, TrimSpace l = tok ++ (ws ++ ':' :: rest) →
            (tok ≠ [] ∧ tok.all isWordHyphen = true) ∨ tok = breakingChange →
            ws.all isReSpace = true → rest ≠ [] →
            TrimSpace l ≠ [] ∧ footerOfLine l = some ⟨tok, rest.dropWhile isReSpace⟩ := by
  obtain ⟨before, run, hsplit, hrun, hbefore, hpf⟩ :=
    parseBodyAndFooters_eq (SplitLines message).tail
  cases hm : subjectRegex.findSubmatch (TrimSpace (firstLine message)) with
  | none => simp [Regex.matchString, hm] at h
  | some m =>
    have hsome : ∀ l ∈ run, ∃ f, footerOfLine l = some f := by
      intro l hl
      obtain ⟨m', _, h2⟩ := isSome_footerOfLine l (hrun l hl)
      exact ⟨_, h2⟩
    have hfooters : (Parse hash message).Footers = run.filterMap footerOfLine := by
      rw [Parse_of_some hash message m hm, footersOf_eq, hpf]
    have hmap := filterMap_map_some footerOfLine run hsome
    refine ⟨before, run, hsplit, ?_, ?_, ?_, ?_, ?_⟩
    · intro l hl
      have := hrun l hl
      simpa [isFooterLine] using this
    · intro l hl
      have := hbefore l hl
      by_cases h1 : TrimSpace l = []
      · exact Or.inl h1
      · right
        simpa [isFooterLine, h1] using this
    · rw [hfooters, hmap]
    · rw [hfooters]
      have := congrArg List.length hmap
      simpa using this
    · intro l hl
      have hnl : '\n' ∉ l :=
        SplitLines_no_newline message l (List.mem_of_mem_tail hl)
      refine ⟨⟨footerRegex_match_form _, ?_⟩, ?_⟩
      · rintro ⟨tok, ws, rest, h1, h2, h3, h4⟩
        exact (footerOfLine_form l tok ws rest hnl h1 h2 h3 h4).1
      · intro tok ws rest h1 h2 h3 h4
        exact (footerOfLine_form l tok ws rest hnl h1 h2 h3 h4).2

/-- The test message with a body and two footers: the footers are those of the last two
lines. -/
theorem Parse_footers_witness :
    ∃ before run,
      (SplitLines "feat: x\n\nbody\n\nReviewed-by: Z\nRefs: #123".toList).tail = before ++ run ∧
        (∀ l ∈ run, TrimSpace l ≠ [] ∧ footerRegex.matchString (TrimSpace l) = true) ∧
        (∀ l, before.getLast? = some l →
          TrimSpace l = [] ∨ footerRegex.matchString (TrimSpace l) = false) ∧
        (Parse [] "feat: x\n\nbody\n\nReviewed-by: Z\nRefs: #123".toList).Footers.map some =
          run.map footerOfLine ∧
        (Parse [] "feat: x\n\nbody\n\nReviewed-by: Z\nRefs: #123".toList).Footers.length =
          run.length ∧
        ∀ l ∈ (SplitLines "feat: x\n\nbody\n\nReviewed-by: Z\nRefs: #123".toList).tail,
          (footerRegex.matchString (TrimSpace l) = true ↔
            ∃ tok ws rest, TrimSpace l = tok ++ (ws ++ ':' :: rest) ∧
              ((tok ≠ [] ∧ tok.all isWordHyphen = true) ∨ tok = breakingChange) ∧
              ws.all isReSpace = true ∧ rest ≠ []) ∧
          ∀ tok ws rest, TrimSpace l = tok ++ (ws ++ ':' :: rest) →
            (tok ≠ [] ∧ tok.all isWordHyphen = true) ∨ tok = breakingChange →
            ws.all isReSpace = true → rest ≠ [] →
            TrimSpace l ≠ [] ∧ footerOfLine l = some ⟨tok, rest.dropWhile isReSpace⟩ :=
  Parse_footers [] "feat: x\n\nbody\n\nReviewed-by: Z\nRefs: #123".toList (by decide)

end commit
